import Mathlib

/-! # gversions: the flexible version comparator

A shallow embedding of `version.go` (package `gversions`) and of the few
functions of the Go standard library it calls.

* A Go string is modelled by the list of its code points (`Str`).  For a
  string that is valid UTF-8 the byte order used by `==`, `<` and
  `strings.Compare` is the code point order, and every index the program
  computes falls on a code point boundary, so indices are counted in code
  points here.
* `int` is the 64-bit Go `int`.
* An indexing or slicing expression of the source is modelled by an
  operation into `Option`; `none` is the run-time panic of Go.  A counted
  `for` loop is a recursion on fuel that gives `none` when the fuel runs out.
* The tables of package `unicode` are not part of the repository: they are a
  parameter (`UnicodeTables`), constrained only on ASCII.
-/

namespace gversions

/-- A Go string, as the list of its code points. -/
abbrev Str := List Char

/-! ## Standard library -/

/-- The ASCII white space of Go: tab, line feed, vertical tab, form feed,
carriage return and space. -/
def asciiSpace (c : Char) : Bool :=
  c == ' ' || (9 ≤ c.toNat && c.toNat ≤ 13)

/-- The functions `unicode.IsSpace`, `unicode.IsDigit` and `unicode.ToLower`.
Their tables are outside the repository; what is fixed here is their value on
ASCII, which is the same in every version of Unicode. -/
structure UnicodeTables where
  IsSpace : Char → Bool
  IsDigit : Char → Bool
  ToLower : Char → Char
  isSpace_ascii : ∀ c : Char, c.toNat < 128 → IsSpace c = asciiSpace c
  isDigit_ascii : ∀ c : Char, c.toNat < 128 → IsDigit c = c.isDigit
  toLower_ascii : ∀ c : Char, c.toNat < 128 → ToLower c = c.toLower

/-- The function `strings.TrimLeftFunc(s, unicode.IsSpace)`. -/
def TrimLeftSpace (U : UnicodeTables) (s : Str) : Str :=
  s.dropWhile U.IsSpace

/-- The function `strings.TrimRightFunc(s, unicode.IsSpace)`. -/
def TrimRightSpace (U : UnicodeTables) (s : Str) : Str :=
  (s.reverse.dropWhile U.IsSpace).reverse

/-- The function `strings.TrimSpace`. -/
def TrimSpace (U : UnicodeTables) (s : Str) : Str :=
  TrimRightSpace U (TrimLeftSpace U s)

/-- The function `strings.HasPrefix`. -/
def HasPrefix : Str → Str → Bool
  | _, [] => true
  | [], _ :: _ => false
  | c :: cs, d :: ds => c == d && HasPrefix cs ds

/-- The function `strings.TrimPrefix`. -/
def TrimPrefix (s pre : Str) : Str :=
  if HasPrefix s pre then s.drop pre.length else s

/-- The function `strings.IndexFunc`: the index of the first code point satisfying `f`,
or `-1`. -/
def IndexFunc : Str → (Char → Bool) → Int
  | [], _ => -1
  | c :: cs, f =>
    if f c then 0
    else
      let r := IndexFunc cs f
      if r < 0 then -1 else r + 1

/-- The function `strings.IndexByte`. -/
def IndexByte (s : Str) (c : Char) : Int :=
  IndexFunc s (fun d => d == c)

/-- The function `strings.Contains`. -/
def Contains : Str → Str → Bool
  | [], sub => sub.isEmpty
  | c :: cs, sub => HasPrefix (c :: cs) sub || Contains cs sub

/-- The function `strings.ReplaceAll(s, old, new)` for one-character `old` and `new`. -/
def ReplaceAll (s : Str) (old new : Char) : Str :=
  s.map (fun c => if c = old then new else c)

/-- The function `strings.ToLower`. -/
def ToLower (U : UnicodeTables) (s : Str) : Str :=
  s.map U.ToLower

/-- The function `strings.Join`. -/
def Join : List Str → Str → Str
  | [], _ => []
  | [t], _ => t
  | t :: u :: ts, sep => t ++ sep ++ Join (u :: ts) sep

/-- The function `strings.Compare`. -/
def stringsCompare : Str → Str → Int
  | [], [] => 0
  | [], _ :: _ => -1
  | _ :: _, [] => 1
  | c :: cs, d :: ds =>
    if c < d then -1 else if d < c then 1 else stringsCompare cs ds

/-- The slice expression `s[i:]`. -/
def sliceFrom {α : Type} (s : List α) (i : Int) : Option (List α) :=
  if 0 ≤ i ∧ i ≤ s.length then some (s.drop i.toNat) else none

/-- The slice expression `s[:j]`. -/
def sliceTo {α : Type} (s : List α) (j : Int) : Option (List α) :=
  if 0 ≤ j ∧ j ≤ s.length then some (s.take j.toNat) else none

/-- Largest value of the 64-bit `int`. -/
def maxInt : Int := 9223372036854775807

/-- Smallest value of the 64-bit `int`. -/
def minInt : Int := -9223372036854775808

/-- Largest value of `uint64`. -/
def maxUint64 : Nat := 18446744073709551615

/-- The digit loop of `strconv.ParseUint(s, 10, 64)`, from the accumulator
`n`: `none` is a syntax error, `some (v, true)` a range error (with the
clamped value `v`), `some (v, false)` the value `v`. -/
def parseUintLoop : Str → Nat → Option (Nat × Bool)
  | [], n => some (n, false)
  | c :: cs, n =>
    if 48 ≤ c.toNat ∧ c.toNat ≤ 57 then
      if n ≥ maxUint64 / 10 + 1 then some (maxUint64, true)
      else
        let n1 := n * 10 + (c.toNat - 48)
        if n1 > maxUint64 then some (maxUint64, true)
        else parseUintLoop cs n1
    else none

/-- The function `strconv.Atoi`: the value, and whether the error is non-nil. -/
def Atoi (s : Str) : Int × Bool :=
  let neg : Bool := match s with
    | c :: _ => c == '-'
    | [] => false
  let digits : Str := match s with
    | c :: r => if c == '-' || c == '+' then r else s
    | [] => s
  if digits = [] then (0, true)
  else
    match parseUintLoop digits 0 with
    | none => (0, true)
    | some (un, _) =>
      if !neg && (un : Int) ≥ maxInt + 1 then (maxInt, true)
      else if neg && (un : Int) > maxInt + 1 then (minInt, true)
      else (if neg then -(un : Int) else (un : Int), false)

/-- The call `dotOrDash.Split(s, -1)` of `splitByDotOrDash`, for the pattern
`[.-]` with the dot escaped: the pieces of `s` between
the occurrences of `.` and `-`, empty pieces included. -/
def splitByDotOrDash : Str → List Str
  | [] => [[]]
  | c :: cs =>
    if c = '.' ∨ c = '-' then [] :: splitByDotOrDash cs
    else
      match splitByDotOrDash cs with
      | [] => [[c]]
      | t :: ts => (c :: t) :: ts

/-! ## version.go -/

/-- Type `suffixKind` of the source, an `int`. -/
abbrev suffixKind := Int

def suffixPrerelease : suffixKind := 0

def suffixNone : suffixKind := 1

def suffixPostrelease : suffixKind := 2

/-- The options: each table is a slice that may be `nil` (`none`). -/
structure Options where
  PrereleaseSuffixOrder : Option (List Str)
  PostreleaseSuffixOrder : Option (List Str)

/-- The declared value of the package variable `DefaultOptions`. -/
def DefaultOptions : Options where
  PrereleaseSuffixOrder := some ["alpha".toList, "beta".toList, "rc".toList]
  PostreleaseSuffixOrder := some ["hotfix".toList]

/-- The closure `normalize` of `CompareWithOptions`. -/
def normalize (U : UnicodeTables) (s : Str) : Option Str := do
  let s := TrimSpace U s
  let s := TrimPrefix s ['v']
  let s := TrimPrefix s ['V']
  let idx := IndexFunc s U.IsDigit
  let s ← if idx > 0 then sliceFrom s idx else some s
  let s := ReplaceAll s '_' '.'
  let idx := IndexByte s '+'
  if idx ≥ 0 then
    if Contains s ['.'] then sliceTo s idx
    else some (ReplaceAll s '+' '.')
  else some s

/-- The loop over `order` shared by `rankByOrder` and `suffixPriority`; `i`
is the index of the head of the list. -/
def rankLoop (s : Str) : List Str → Int → Int
  | [], _ => 0
  | token :: rest, i =>
    if token = [] then rankLoop s rest (i + 1)
    else if Contains s token then i + 1
    else rankLoop s rest (i + 1)

/-- The closure `rankByOrder` of `CompareWithOptions`. -/
def rankByOrder (U : UnicodeTables) (s : Str) (order : Option (List Str)) : Int :=
  rankLoop (ToLower U s) (order.getD []) 0

/-- The function `suffixPriority`. -/
def suffixPriority (U : UnicodeTables) (suffix : Str) (order : Option (List Str)) : Int :=
  rankLoop (ToLower U suffix) (order.getD []) 0

/-- The closure `suffixKindOf` of `CompareWithOptions`. -/
def suffixKindOf (U : UnicodeTables) (prereleaseOrder postreleaseOrder : Option (List Str))
    (suffix : Str) : suffixKind :=
  let suffix := ToLower U suffix
  if TrimSpace U suffix = [] then suffixNone
  else if rankByOrder U suffix postreleaseOrder > 0 then suffixPostrelease
  else if rankByOrder U suffix prereleaseOrder > 0 then suffixPrerelease
  else suffixPostrelease

/-- The loop of the closure `numericPrefixLen`, from index `i`. -/
def numericPrefixLenLoop (tokens : List Str) : Nat → Nat → Option Nat
  | 0, _ => none
  | fuel + 1, i =>
    if i < tokens.length then
      match tokens[i]? with
      | none => none
      | some t => if (Atoi t).2 then some i else numericPrefixLenLoop tokens fuel (i + 1)
    else some tokens.length

/-- The closure `numericPrefixLen` of `CompareWithOptions`. -/
def numericPrefixLen (tokens : List Str) : Option Nat :=
  numericPrefixLenLoop tokens (tokens.length + 1) 0

/-- The loop "Compare numeric prefix", from index `i`: `some (some r)` when
the loop returns `r`, `some none` when it ends without returning. -/
def numericLoop (t1 t2 : List Str) (n1 n2 : Nat) : Nat → Nat → Option (Option Int)
  | 0, _ => none
  | fuel + 1, i =>
    if i < n1 ∧ i < n2 then
      match t1[i]?, t2[i]? with
      | some ta, some tb =>
        let aNum := (Atoi ta).1
        let bNum := (Atoi tb).1
        if aNum < bNum then some (some (-1))
        else if aNum > bNum then some (some 1)
        else numericLoop t1 t2 n1 n2 fuel (i + 1)
      | _, _ => none
    else some none

/-- The loop "Compare remaining tokens", from index `i`: `some (some r)` when
the loop returns `r`, `some none` when it ends without returning. -/
def remainingLoop (t1 t2 : List Str) (maxLen : Nat) : Nat → Nat → Option (Option Int)
  | 0, _ => none
  | fuel + 1, i =>
    if i < maxLen then
      if i ≥ t1.length then some (some (-1))
      else if i ≥ t2.length then some (some 1)
      else
        match t1[i]?, t2[i]? with
        | some ta, some tb =>
          if ta = tb then remainingLoop t1 t2 maxLen fuel (i + 1)
          else
            let aNum := (Atoi ta).1
            let aErr := (Atoi ta).2
            let bNum := (Atoi tb).1
            let bErr := (Atoi tb).2
            if !aErr && !bErr then
              if aNum < bNum then some (some (-1)) else some (some 1)
            else if !aErr && bErr then some (some 1)
            else if aErr && !bErr then some (some (-1))
            else
              let cmp := stringsCompare ta tb
              if cmp ≠ 0 then some (some cmp)
              else remainingLoop t1 t2 maxLen fuel (i + 1)
        | _, _ => none
    else some none

/-- The function `CompareWithOptions`, with the package variable
`DefaultOptions` at its declared value; `none` is a run-time panic. -/
def CompareWithOptions (U : UnicodeTables) (a b : Str) (opt : Options) : Option Int := do
  let prereleaseOrder :=
    if opt.PrereleaseSuffixOrder = none then DefaultOptions.PrereleaseSuffixOrder
    else opt.PrereleaseSuffixOrder
  let postreleaseOrder :=
    if opt.PostreleaseSuffixOrder = none then DefaultOptions.PostreleaseSuffixOrder
    else opt.PostreleaseSuffixOrder
  let a ← normalize U a
  let b ← normalize U b
  if a = b then some 0
  else
    let t1 := splitByDotOrDash a
    let t2 := splitByDotOrDash b
    let n1 ← numericPrefixLen t1
    let n2 ← numericPrefixLen t2
    match ← numericLoop t1 t2 n1 n2 (t1.length + 1) 0 with
    | some r => some r
    | none =>
      if n1 < n2 then some (-1)
      else if n1 > n2 then some 1
      else
        let suffix1 := Join (← sliceFrom t1 n1) ['-']
        let suffix2 := Join (← sliceFrom t2 n2) ['-']
        let kind1 := suffixKindOf U prereleaseOrder postreleaseOrder suffix1
        let kind2 := suffixKindOf U prereleaseOrder postreleaseOrder suffix2
        if kind1 ≠ kind2 then
          if kind1 < kind2 then some (-1) else some 1
        else
          let p1 := suffixPriority U suffix1 prereleaseOrder
          let p2 := suffixPriority U suffix2 prereleaseOrder
          if kind1 = suffixPrerelease ∧ (p1 > 0 ∧ p2 > 0 ∧ p1 ≠ p2) then
            if p1 < p2 then some (-1) else some 1
          else
            let q1 := suffixPriority U suffix1 postreleaseOrder
            let q2 := suffixPriority U suffix2 postreleaseOrder
            if kind1 = suffixPostrelease ∧ (q1 > 0 ∧ q2 > 0 ∧ q1 ≠ q2) then
              if q1 < q2 then some (-1) else some 1
            else
              let maxLen := if t2.length > t1.length then t2.length else t1.length
              match ← remainingLoop t1 t2 maxLen (maxLen + 1) 0 with
              | some r => some r
              | none => some 0

/-- The function `Compare`. -/
def Compare (U : UnicodeTables) (a b : Str) : Option Int :=
  CompareWithOptions U a b ⟨none, none⟩

/-- The function `CompareWithOptions`, run while the exported package variable
`DefaultOptions`, which an importing program may assign, holds the value `D`.
The function reads the variable and does not assign it; `none` is a run-time
panic. -/
def CompareWithOptionsAt (U : UnicodeTables) (D : Options) (a b : Str) (opt : Options) :
    Option Int := do
  let prereleaseOrder :=
    if opt.PrereleaseSuffixOrder = none then D.PrereleaseSuffixOrder
    else opt.PrereleaseSuffixOrder
  let postreleaseOrder :=
    if opt.PostreleaseSuffixOrder = none then D.PostreleaseSuffixOrder
    else opt.PostreleaseSuffixOrder
  let a ← normalize U a
  let b ← normalize U b
  if a = b then some 0
  else
    let t1 := splitByDotOrDash a
    let t2 := splitByDotOrDash b
    let n1 ← numericPrefixLen t1
    let n2 ← numericPrefixLen t2
    match ← numericLoop t1 t2 n1 n2 (t1.length + 1) 0 with
    | some r => some r
    | none =>
      if n1 < n2 then some (-1)
      else if n1 > n2 then some 1
      else
        let suffix1 := Join (← sliceFrom t1 n1) ['-']
        let suffix2 := Join (← sliceFrom t2 n2) ['-']
        let kind1 := suffixKindOf U prereleaseOrder postreleaseOrder suffix1
        let kind2 := suffixKindOf U prereleaseOrder postreleaseOrder suffix2
        if kind1 ≠ kind2 then
          if kind1 < kind2 then some (-1) else some 1
        else
          let p1 := suffixPriority U suffix1 prereleaseOrder
          let p2 := suffixPriority U suffix2 prereleaseOrder
          if kind1 = suffixPrerelease ∧ (p1 > 0 ∧ p2 > 0 ∧ p1 ≠ p2) then
            if p1 < p2 then some (-1) else some 1
          else
            let q1 := suffixPriority U suffix1 postreleaseOrder
            let q2 := suffixPriority U suffix2 postreleaseOrder
            if kind1 = suffixPostrelease ∧ (q1 > 0 ∧ q2 > 0 ∧ q1 ≠ q2) then
              if q1 < q2 then some (-1) else some 1
            else
              let maxLen := if t2.length > t1.length then t2.length else t1.length
              match ← remainingLoop t1 t2 maxLen (maxLen + 1) 0 with
              | some r => some r
              | none => some 0

/-- The function `Compare`, run while the package variable `DefaultOptions`
holds the value `D`. -/
def CompareAt (U : UnicodeTables) (D : Options) (a b : Str) : Option Int :=
  CompareWithOptionsAt U D a b ⟨none, none⟩

/-! ## semver.go -/

/-- The operator `<` of Go on strings: byte-wise lexicographic order. -/
def stringLt : Str → Str → Bool
  | [], [] => false
  | [], _ :: _ => true
  | _ :: _, [] => false
  | c :: cs, d :: ds => if c < d then true else if d < c then false else stringLt cs ds

/-- The three functions of package `golang.org/x/mod/semver` that `semver.go`
calls. The package is outside the repository: it is a parameter. -/
structure SemverPackage where
  IsValid : Str → Bool
  Canonical : Str → Str
  Compare : Str → Str → Int

/-- The function `CanonicalSemver`. The index expression `v[0]` is evaluated
on a string that the first test found not empty. -/
def CanonicalSemver (S : SemverPackage) (input : Str) : Str :=
  match input with
  | [] => "v0.0.0".toList
  | c :: _ =>
    let v := if c ≠ 'v' then 'v' :: input else input
    if !S.IsValid v then v else S.Canonical v

/-- The function `CompareSemver`. -/
def CompareSemver (S : SemverPackage) (a b : Str) : Int :=
  let na := CanonicalSemver S a
  let nb := CanonicalSemver S b
  if S.IsValid na && S.IsValid nb then S.Compare na nb
  else if stringLt a b then -1
  else if stringLt b a then 1
  else 0

/-! ### An instance of the package

The functions below follow package `golang.org/x/mod/semver`: a version is
`vMAJOR[.MINOR[.PATCH[-PRERELEASE][+BUILD]]]`. They serve to evaluate
`semver.go` on concrete inputs. -/

/-- The pieces of a string between its dots. -/
def splitDots : Str → List Str
  | [] => [[]]
  | c :: cs =>
    if c = '.' then [] :: splitDots cs
    else
      match splitDots cs with
      | [] => [[c]]
      | t :: ts => (c :: t) :: ts

/-- The function `parseInt` of the package: a run of digits without a
redundant leading zero, and the rest of the string. -/
def semverParseInt (v : Str) : Option (Str × Str) :=
  match v with
  | [] => none
  | c :: _ =>
    if !c.isDigit then none
    else if c = '0' ∧ (v.takeWhile Char.isDigit).length ≠ 1 then none
    else some (v.takeWhile Char.isDigit, v.dropWhile Char.isDigit)

/-- The function `isIdentChar` of the package. -/
def semverIsIdentChar (c : Char) : Bool := c.isAlphanum || c == '-'

/-- The function `isBadNum` of the package: digits only, more than one, the
first one `0`. -/
def semverIsBadNum (v : Str) : Bool :=
  v.all Char.isDigit && decide (v.length > 1) && v.head? == some '0'

/-- The function `parsePrerelease` of the package, on a string that begins
with `-`: the prerelease with its hyphen, and the rest of the string. -/
def semverParsePrerelease (v : Str) : Option (Str × Str) :=
  match v with
  | [] => none
  | c :: r =>
    if c ≠ '-' then none
    else
      let body := r.takeWhile (fun e => e != '+')
      if body.all (fun e => semverIsIdentChar e || e == '.')
          && (splitDots body).all (fun t => !t.isEmpty && !semverIsBadNum t)
      then some (c :: body, r.dropWhile (fun e => e != '+'))
      else none

/-- The function `parseBuild` of the package, on a string that begins with
`+`: the build metadata with its plus sign, and the rest of the string. -/
def semverParseBuild (v : Str) : Option (Str × Str) :=
  match v with
  | [] => none
  | c :: r =>
    if c ≠ '+' then none
    else if r.all (fun e => semverIsIdentChar e || e == '.')
        && (splitDots r).all (fun t => !t.isEmpty)
    then some (c :: r, [])
    else none

/-- The type `parsed` of the package. -/
structure SemverParsed where
  major : Str
  minor : Str
  patch : Str
  short : Str
  prerelease : Str
  build : Str

/-- The end of the function `parse` of the package, after the patch number:
the optional prerelease, the optional build metadata, and nothing else. -/
def semverParseTail (major minor patch v : Str) : Option SemverParsed :=
  let pre : Option (Str × Str) :=
    if v.head? = some '-' then semverParsePrerelease v else some ([], v)
  match pre with
  | none => none
  | some (prerelease, v) =>
    let bld : Option (Str × Str) :=
      if v.head? = some '+' then semverParseBuild v else some ([], v)
    match bld with
    | none => none
    | some (build, v) =>
      if v ≠ [] then none
      else some ⟨major, minor, patch, [], prerelease, build⟩

/-- The function `parse` of the package. -/
def semverParse (v : Str) : Option SemverParsed :=
  match v with
  | [] => none
  | c :: r =>
    if c ≠ 'v' then none
    else
      match semverParseInt r with
      | none => none
      | some (major, v) =>
        match v with
        | [] => some ⟨major, ['0'], ['0'], ".0.0".toList, [], []⟩
        | d :: r =>
          if d ≠ '.' then none
          else
            match semverParseInt r with
            | none => none
            | some (minor, v) =>
              match v with
              | [] => some ⟨major, minor, ['0'], ".0".toList, [], []⟩
              | d :: r =>
                if d ≠ '.' then none
                else
                  match semverParseInt r with
                  | none => none
                  | some (patch, v) => semverParseTail major minor patch v

/-- The function `compareInt` of the package. -/
def semverCompareInt (x y : Str) : Int :=
  if x = y then 0
  else if x.length < y.length then -1
  else if x.length > y.length then 1
  else if stringLt x y then -1
  else 1

/-- The loop of the function `comparePrerelease` of the package, on the
identifiers of the two prereleases. -/
def semverCompareIdents : List Str → List Str → Int
  | [], _ => -1
  | _ :: _, [] => 1
  | dx :: xs, dy :: ys =>
    if dx ≠ dy then
      if dx.all Char.isDigit ≠ dy.all Char.isDigit then
        (if dx.all Char.isDigit then -1 else 1)
      else if dx.all Char.isDigit ∧ dx.length < dy.length then -1
      else if dx.all Char.isDigit ∧ dx.length > dy.length then 1
      else if stringLt dx dy then -1
      else 1
    else semverCompareIdents xs ys

/-- The function `comparePrerelease` of the package. -/
def semverComparePrerelease (x y : Str) : Int :=
  if x = y then 0
  else if x = [] then 1
  else if y = [] then -1
  else semverCompareIdents (splitDots x.tail) (splitDots y.tail)

/-- The package `golang.org/x/mod/semver`, for the evaluation of `semver.go`
on concrete inputs. -/
def modSemver : SemverPackage where
  IsValid := fun v => (semverParse v).isSome
  Canonical := fun v =>
    match semverParse v with
    | none => []
    | some p =>
      if p.build ≠ [] then v.take (v.length - p.build.length)
      else if p.short ≠ [] then v ++ p.short
      else v
  Compare := fun v w =>
    match semverParse v, semverParse w with
    | none, none => 0
    | none, some _ => -1
    | some _, none => 1
    | some pv, some pw =>
      if semverCompareInt pv.major pw.major ≠ 0 then semverCompareInt pv.major pw.major
      else if semverCompareInt pv.minor pw.minor ≠ 0 then semverCompareInt pv.minor pw.minor
      else if semverCompareInt pv.patch pw.patch ≠ 0 then semverCompareInt pv.patch pw.patch
      else semverComparePrerelease pv.prerelease pw.prerelease

/-- Tables that agree with package `unicode` on ASCII and know no other
space, digit or letter. -/
def asciiTables : UnicodeTables where
  IsSpace := asciiSpace
  IsDigit := Char.isDigit
  ToLower := Char.toLower
  isSpace_ascii := fun _ _ => rfl
  isDigit_ascii := fun _ _ => rfl
  toLower_ascii := fun _ _ => rfl

/-! ## The same comparison, by recursion on the lists

The functions below compute what the loops of `CompareWithOptions` compute,
without indices; `CompareWithOptions_eq` proves it. -/

/-- The string without what stands before its first digit, when it has a
digit (the step "Strip product prefix" of `normalize`). -/
def stripProduct (U : UnicodeTables) (s : Str) : Str :=
  if s.any U.IsDigit then s.dropWhile (fun c => !U.IsDigit c) else s

/-- The value of `s` in `normalize` after the step "Strip product prefix". -/
def stripped (U : UnicodeTables) (s : Str) : Str :=
  stripProduct U (TrimPrefix (TrimPrefix (TrimSpace U s) ['v']) ['V'])

/-- The step "'+' handling" of `normalize`. -/
def resolvePlus (s : Str) : Str :=
  if '+' ∈ s then
    if '.' ∈ s then s.takeWhile (fun c => c != '+') else ReplaceAll s '+' '.'
  else s

/-- The value `normalize` returns. -/
def normalized (U : UnicodeTables) (s : Str) : Str :=
  resolvePlus (ReplaceAll (stripped U s) '_' '.')

/-- The token is accepted by `strconv.Atoi`. -/
def isNum (t : Str) : Bool := !(Atoi t).2

/-- The value `strconv.Atoi` gives for the token. -/
def numVal (t : Str) : Int := (Atoi t).1

/-- The numeric prefix of a token list. -/
def numericTokens (ts : List Str) : List Str := ts.takeWhile isNum

/-- The tokens after the numeric prefix. -/
def suffixTokens (ts : List Str) : List Str := ts.dropWhile isNum

/-- The loop "Compare numeric prefix" on the two numeric prefixes. -/
def numericCmp : List Str → List Str → Option Int
  | ta :: as, tb :: bs =>
    if numVal ta < numVal tb then some (-1)
    else if numVal ta > numVal tb then some 1
    else numericCmp as bs
  | _, _ => none

/-- The decision of the loop "Compare remaining tokens" at two different
tokens; `0` when the loop goes on. -/
def tokenCmp (ta tb : Str) : Int :=
  if isNum ta && isNum tb then (if numVal ta < numVal tb then -1 else 1)
  else if isNum ta && !isNum tb then 1
  else if !isNum ta && isNum tb then -1
  else stringsCompare ta tb

/-- The loop "Compare remaining tokens" on the two token lists. -/
def remainingCmp : List Str → List Str → Int
  | [], [] => 0
  | [], _ :: _ => -1
  | _ :: _, [] => 1
  | ta :: as, tb :: bs =>
    if ta = tb then remainingCmp as bs
    else if tokenCmp ta tb ≠ 0 then tokenCmp ta tb
    else remainingCmp as bs

/-- The prerelease table in force. -/
def preOrder (opt : Options) : Option (List Str) :=
  if opt.PrereleaseSuffixOrder = none then DefaultOptions.PrereleaseSuffixOrder
  else opt.PrereleaseSuffixOrder

/-- The postrelease table in force. -/
def postOrder (opt : Options) : Option (List Str) :=
  if opt.PostreleaseSuffixOrder = none then DefaultOptions.PostreleaseSuffixOrder
  else opt.PostreleaseSuffixOrder

/-- The part of `CompareWithOptions` after the numeric prefixes were found
equal: suffix kinds, suffix ranks, remaining tokens. -/
def suffixCmp (U : UnicodeTables) (opt : Options) (t1 t2 : List Str) : Int :=
  let suffix1 := Join (suffixTokens t1) ['-']
  let suffix2 := Join (suffixTokens t2) ['-']
  let kind1 := suffixKindOf U (preOrder opt) (postOrder opt) suffix1
  let kind2 := suffixKindOf U (preOrder opt) (postOrder opt) suffix2
  if kind1 ≠ kind2 then (if kind1 < kind2 then -1 else 1)
  else
    let p1 := suffixPriority U suffix1 (preOrder opt)
    let p2 := suffixPriority U suffix2 (preOrder opt)
    if kind1 = suffixPrerelease ∧ (p1 > 0 ∧ p2 > 0 ∧ p1 ≠ p2) then
      (if p1 < p2 then -1 else 1)
    else
      let q1 := suffixPriority U suffix1 (postOrder opt)
      let q2 := suffixPriority U suffix2 (postOrder opt)
      if kind1 = suffixPostrelease ∧ (q1 > 0 ∧ q2 > 0 ∧ q1 ≠ q2) then
        (if q1 < q2 then -1 else 1)
      else remainingCmp t1 t2

/-- The part of `CompareWithOptions` after tokenization. -/
def tokensCmp (U : UnicodeTables) (opt : Options) (t1 t2 : List Str) : Int :=
  match numericCmp (numericTokens t1) (numericTokens t2) with
  | some r => r
  | none =>
    if (numericTokens t1).length < (numericTokens t2).length then -1
    else if (numericTokens t1).length > (numericTokens t2).length then 1
    else suffixCmp U opt t1 t2

/-- The value `CompareWithOptions` returns. -/
def compared (U : UnicodeTables) (a b : Str) (opt : Options) : Int :=
  if normalized U a = normalized U b then 0
  else tokensCmp U opt (splitByDotOrDash (normalized U a)) (splitByDotOrDash (normalized U b))

/-! ## Vocabulary of the specification -/

/-- The value of a run of decimal digits read after the value `n`. -/
def digitsValue : Str → Nat → Nat
  | [], n => n
  | c :: cs, n => digitsValue cs (n * 10 + (c.toNat - 48))

/-- The decimal numeral of a natural number, without redundant leading
zeros. -/
def numeral (n : Nat) : Str := Nat.toDigits 10 n

/-- A numeric core: the numerals of `xs` joined by `.`. -/
def core (xs : List Nat) : Str := Join (xs.map numeral) ['.']

/-- Lexicographic comparison of two lists of numbers, a proper prefix being
the smaller list. -/
def lexCompare : List Nat → List Nat → Int
  | [], [] => 0
  | [], _ :: _ => -1
  | _ :: _, [] => 1
  | x :: xs, y :: ys =>
    if x < y then -1 else if y < x then 1 else lexCompare xs ys

/-- A suffix as the specification writes it: nothing, or `-` and a non-empty
word of ASCII letters. -/
def IsWordSuffix (s : Str) : Prop :=
  s = [] ∨ ∃ w : Str, w ≠ [] ∧ (∀ c ∈ w, c.isAlpha = true) ∧ s = '-' :: w

/-- A suffix made of `-` and a tag: a letter followed by letters and digits
(`-hotfix2`); or no suffix. -/
def IsTagSuffix (s : Str) : Prop :=
  s = [] ∨ ∃ (c : Char) (w : Str),
    c.isAlpha = true ∧ (∀ e ∈ w, e.isAlphanum = true) ∧ s = '-' :: c :: w

/-- A suffix of several tokens: nothing, or `-`, a letter, and then letters,
digits, `.` and `-` (`-rc.1`). -/
def IsSuffixText (s : Str) : Prop :=
  s = [] ∨ ∃ (c : Char) (r : Str),
    c.isAlpha = true ∧
    (∀ e ∈ r, e.isDigit = true ∨ e.isAlpha = true ∨ e = '.' ∨ e = '-') ∧
    s = '-' :: c :: r

/-- A token of an ordering table as the specification writes it: not empty,
made of lower-case ASCII letters and digits, beginning with a letter. -/
def isTableToken : Str → Bool
  | [] => false
  | c :: r => c.isLower && r.all (fun e => e.isLower || e.isDigit)

/-- The token, when made only of ASCII digits, is `0` or does not begin with
`0`. -/
def canonicalToken (t : Str) : Bool :=
  !(t.all Char.isDigit) || t == ['0'] || t.head? != some '0'

/-- The tokens of the normalized string have no redundant leading zero. -/
def noLeadingZeros (U : UnicodeTables) (s : Str) : Bool :=
  match normalize U s with
  | some n => (splitByDotOrDash n).all canonicalToken
  | none => true

/-- A test for `IsTagSuffix`. -/
def isTagSuffix : Str → Bool
  | [] => true
  | [_] => false
  | c0 :: c :: w => c0 == '-' && c.isAlpha && w.all Char.isAlphanum

/-- The six suffixes of the default ordering, smallest first; the empty one
is the stable release. -/
def sixSuffixes : List Str :=
  ["-alpha".toList, "-beta".toList, "-rc".toList, [], "-hotfix".toList, "-hotfix2".toList]

/-- The six versions `x-alpha`, `x-beta`, `x-rc`, `x`, `x-hotfix`, `x-hotfix2`
of the numeric core `x` of `xs`. -/
def sixVersions (xs : List Nat) : List Str :=
  sixSuffixes.map (fun sfx => core xs ++ sfx)

/-- The test that settles a pair of suffixes of one numeric core: both are tag
suffixes, they differ, and their tokens compare as `-1` and `1`. -/
def suffixPairOk (sa sb : Str) : Bool :=
  isTagSuffix sa && isTagSuffix sb && decide (sa ≠ sb) &&
  decide (suffixCmp asciiTables ⟨none, none⟩
    (splitByDotOrDash sa).tail (splitByDotOrDash sb).tail = -1) &&
  decide (suffixCmp asciiTables ⟨none, none⟩
    (splitByDotOrDash sb).tail (splitByDotOrDash sa).tail = 1)

/-- Strict lexicographic order on lists of integers, a proper prefix being
smaller. -/
def valuesLt : List Int → List Int → Prop
  | [], [] => False
  | [], _ :: _ => True
  | _ :: _, [] => False
  | x :: xs, y :: ys => x < y ∨ (x = y ∧ valuesLt xs ys)

/-- The values of the numeric prefix of a token list. -/
def prefixValues (t : List Str) : List Int := (numericTokens t).map numVal

/-- The kind of the suffix of a token list. -/
def kindOf (U : UnicodeTables) (opt : Options) (t : List Str) : suffixKind :=
  suffixKindOf U (preOrder opt) (postOrder opt) (Join (suffixTokens t) ['-'])

/-- The rank of the suffix of a token list in the prerelease table, for a
prerelease suffix; `0` for the other kinds. -/
def preRank (U : UnicodeTables) (opt : Options) (t : List Str) : Int :=
  if kindOf U opt t = suffixPrerelease
  then suffixPriority U (Join (suffixTokens t) ['-']) (preOrder opt) else 0

/-- The order in which `CompareWithOptions` answers `-1`, when the ranks of
the postrelease table never decide: by the values of the numeric prefix, then
the kind of the suffix, then the prerelease rank, then the remaining tokens. -/
def tokensLess (U : UnicodeTables) (opt : Options) (t1 t2 : List Str) : Prop :=
  valuesLt (prefixValues t1) (prefixValues t2) ∨
  (prefixValues t1 = prefixValues t2 ∧
    (kindOf U opt t1 < kindOf U opt t2 ∨
    (kindOf U opt t1 = kindOf U opt t2 ∧
      (preRank U opt t1 < preRank U opt t2 ∨
      (preRank U opt t1 = preRank U opt t2 ∧ remainingCmp t1 t2 = -1)))))

/-- A character of a version as the specification writes it: a digit, an
ASCII letter, `.` or `-`. -/
def versionChar (c : Char) : Prop :=
  c.isDigit = true ∨ c.isAlpha = true ∨ c = '.' ∨ c = '-'

instance (c : Char) : Decidable (versionChar c) := by
  unfold versionChar; infer_instance

/-- The outcome of the comparison of the numeric prefixes: the value the
loop "Compare numeric prefix" or the test "Longer numeric prefix wins"
returns, `0` when neither returns. -/
def numericPhase (l1 l2 : List Str) : Int :=
  match numericCmp l1 l2 with
  | some r => r
  | none => if l1.length < l2.length then -1 else if l1.length > l2.length then 1 else 0

/-! # Theorems -/

/-! ## The source computes the index-free comparison

No index or slice expression fails, no loop runs out of fuel, and the value
returned is `compared`. -/

/-! ### The closure `normalize` -/

theorem IndexFunc_eq (s : Str) (f : Char → Bool) :
    IndexFunc s f = if s.any f then ((s.takeWhile (fun c => !f c)).length : Int) else -1 := by
  induction s with
  | nil => simp [IndexFunc]
  | cons c cs ih =>
    by_cases hc : f c = true
    · simp [IndexFunc, hc]
    · have hc' : f c = false := by simpa using hc
      simp only [IndexFunc, hc', List.any_cons, Bool.false_or, List.takeWhile_cons, Bool.not_false,
        if_true, List.length_cons, ih]
      by_cases ha : cs.any f = true
      · simp only [ha, if_true]
        have : ¬ (((cs.takeWhile (fun c => !f c)).length : Int) < 0) := by omega
        simp [this]
      · simp [ha]

theorem drop_takeWhile_length {α : Type} (p : α → Bool) (s : List α) :
    s.drop (s.takeWhile p).length = s.dropWhile p := by
  induction s with
  | nil => simp
  | cons c cs ih =>
    by_cases hc : p c = true
    · simp [List.takeWhile_cons, List.dropWhile_cons, hc, ih]
    · simp [List.takeWhile_cons, List.dropWhile_cons, hc]

theorem take_takeWhile_length {α : Type} (p : α → Bool) (s : List α) :
    s.take (s.takeWhile p).length = s.takeWhile p := by
  induction s with
  | nil => simp
  | cons c cs ih =>
    by_cases hc : p c = true
    · simp [List.takeWhile_cons, hc, ih]
    · simp [List.takeWhile_cons, hc]

theorem takeWhile_length_le {α : Type} (p : α → Bool) (s : List α) :
    (s.takeWhile p).length ≤ s.length := by
  induction s with
  | nil => simp
  | cons c cs ih =>
    by_cases hc : p c = true
    · simp [List.takeWhile_cons, hc, ih]
    · simp [List.takeWhile_cons, hc]

theorem Contains_singleton (s : Str) (c : Char) : Contains s [c] = decide (c ∈ s) := by
  induction s with
  | nil => simp [Contains]
  | cons d ds ih =>
    simp only [Contains, HasPrefix, ih, List.mem_cons]
    by_cases h : d = c
    · simp [h]
    · have h' : ¬ c = d := fun e => h e.symm
      simp [h, h']

theorem any_beq_eq (s : Str) (c : Char) : s.any (fun d => d == c) = decide (c ∈ s) := by
  rw [Bool.eq_iff_iff]; simp [List.any_eq_true]

theorem normalize_plus (s5 : Str) :
    (if IndexByte s5 '+' ≥ 0 then
      if Contains s5 ['.'] then sliceTo s5 (IndexByte s5 '+')
      else some (ReplaceAll s5 '+' '.')
    else some s5)
    = some (if '+' ∈ s5 then
        (if '.' ∈ s5 then s5.takeWhile (fun c => c != '+') else ReplaceAll s5 '+' '.')
      else s5) := by
  simp only [IndexByte, IndexFunc_eq, Contains_singleton, any_beq_eq]
  by_cases hp : '+' ∈ s5
  · simp only [hp, decide_True, if_true]
    have hnn : ((s5.takeWhile (fun c => !(c == '+'))).length : Int) ≥ 0 := by omega
    simp only [hnn, if_true]
    by_cases hd : '.' ∈ s5
    · have hle := takeWhile_length_le (fun c => !(c == '+')) s5
      simp only [hd, decide_True, if_true, sliceTo]
      rw [if_pos (by constructor <;> omega)]
      simp only [Int.toNat_ofNat, take_takeWhile_length]
      congr 2
    · simp [hd]
  · simp [hp]

theorem normalize_product (U : UnicodeTables) (s3 : Str) :
    (if IndexFunc s3 U.IsDigit > 0 then sliceFrom s3 (IndexFunc s3 U.IsDigit) else some s3)
      = some (if s3.any U.IsDigit then s3.dropWhile (fun c => !U.IsDigit c) else s3) := by
  simp only [IndexFunc_eq]
  by_cases ha : s3.any U.IsDigit = true
  · simp only [ha, if_true]
    by_cases hz : ((s3.takeWhile (fun c => !U.IsDigit c)).length : Int) > 0
    · have hle := takeWhile_length_le (fun c => !U.IsDigit c) s3
      simp only [hz, if_true, sliceFrom]
      rw [if_pos (by constructor <;> omega)]
      simp [drop_takeWhile_length]
    · simp only [hz, if_false]
      have : (s3.takeWhile (fun c => !U.IsDigit c)).length = 0 := by omega
      rw [← drop_takeWhile_length, this]; simp
  · simp [ha]

theorem normalize_eq (U : UnicodeTables) (s : Str) :
    normalize U s = some (normalized U s) := by
  have h : normalize U s =
      (if IndexFunc (TrimPrefix (TrimPrefix (TrimSpace U s) ['v']) ['V']) U.IsDigit > 0 then
        sliceFrom (TrimPrefix (TrimPrefix (TrimSpace U s) ['v']) ['V'])
          (IndexFunc (TrimPrefix (TrimPrefix (TrimSpace U s) ['v']) ['V']) U.IsDigit)
       else some (TrimPrefix (TrimPrefix (TrimSpace U s) ['v']) ['V'])).bind
      (fun s4 => if IndexByte (ReplaceAll s4 '_' '.') '+' ≥ 0 then
          if Contains (ReplaceAll s4 '_' '.') ['.'] then
            sliceTo (ReplaceAll s4 '_' '.') (IndexByte (ReplaceAll s4 '_' '.') '+')
          else some (ReplaceAll (ReplaceAll s4 '_' '.') '+' '.')
        else some (ReplaceAll s4 '_' '.')) := by
    unfold normalize
    dsimp only
    by_cases hz : IndexFunc (TrimPrefix (TrimPrefix (TrimSpace U s) ['v']) ['V']) U.IsDigit > 0
    · rw [if_pos hz, if_pos hz]; rfl
    · rw [if_neg hz, if_neg hz]; rfl
  rw [h, normalize_product]
  simp only [Option.some_bind, normalize_plus]
  rfl

/-! ### The three loops -/

theorem numericPrefixLenLoop_eq (tokens : List Str) :
    ∀ (fuel i : Nat), i ≤ tokens.length → tokens.length - i < fuel →
      numericPrefixLenLoop tokens fuel i
        = some (i + (numericTokens (tokens.drop i)).length) := by
  intro fuel
  induction fuel with
  | zero => intro i _ h; omega
  | succ fuel ih =>
    intro i hi hf
    unfold numericPrefixLenLoop
    by_cases hlt : i < tokens.length
    · have hf' : tokens.length - (i + 1) < fuel := by omega
      have hi' : i + 1 ≤ tokens.length := by omega
      rw [if_pos hlt, List.getElem?_eq_getElem hlt]
      rw [List.drop_eq_getElem_cons hlt]
      by_cases he : (Atoi tokens[i]).2 = true
      · simp [he, numericTokens, isNum, List.takeWhile_cons]
      · have he' : (Atoi tokens[i]).2 = false := by simpa using he
        simp only [he', numericTokens, isNum, List.takeWhile_cons, Bool.not_false, if_true,
          List.length_cons]
        simp only [Bool.false_eq_true, if_false]
        rw [ih (i + 1) hi' hf']
        simp only [numericTokens, isNum, Option.some.injEq]
        omega
    · rw [if_neg hlt]
      have : i = tokens.length := by omega
      subst this
      simp [numericTokens]

theorem numericPrefixLen_eq (tokens : List Str) :
    numericPrefixLen tokens = some (numericTokens tokens).length := by
  unfold numericPrefixLen
  rw [numericPrefixLenLoop_eq tokens _ 0 (by omega) (by omega)]
  simp

theorem numericTokens_length_le (tokens : List Str) :
    (numericTokens tokens).length ≤ tokens.length :=
  takeWhile_length_le _ _

theorem numericCmp_nil_right (l : List Str) : numericCmp l [] = none := by
  cases l <;> rfl

theorem numericLoop_eq (t1 t2 : List Str) (n1 n2 : Nat)
    (h1 : n1 ≤ t1.length) (h2 : n2 ≤ t2.length) :
    ∀ (fuel i : Nat), n1 - i < fuel →
      numericLoop t1 t2 n1 n2 fuel i
        = some (numericCmp ((t1.take n1).drop i) ((t2.take n2).drop i)) := by
  intro fuel
  induction fuel with
  | zero => intro i h; omega
  | succ fuel ih =>
    intro i hf
    unfold numericLoop
    by_cases hlt : i < n1 ∧ i < n2
    · obtain ⟨ha, hb⟩ := hlt
      have ha' : i < t1.length := by omega
      have hb' : i < t2.length := by omega
      have hta : i < (t1.take n1).length := by simp; omega
      have htb : i < (t2.take n2).length := by simp; omega
      rw [if_pos ⟨ha, hb⟩, List.getElem?_eq_getElem ha', List.getElem?_eq_getElem hb']
      rw [List.drop_eq_getElem_cons hta, List.drop_eq_getElem_cons htb]
      simp only [List.getElem_take, numericCmp, numVal]
      rw [ih (i + 1) (by omega)]
      split_ifs <;> rfl
    · rw [if_neg hlt]
      by_cases ha : i < n1
      · have hb : n2 ≤ i := by omega
        have : (t2.take n2).drop i = [] := by
          apply List.drop_eq_nil_of_le; simp; omega
        rw [this, numericCmp_nil_right]
      · have : (t1.take n1).drop i = [] := by
          apply List.drop_eq_nil_of_le; simp; omega
        rw [this]; rfl

theorem remainingLoop_eq (t1 t2 : List Str) :
    ∀ (fuel i : Nat), max t1.length t2.length - i < fuel →
      (remainingLoop t1 t2 (max t1.length t2.length) fuel i).map (fun x => x.getD 0)
        = some (remainingCmp (t1.drop i) (t2.drop i)) := by
  intro fuel
  induction fuel with
  | zero => intro i h; omega
  | succ fuel ih =>
    intro i hf
    unfold remainingLoop
    by_cases hlt : i < max t1.length t2.length
    · rw [if_pos hlt]
      by_cases h1 : i ≥ t1.length
      · rw [if_pos h1]
        have h2 : i < t2.length := by
          rcases Nat.lt_or_ge i t2.length with h | h
          · exact h
          · exfalso; have := max_le h1 h; omega
        rw [List.drop_eq_nil_of_le h1, List.drop_eq_getElem_cons h2]
        rfl
      · rw [if_neg h1]
        have h1' : i < t1.length := by omega
        by_cases h2 : i ≥ t2.length
        · rw [if_pos h2, List.drop_eq_nil_of_le h2, List.drop_eq_getElem_cons h1']
          rfl
        · rw [if_neg h2]
          have h2' : i < t2.length := by omega
          rw [List.getElem?_eq_getElem h1', List.getElem?_eq_getElem h2']
          rw [List.drop_eq_getElem_cons h1', List.drop_eq_getElem_cons h2']
          simp only [remainingCmp]
          have ihn := ih (i + 1) (by omega)
          by_cases he : t1[i] = t2[i]
          · rw [if_pos he, if_pos he]; exact ihn
          · rw [if_neg he, if_neg he]
            simp only [tokenCmp, isNum, numVal]
            by_cases hA : (Atoi t1[i]).2 = true <;> by_cases hB : (Atoi t2[i]).2 = true
            · by_cases hc : stringsCompare t1[i] t2[i] = 0
              · simp [hA, hB, hc]; simpa using ihn
              · simp [hA, hB, hc]
            · simp [hA, hB]
            · simp [hA, hB]
            · by_cases hv : (Atoi t1[i]).1 < (Atoi t2[i]).1 <;> simp [hA, hB, hv]
    · rw [if_neg hlt]
      have h1 : t1.length ≤ i := by have := le_max_left t1.length t2.length; omega
      have h2 : t2.length ≤ i := by have := le_max_right t1.length t2.length; omega
      rw [List.drop_eq_nil_of_le h1, List.drop_eq_nil_of_le h2]
      rfl

/-! ### The function `CompareWithOptions` -/

theorem sliceFrom_numericTokens (t : List Str) :
    sliceFrom t ((numericTokens t).length : Int) = some (suffixTokens t) := by
  have hle := numericTokens_length_le t
  unfold sliceFrom
  rw [if_pos (by constructor <;> omega)]
  simp [numericTokens, suffixTokens, drop_takeWhile_length]

theorem maxLen_eq (m n : Nat) : (if n > m then n else m) = max m n := by
  by_cases h : n > m
  · rw [if_pos h]; exact (max_eq_right (le_of_lt h)).symm
  · rw [if_neg h]; exact (max_eq_left (not_lt.mp h)).symm

theorem CompareWithOptions_eq (U : UnicodeTables) (a b : Str) (opt : Options) :
    CompareWithOptions U a b opt = some (compared U a b opt) := by
  unfold CompareWithOptions compared
  simp only [normalize_eq, Option.bind_eq_bind, Option.some_bind, Option.pure_def]
  by_cases hab : normalized U a = normalized U b
  · simp [hab]
  · rw [if_neg hab, if_neg hab]
    generalize splitByDotOrDash (normalized U a) = t1
    generalize splitByDotOrDash (normalized U b) = t2
    simp only [numericPrefixLen_eq, Option.some_bind]
    rw [numericLoop_eq t1 t2 _ _ (numericTokens_length_le t1) (numericTokens_length_le t2)
      _ 0 (by have := numericTokens_length_le t1; omega)]
    simp only [Option.some_bind, List.drop_zero, tokensCmp]
    have e1 : t1.take (numericTokens t1).length = numericTokens t1 := take_takeWhile_length _ _
    have e2 : t2.take (numericTokens t2).length = numericTokens t2 := take_takeWhile_length _ _
    rw [e1, e2]
    cases hn : numericCmp (numericTokens t1) (numericTokens t2) with
    | some r => rfl
    | none =>
      simp only []
      by_cases h1 : (numericTokens t1).length < (numericTokens t2).length
      · simp [h1]
      · by_cases h2 : (numericTokens t1).length > (numericTokens t2).length
        · simp [h1, h2]
        · rw [if_neg h1, if_neg h2, if_neg h1, if_neg h2]
          simp only [sliceFrom_numericTokens, Option.some_bind, maxLen_eq]
          have hr := remainingLoop_eq t1 t2 (max t1.length t2.length + 1) 0 (by omega)
          simp only [List.drop_zero] at hr
          unfold suffixCmp
          simp only [preOrder, postOrder]
          split_ifs <;> first
            | rfl
            | (cases hx : remainingLoop t1 t2 (max t1.length t2.length)
                  (max t1.length t2.length + 1) 0 with
               | none => rw [hx] at hr; simp at hr
               | some x =>
                 rw [hx] at hr
                 cases x with
                 | none => simpa using hr
                 | some r => simpa using hr)

/-! ### Range of the result -/

theorem stringsCompare_range (a b : Str) :
    stringsCompare a b = -1 ∨ stringsCompare a b = 0 ∨ stringsCompare a b = 1 := by
  induction a generalizing b with
  | nil => cases b <;> simp [stringsCompare]
  | cons c cs ih =>
    cases b with
    | nil => simp [stringsCompare]
    | cons d ds =>
      simp only [stringsCompare]
      split_ifs
      · simp
      · simp
      · exact ih ds

theorem tokenCmp_range (a b : Str) :
    tokenCmp a b = -1 ∨ tokenCmp a b = 0 ∨ tokenCmp a b = 1 := by
  unfold tokenCmp
  split_ifs
  · simp
  · simp
  · simp
  · simp
  · exact stringsCompare_range a b

theorem remainingCmp_range (t1 t2 : List Str) :
    remainingCmp t1 t2 = -1 ∨ remainingCmp t1 t2 = 0 ∨ remainingCmp t1 t2 = 1 := by
  induction t1 generalizing t2 with
  | nil => cases t2 <;> simp [remainingCmp]
  | cons a as ih =>
    cases t2 with
    | nil => simp [remainingCmp]
    | cons b bs =>
      simp only [remainingCmp]
      split_ifs
      · exact ih bs
      · exact tokenCmp_range a b
      · exact ih bs

theorem numericCmp_range (l1 l2 : List Str) (r : Int) (h : numericCmp l1 l2 = some r) :
    r = -1 ∨ r = 1 := by
  induction l1 generalizing l2 with
  | nil => simp [numericCmp] at h
  | cons a as ih =>
    cases l2 with
    | nil => simp [numericCmp] at h
    | cons b bs =>
      simp only [numericCmp] at h
      split_ifs at h
      · left; simpa using h.symm
      · right; simpa using h.symm
      · exact ih bs h

theorem suffixCmp_range (U : UnicodeTables) (opt : Options) (t1 t2 : List Str) :
    suffixCmp U opt t1 t2 = -1 ∨ suffixCmp U opt t1 t2 = 0 ∨ suffixCmp U opt t1 t2 = 1 := by
  unfold suffixCmp
  simp only []
  split_ifs <;> first | simp | exact remainingCmp_range t1 t2

theorem tokensCmp_range (U : UnicodeTables) (opt : Options) (t1 t2 : List Str) :
    tokensCmp U opt t1 t2 = -1 ∨ tokensCmp U opt t1 t2 = 0 ∨ tokensCmp U opt t1 t2 = 1 := by
  unfold tokensCmp
  cases h : numericCmp (numericTokens t1) (numericTokens t2) with
  | some r =>
    rcases numericCmp_range _ _ r h with h | h <;> simp [h]
  | none =>
    simp only []
    split_ifs <;> first | simp | exact suffixCmp_range U opt t1 t2

theorem compared_range (U : UnicodeTables) (a b : Str) (opt : Options) :
    compared U a b opt = -1 ∨ compared U a b opt = 0 ∨ compared U a b opt = 1 := by
  unfold compared
  split_ifs
  · simp
  · exact tokensCmp_range U opt _ _

theorem Compare_eq (U : UnicodeTables) (a b : Str) :
    Compare U a b = some (compared U a b ⟨none, none⟩) :=
  CompareWithOptions_eq U a b ⟨none, none⟩

theorem compare_of_normalized_eq (U : UnicodeTables) (a b : Str) (opt : Options)
    (h : normalized U a = normalized U b) : CompareWithOptions U a b opt = some 0 := by
  rw [CompareWithOptions_eq, compared, if_pos h]

/-! ## Normalization -/

/-! ### ASCII facts -/

theorem isDigit_toNat {c : Char} (h : c.isDigit = true) : 48 ≤ c.toNat ∧ c.toNat ≤ 57 := by
  unfold Char.isDigit at h
  simp only [Bool.and_eq_true, decide_eq_true_eq] at h
  exact ⟨h.1, h.2⟩

theorem isDigit_of_toNat {c : Char} (h1 : 48 ≤ c.toNat) (h2 : c.toNat ≤ 57) :
    c.isDigit = true := by
  unfold Char.isDigit
  simp only [Bool.and_eq_true, decide_eq_true_eq]
  exact ⟨h1, h2⟩

theorem U_isDigit_of_isDigit (U : UnicodeTables) {c : Char} (h : c.isDigit = true) :
    U.IsDigit c = true := by
  have := isDigit_toNat h
  rw [U.isDigit_ascii c (by omega)]; exact h

theorem asciiSpace_false_of {c : Char} (h : 33 ≤ c.toNat) : asciiSpace c = false := by
  unfold asciiSpace
  have h1 : (c == ' ') = false := by
    rw [beq_eq_false_iff_ne]
    intro e; rw [e] at h; revert h; decide
  rw [h1]
  simp only [Bool.false_or, Bool.and_eq_false_iff, decide_eq_false_iff_not]
  right; omega

theorem U_isSpace_false (U : UnicodeTables) {c : Char} (h1 : 33 ≤ c.toNat) (h2 : c.toNat < 128) :
    U.IsSpace c = false := by
  rw [U.isSpace_ascii c h2]; exact asciiSpace_false_of h1

theorem U_isDigit_false (U : UnicodeTables) {c : Char} (h2 : c.toNat < 128)
    (h : c.toNat < 48 ∨ 57 < c.toNat) : U.IsDigit c = false := by
  rw [U.isDigit_ascii c h2]
  cases hd : c.isDigit with
  | false => rfl
  | true => have := isDigit_toNat hd; omega

theorem toNat_ne {c d : Char} (h : c.toNat ≠ d.toNat) : c ≠ d := fun e => h (by rw [e])

/-! ### Trimming -/

theorem dropWhile_append_cons {α : Type} (f : α → Bool) (p : List α) (d : α) (r : List α)
    (hd : f d = false) : (p ++ d :: r).dropWhile f = p.dropWhile f ++ d :: r := by
  induction p with
  | nil => simp [List.dropWhile_cons, hd]
  | cons c cs ih =>
    by_cases hc : f c = true
    · simp [List.dropWhile_cons, hc, ih]
    · simp [List.dropWhile_cons, hc]

theorem TrimRightSpace_append_cons (U : UnicodeTables) (q : Str) (d : Char) (r : Str)
    (hd : U.IsSpace d = false) :
    TrimRightSpace U (q ++ d :: r) = q ++ TrimRightSpace U (d :: r) := by
  unfold TrimRightSpace
  have e1 : (q ++ d :: r).reverse = r.reverse ++ d :: q.reverse := by simp
  have e2 : (d :: r).reverse = r.reverse ++ d :: [] := by simp
  rw [e1, e2, dropWhile_append_cons _ _ _ _ hd, dropWhile_append_cons _ _ _ _ hd]
  simp

theorem TrimRightSpace_cons (U : UnicodeTables) (d : Char) (r : Str)
    (hd : U.IsSpace d = false) :
    TrimRightSpace U (d :: r) = d :: TrimRightSpace U r := by
  unfold TrimRightSpace
  have e2 : (d :: r).reverse = r.reverse ++ d :: [] := by simp
  rw [e2]
  by_cases h : r.reverse.dropWhile U.IsSpace = []
  · rw [dropWhile_append_cons _ _ _ _ hd, h]; simp
  · rw [dropWhile_append_cons _ _ _ _ hd]; simp

theorem TrimSpace_append_cons (U : UnicodeTables) (p : Str) (d : Char) (r : Str)
    (hd : U.IsSpace d = false) :
    TrimSpace U (p ++ d :: r) = p.dropWhile U.IsSpace ++ d :: TrimRightSpace U r := by
  unfold TrimSpace TrimLeftSpace
  rw [dropWhile_append_cons _ _ _ _ hd, TrimRightSpace_append_cons _ _ _ _ hd,
    TrimRightSpace_cons _ _ _ hd]

theorem TrimSpace_cons (U : UnicodeTables) (d : Char) (r : Str)
    (hd : U.IsSpace d = false) :
    TrimSpace U (d :: r) = d :: TrimRightSpace U r := by
  have := TrimSpace_append_cons U [] d r hd
  simpa using this

theorem TrimRightSpace_of_all (U : UnicodeTables) (r : Str)
    (h : ∀ c ∈ r, U.IsSpace c = false) : TrimRightSpace U r = r := by
  unfold TrimRightSpace
  cases hr : r.reverse with
  | nil => simpa using hr.symm
  | cons c cs =>
    have hc : c ∈ r := by
      have : c ∈ r.reverse := by rw [hr]; simp
      simpa using this
    rw [List.dropWhile_cons, h c hc]
    simp only [Bool.false_eq_true, if_false]
    rw [← hr]; simp

theorem TrimPrefix_cons_ne (c x : Char) (s : Str) (h : c ≠ x) :
    TrimPrefix (c :: s) [x] = c :: s := by
  simp [TrimPrefix, HasPrefix, h]

theorem TrimPrefix_cons_eq (x : Char) (s : Str) : TrimPrefix (x :: s) [x] = s := by
  simp [TrimPrefix, HasPrefix]

theorem TrimPrefix_nil (x : Char) : TrimPrefix [] [x] = [] := by
  simp [TrimPrefix, HasPrefix]

/-- Removing a one-character prefix that is not a digit from `q ++ d :: r`,
with `q` free of digits, removes it from `q`. -/
theorem TrimPrefix_append_digit (U : UnicodeTables) (q : Str) (d x : Char) (r : Str)
    (hq : ∀ c ∈ q, U.IsDigit c = false) (hdx : d ≠ x) :
    ∃ q1 : Str, (∀ c ∈ q1, U.IsDigit c = false) ∧
      TrimPrefix (q ++ d :: r) [x] = q1 ++ d :: r := by
  cases q with
  | nil => exact ⟨[], by simp, by simpa using TrimPrefix_cons_ne d x r hdx⟩
  | cons c cs =>
    by_cases hc : c = x
    · subst hc
      refine ⟨cs, fun e he => hq e (List.mem_cons_of_mem _ he), ?_⟩
      simpa using TrimPrefix_cons_eq c (cs ++ d :: r)
    · exact ⟨c :: cs, hq, by simpa using TrimPrefix_cons_ne c x (cs ++ d :: r) hc⟩

theorem stripProduct_append_digit (U : UnicodeTables) (q : Str) (d : Char) (r : Str)
    (hq : ∀ c ∈ q, U.IsDigit c = false) (hd : U.IsDigit d = true) :
    stripProduct U (q ++ d :: r) = d :: r := by
  unfold stripProduct
  have ha : (q ++ d :: r).any U.IsDigit = true := by
    rw [List.any_eq_true]; exact ⟨d, by simp, hd⟩
  rw [if_pos ha]
  induction q with
  | nil => simp [List.dropWhile_cons, hd]
  | cons c cs ih =>
    have hc := hq c (by simp)
    simp only [List.cons_append, List.dropWhile_cons, hc, Bool.not_false, if_true]
    exact ih (fun e he => hq e (List.mem_cons_of_mem _ he))
      (by rw [List.any_eq_true]; exact ⟨d, by simp, hd⟩)

theorem stripped_prefix_digit (U : UnicodeTables) (p : Str) (d : Char) (r : Str)
    (hp : ∀ c ∈ p, U.IsDigit c = false) (hd : d.isDigit = true) :
    stripped U (p ++ d :: r) = d :: TrimRightSpace U r := by
  have hn := isDigit_toNat hd
  have hsp : U.IsSpace d = false := U_isSpace_false U (by omega) (by omega)
  have hUd : U.IsDigit d = true := U_isDigit_of_isDigit U hd
  have hv : d ≠ 'v' := toNat_ne (by have : ('v' : Char).toNat = 118 := rfl; omega)
  have hV : d ≠ 'V' := toNat_ne (by have : ('V' : Char).toNat = 86 := rfl; omega)
  unfold stripped
  rw [TrimSpace_append_cons U p d r hsp]
  have hq0 : ∀ c ∈ p.dropWhile U.IsSpace, U.IsDigit c = false :=
    fun c hc => hp c ((List.dropWhile_sublist _).subset hc)
  obtain ⟨q1, hq1, e1⟩ := TrimPrefix_append_digit U _ d 'v' (TrimRightSpace U r) hq0 hv
  rw [e1]
  obtain ⟨q2, hq2, e2⟩ := TrimPrefix_append_digit U q1 d 'V' (TrimRightSpace U r) hq1 hV
  rw [e2]
  exact stripProduct_append_digit U q2 d _ hq2 hUd

theorem stripped_digit (U : UnicodeTables) (d : Char) (r : Str) (hd : d.isDigit = true) :
    stripped U (d :: r) = d :: TrimRightSpace U r := by
  have := stripped_prefix_digit U [] d r (by simp) hd
  simpa using this

theorem normalized_prefix_digit (U : UnicodeTables) (p : Str) (d : Char) (r : Str)
    (hp : ∀ c ∈ p, U.IsDigit c = false) (hd : d.isDigit = true) :
    normalized U (p ++ d :: r) = normalized U (d :: r) := by
  unfold normalized
  rw [stripped_prefix_digit U p d r hp hd, stripped_digit U d r hd]

/-! ### Normalization commutes with a replacement of separators -/

theorem dropWhile_map_of {α : Type} (f : α → Bool) (g : α → α) (hfg : ∀ c, f (g c) = f c)
    (s : List α) : (s.map g).dropWhile f = (s.dropWhile f).map g := by
  induction s with
  | nil => rfl
  | cons c cs ih =>
    by_cases hc : f c = true
    · simp [List.dropWhile_cons, hfg, hc, ih]
    · simp [List.dropWhile_cons, hfg, hc]

theorem TrimSpace_map (U : UnicodeTables) (g : Char → Char)
    (hg : ∀ c, U.IsSpace (g c) = U.IsSpace c) (s : Str) :
    TrimSpace U (s.map g) = (TrimSpace U s).map g := by
  unfold TrimSpace TrimRightSpace TrimLeftSpace
  rw [dropWhile_map_of _ g hg, ← List.map_reverse, dropWhile_map_of _ g hg, List.map_reverse]

theorem TrimPrefix_map (g : Char → Char) (x : Char) (hg : ∀ c, g c = x ↔ c = x) (s : Str) :
    TrimPrefix (s.map g) [x] = (TrimPrefix s [x]).map g := by
  cases s with
  | nil => simp [TrimPrefix, HasPrefix]
  | cons c cs =>
    by_cases hc : c = x
    · have : g c = x := (hg c).2 hc
      simp [TrimPrefix, HasPrefix, hc, this]
      exact (hg x).2 rfl
    · have : ¬ g c = x := fun e => hc ((hg c).1 e)
      simp [TrimPrefix, HasPrefix, hc, this]

theorem stripProduct_map (U : UnicodeTables) (g : Char → Char)
    (hg : ∀ c, U.IsDigit (g c) = U.IsDigit c) (s : Str) :
    stripProduct U (s.map g) = (stripProduct U s).map g := by
  unfold stripProduct
  have ha : (s.map g).any U.IsDigit = s.any U.IsDigit := by
    rw [List.any_map]; congr 1; funext c; exact hg c
  rw [ha]
  by_cases h : s.any U.IsDigit = true
  · rw [if_pos h, if_pos h]
    exact dropWhile_map_of _ g (fun c => by simp [hg]) s
  · rw [if_neg h, if_neg h]

theorem stripped_map (U : UnicodeTables) (g : Char → Char)
    (hs : ∀ c, U.IsSpace (g c) = U.IsSpace c) (hd : ∀ c, U.IsDigit (g c) = U.IsDigit c)
    (hv : ∀ c, g c = 'v' ↔ c = 'v') (hV : ∀ c, g c = 'V' ↔ c = 'V') (s : Str) :
    stripped U (s.map g) = (stripped U s).map g := by
  unfold stripped
  rw [TrimSpace_map U g hs, TrimPrefix_map g 'v' hv, TrimPrefix_map g 'V' hV,
    stripProduct_map U g hd]

/-- The replacement of `old` by `.`, for a separator `old`, commutes with the
first steps of `normalize`. -/
theorem stripped_ReplaceAll (U : UnicodeTables) (old : Char)
    (h1 : 33 ≤ old.toNat) (h2 : old.toNat < 48 ∨ (57 < old.toNat ∧ old.toNat < 128))
    (h3 : old.toNat ≠ 118) (h4 : old.toNat ≠ 86) (s : Str) :
    stripped U (ReplaceAll s old '.') = ReplaceAll (stripped U s) old '.' := by
  have hdot : ('.' : Char).toNat = 46 := rfl
  have hsO : U.IsSpace old = false := U_isSpace_false U h1 (by omega)
  have hsD : U.IsSpace '.' = false := U_isSpace_false U (by omega) (by omega)
  have hdO : U.IsDigit old = false := U_isDigit_false U (by omega) (by omega)
  have hdD : U.IsDigit '.' = false := U_isDigit_false U (by omega) (Or.inl (by omega))
  have hv : ('v' : Char).toNat = 118 := rfl
  have hV : ('V' : Char).toNat = 86 := rfl
  unfold ReplaceAll
  apply stripped_map
  · intro c; by_cases hc : c = old
    · simp [hc, hsO, hsD]
    · simp [hc]
  · intro c; by_cases hc : c = old
    · simp [hc, hdO, hdD]
    · simp [hc]
  · intro c; by_cases hc : c = old
    · subst hc
      simp only [if_true]
      constructor
      · intro e; exact absurd e (toNat_ne (by omega))
      · intro e; exact absurd e (toNat_ne (by omega))
    · simp [hc]
  · intro c; by_cases hc : c = old
    · subst hc
      simp only [if_true]
      constructor
      · intro e; exact absurd e (toNat_ne (by omega))
      · intro e; exact absurd e (toNat_ne (by omega))
    · simp [hc]

theorem ReplaceAll_idem (s : Str) (old new : Char) :
    ReplaceAll (ReplaceAll s old new) old new = ReplaceAll s old new := by
  unfold ReplaceAll
  rw [List.map_map]
  apply List.map_congr_left
  intro c _
  by_cases hc : c = old
  · by_cases hn : new = old <;> simp [hc, hn]
  · simp [hc]

theorem ReplaceAll_of_not_mem (s : Str) (old new : Char) (h : old ∉ s) :
    ReplaceAll s old new = s := by
  unfold ReplaceAll
  conv_rhs => rw [← List.map_id s]
  apply List.map_congr_left
  intro c hc
  have : c ≠ old := fun e => h (e ▸ hc)
  simp [this]

theorem not_mem_ReplaceAll (s : Str) (old new : Char) (h : old ≠ new) :
    old ∉ ReplaceAll s old new := by
  unfold ReplaceAll
  intro hm
  rw [List.mem_map] at hm
  obtain ⟨c, _, hc⟩ := hm
  by_cases he : c = old
  · rw [if_pos he] at hc; exact h hc.symm
  · rw [if_neg he] at hc; exact he hc

theorem mem_ReplaceAll_other (s : Str) (old new x : Char) (hx : x ≠ new) :
    x ∈ ReplaceAll s old new → x ∈ s := by
  unfold ReplaceAll
  intro hm
  rw [List.mem_map] at hm
  obtain ⟨c, hcs, hc⟩ := hm
  by_cases he : c = old
  · rw [if_pos he] at hc; exact absurd hc.symm hx
  · rw [if_neg he] at hc; exact hc ▸ hcs

theorem mem_ReplaceAll_of_mem (s : Str) (old new x : Char) (hx : x ≠ old) (h : x ∈ s) :
    x ∈ ReplaceAll s old new := by
  unfold ReplaceAll
  rw [List.mem_map]
  exact ⟨x, h, by simp [hx]⟩

theorem normalized_underscore (U : UnicodeTables) (s : Str) :
    normalized U (ReplaceAll s '_' '.') = normalized U s := by
  unfold normalized
  rw [stripped_ReplaceAll U '_' (by decide) (by decide) (by decide) (by decide), ReplaceAll_idem]

/-! ### Membership in the stripped string -/

theorem mem_TrimSpace (U : UnicodeTables) (s : Str) (c : Char) (h : c ∈ TrimSpace U s) :
    c ∈ s := by
  unfold TrimSpace TrimRightSpace TrimLeftSpace at h
  have h1 : c ∈ (s.dropWhile U.IsSpace).reverse.dropWhile U.IsSpace := by simpa using h
  have h2 := (List.dropWhile_sublist _).subset h1
  have h3 : c ∈ s.dropWhile U.IsSpace := by simpa using h2
  exact (List.dropWhile_sublist _).subset h3

theorem mem_TrimPrefix (s pre : Str) (c : Char) (h : c ∈ TrimPrefix s pre) : c ∈ s := by
  unfold TrimPrefix at h
  split_ifs at h
  · exact List.mem_of_mem_drop h
  · exact h

theorem mem_stripProduct (U : UnicodeTables) (s : Str) (c : Char)
    (h : c ∈ stripProduct U s) : c ∈ s := by
  unfold stripProduct at h
  split_ifs at h
  · exact (List.dropWhile_sublist _).subset h
  · exact h

theorem mem_stripped (U : UnicodeTables) (s : Str) (c : Char) (h : c ∈ stripped U s) :
    c ∈ s :=
  mem_TrimSpace U s c (mem_TrimPrefix _ _ c (mem_TrimPrefix _ _ c (mem_stripProduct U _ c h)))

theorem resolvePlus_of_no_dot (x : Str) (h : '.' ∉ x) : resolvePlus x = ReplaceAll x '+' '.' := by
  unfold resolvePlus
  by_cases hp : '+' ∈ x
  · rw [if_pos hp, if_neg h]
  · rw [if_neg hp, ReplaceAll_of_not_mem x _ _ hp]

theorem resolvePlus_of_no_plus (x : Str) (h : '+' ∉ x) : resolvePlus x = x := by
  unfold resolvePlus
  rw [if_neg h]

theorem normalized_plus (U : UnicodeTables) (s : Str) (hdot : '.' ∉ s) (hus : '_' ∉ s) :
    normalized U s = normalized U (ReplaceAll s '+' '.') := by
  unfold normalized
  rw [stripped_ReplaceAll U '+' (by decide) (by decide) (by decide) (by decide)]
  have h1 : '_' ∉ stripped U s := fun h => hus (mem_stripped U s _ h)
  have h2 : '.' ∉ stripped U s := fun h => hdot (mem_stripped U s _ h)
  have h3 : '_' ∉ ReplaceAll (stripped U s) '+' '.' :=
    fun h => h1 (mem_ReplaceAll_other _ _ _ _ (by decide) h)
  rw [ReplaceAll_of_not_mem _ '_' '.' h1, ReplaceAll_of_not_mem _ '_' '.' h3,
    resolvePlus_of_no_dot _ h2,
    resolvePlus_of_no_plus _ (not_mem_ReplaceAll _ '+' '.' (by decide))]

/-! ### Build metadata -/

theorem takeWhile_append_cons {α : Type} (f : α → Bool) (p : List α) (d : α) (r : List α)
    (hp : ∀ c ∈ p, f c = true) (hd : f d = false) : (p ++ d :: r).takeWhile f = p := by
  induction p with
  | nil => simp [List.takeWhile_cons, hd]
  | cons c cs ih =>
    have hc := hp c (by simp)
    simp only [List.cons_append, List.takeWhile_cons, hc, if_true]
    rw [ih (fun e he => hp e (List.mem_cons_of_mem _ he))]

theorem ReplaceAll_append (s t : Str) (old new : Char) :
    ReplaceAll (s ++ t) old new = ReplaceAll s old new ++ ReplaceAll t old new := by
  simp [ReplaceAll]

theorem ReplaceAll_cons_ne (c : Char) (t : Str) (old new : Char) (h : c ≠ old) :
    ReplaceAll (c :: t) old new = c :: ReplaceAll t old new := by
  simp [ReplaceAll, h]

theorem normalized_dotted (U : UnicodeTables) (d : Char) (r : Str) (hd : d.isDigit = true)
    (hplus : '+' ∉ d :: r) (hsp : ∀ c ∈ d :: r, U.IsSpace c = false) :
    normalized U (d :: r) = ReplaceAll (d :: r) '_' '.' := by
  unfold normalized
  rw [stripped_digit U d r hd,
    TrimRightSpace_of_all U r (fun c hc => hsp c (List.mem_cons_of_mem _ hc))]
  exact resolvePlus_of_no_plus _ (fun h => hplus (mem_ReplaceAll_other _ _ _ _ (by decide) h))

theorem normalized_build (U : UnicodeTables) (d : Char) (r m : Str) (hd : d.isDigit = true)
    (hdot : '.' ∈ d :: r) (hplus : '+' ∉ d :: r) :
    normalized U ((d :: r) ++ '+' :: m) = ReplaceAll (d :: r) '_' '.' := by
  have hplusSp : U.IsSpace '+' = false :=
    U_isSpace_false U (by decide) (by decide)
  unfold normalized
  have e : (d :: r) ++ '+' :: m = d :: (r ++ '+' :: m) := rfl
  rw [e, stripped_digit U d _ hd, TrimRightSpace_append_cons U r '+' m hplusSp,
    TrimRightSpace_cons U '+' m hplusSp]
  have e2 : ReplaceAll (d :: (r ++ '+' :: TrimRightSpace U m)) '_' '.'
      = ReplaceAll (d :: r) '_' '.' ++ '+' :: ReplaceAll (TrimRightSpace U m) '_' '.' := by
    simp [ReplaceAll]
  rw [e2]
  unfold resolvePlus
  rw [if_pos (by simp), if_pos (by
    apply List.mem_append_left
    exact mem_ReplaceAll_of_mem _ _ _ _ (by decide) hdot)]
  apply takeWhile_append_cons
  · intro c hc
    have : c ≠ '+' := fun e => hplus (mem_ReplaceAll_other _ _ _ _ (by decide) (e ▸ hc))
    simp [this]
  · simp

/-! ## Versions made of a numeric core and a suffix -/

/-! ### The function `strconv.Atoi` on numerals and on words -/

theorem digitsValue_mono (s : Str) (n : Nat) : n ≤ digitsValue s n := by
  induction s generalizing n with
  | nil => exact le_refl _
  | cons c cs ih =>
    simp only [digitsValue]
    have := ih (n * 10 + (c.toNat - 48))
    omega

theorem digitsValue_append (s : Str) (c : Char) (n : Nat) :
    digitsValue (s ++ [c]) n = digitsValue s n * 10 + (c.toNat - 48) := by
  induction s generalizing n with
  | nil => rfl
  | cons d ds ih =>
    show digitsValue (ds ++ [c]) (n * 10 + (d.toNat - 48)) = _
    rw [ih]; rfl

theorem parseUintLoop_digits (s : Str) (n : Nat) (hs : ∀ c ∈ s, c.isDigit = true)
    (hv : digitsValue s n ≤ maxUint64) :
    parseUintLoop s n = some (digitsValue s n, false) := by
  induction s generalizing n with
  | nil => rfl
  | cons c cs ih =>
    have hc := isDigit_toNat (hs c (by simp))
    simp only [digitsValue] at hv ⊢
    have hm := digitsValue_mono cs (n * 10 + (c.toNat - 48))
    have hmax : maxUint64 = 18446744073709551615 := rfl
    unfold parseUintLoop
    rw [if_pos hc, if_neg (by rw [hmax]; omega)]
    simp only []
    rw [if_neg (by omega)]
    exact ih _ (fun e he => hs e (List.mem_cons_of_mem _ he)) hv

theorem Atoi_digits (s : Str) (hne : s ≠ []) (hs : ∀ c ∈ s, c.isDigit = true)
    (hv : (digitsValue s 0 : Int) ≤ maxInt) : Atoi s = ((digitsValue s 0 : Int), false) := by
  have hmaxI : maxInt = 9223372036854775807 := rfl
  have hmax : maxUint64 = 18446744073709551615 := rfl
  have hp := parseUintLoop_digits s 0 hs (by rw [hmax]; rw [hmaxI] at hv; omega)
  cases s with
  | nil => exact absurd rfl hne
  | cons c cs =>
    have hc := isDigit_toNat (hs c (by simp))
    have h1 : (c == '-') = false := by
      rw [beq_eq_false_iff_ne]; exact toNat_ne (by have : ('-' : Char).toNat = 45 := rfl; omega)
    have h2 : (c == '+') = false := by
      rw [beq_eq_false_iff_ne]; exact toNat_ne (by have : ('+' : Char).toNat = 43 := rfl; omega)
    unfold Atoi
    simp only [h1, h2, Bool.or_false, Bool.false_eq_true, if_false]
    rw [if_neg (by simp), hp]
    simp only [Bool.not_false, Bool.true_and, Bool.false_and, Bool.false_eq_true, if_false]
    rw [if_neg (by simp only [decide_eq_true_eq]; rw [hmaxI] at hv ⊢; omega)]

theorem isAlpha_toNat {c : Char} (h : c.isAlpha = true) :
    (65 ≤ c.toNat ∧ c.toNat ≤ 90) ∨ (97 ≤ c.toNat ∧ c.toNat ≤ 122) := by
  unfold Char.isAlpha Char.isUpper Char.isLower at h
  simp only [Bool.or_eq_true, Bool.and_eq_true, decide_eq_true_eq] at h
  rcases h with h | h
  · left; exact ⟨h.1, h.2⟩
  · right; exact ⟨h.1, h.2⟩

/-- A token that begins with a letter is not a number. -/
theorem Atoi_letter (c : Char) (cs : Str) (hc : c.isAlpha = true) : (Atoi (c :: cs)).2 = true := by
  have hn := isAlpha_toNat hc
  have h1 : (c == '-') = false := by
    rw [beq_eq_false_iff_ne]; exact toNat_ne (by have : ('-' : Char).toNat = 45 := rfl; omega)
  have h2 : (c == '+') = false := by
    rw [beq_eq_false_iff_ne]; exact toNat_ne (by have : ('+' : Char).toNat = 43 := rfl; omega)
  unfold Atoi
  simp only [h1, h2, Bool.or_false, Bool.false_eq_true, if_false]
  rw [if_neg (by simp)]
  have : parseUintLoop (c :: cs) 0 = none := by
    unfold parseUintLoop
    rw [if_neg (by omega)]
  rw [this]

theorem digitChar_lt_ten (k : Nat) (hk : k < 10) :
    (Nat.digitChar k).isDigit = true ∧ (Nat.digitChar k).toNat - 48 = k := by
  interval_cases k <;> exact ⟨rfl, rfl⟩

theorem toDigitsCore_spec : ∀ (fuel n : Nat), n < fuel →
    ∃ l : Str, l ≠ [] ∧ (∀ c ∈ l, c.isDigit = true) ∧ digitsValue l 0 = n ∧
      ∀ ds, Nat.toDigitsCore 10 fuel n ds = l ++ ds := by
  intro fuel
  induction fuel with
  | zero => intro n h; omega
  | succ fuel ih =>
    intro n hn
    have hd := digitChar_lt_ten (n % 10) (Nat.mod_lt _ (by decide))
    by_cases h0 : n / 10 = 0
    · refine ⟨[Nat.digitChar (n % 10)], by simp, ?_, ?_, ?_⟩
      · intro c hc; simp only [List.mem_singleton] at hc; rw [hc]; exact hd.1
      · simp only [digitsValue]; rw [hd.2]; omega
      · intro ds; simp [Nat.toDigitsCore, h0]
    · obtain ⟨l, hl1, hl2, hl3, hl4⟩ := ih (n / 10) (by omega)
      refine ⟨l ++ [Nat.digitChar (n % 10)], by simp, ?_, ?_, ?_⟩
      · intro c hc
        rw [List.mem_append] at hc
        rcases hc with hc | hc
        · exact hl2 c hc
        · simp only [List.mem_singleton] at hc; rw [hc]; exact hd.1
      · rw [digitsValue_append, hl3, hd.2]; omega
      · intro ds; simp [Nat.toDigitsCore, h0, hl4]

theorem numeral_spec (n : Nat) :
    numeral n ≠ [] ∧ (∀ c ∈ numeral n, c.isDigit = true) ∧ digitsValue (numeral n) 0 = n := by
  obtain ⟨l, h1, h2, h3, h4⟩ := toDigitsCore_spec (n + 1) n (by omega)
  have : numeral n = l := by
    unfold numeral Nat.toDigits
    rw [h4]; simp
  rw [this]; exact ⟨h1, h2, h3⟩

theorem Atoi_numeral (n : Nat) (hn : (n : Int) ≤ maxInt) : Atoi (numeral n) = ((n : Int), false) := by
  obtain ⟨h1, h2, h3⟩ := numeral_spec n
  have := Atoi_digits (numeral n) h1 h2 (by rw [h3]; exact hn)
  rw [this, h3]

theorem isNum_numeral (n : Nat) (hn : (n : Int) ≤ maxInt) : isNum (numeral n) = true := by
  simp [isNum, Atoi_numeral n hn]

theorem numVal_numeral (n : Nat) (hn : (n : Int) ≤ maxInt) : numVal (numeral n) = n := by
  simp [numVal, Atoi_numeral n hn]

theorem isNum_tag (c : Char) (w : Str) (hc : c.isAlpha = true) : isNum (c :: w) = false := by
  simp [isNum, Atoi_letter c w hc]

theorem isAlphanum_cases {c : Char} (h : c.isAlphanum = true) :
    c.isAlpha = true ∨ c.isDigit = true := by
  unfold Char.isAlphanum at h
  simpa using h

/-! ### Tokenization of a numeric core followed by a word -/

theorem split_noSep (t : Str) (h : ∀ c ∈ t, c ≠ '.' ∧ c ≠ '-') : splitByDotOrDash t = [t] := by
  induction t with
  | nil => rfl
  | cons c cs ih =>
    have hc := h c (by simp)
    simp only [splitByDotOrDash]
    rw [if_neg (by rintro (e | e); exact hc.1 e; exact hc.2 e),
      ih (fun e he => h e (List.mem_cons_of_mem _ he))]

theorem split_append_sep (t : Str) (x : Char) (rest : Str) (h : ∀ c ∈ t, c ≠ '.' ∧ c ≠ '-')
    (hx : x = '.' ∨ x = '-') :
    splitByDotOrDash (t ++ x :: rest) = t :: splitByDotOrDash rest := by
  induction t with
  | nil => simp [splitByDotOrDash, hx]
  | cons c cs ih =>
    have hc := h c (by simp)
    show splitByDotOrDash (c :: (cs ++ x :: rest)) = _
    simp only [splitByDotOrDash]
    rw [if_neg (by rintro (e | e); exact hc.1 e; exact hc.2 e),
      ih (fun e he => h e (List.mem_cons_of_mem _ he))]

theorem split_Join (ts : List Str) (hne : ts ≠ [])
    (h : ∀ t ∈ ts, ∀ c ∈ t, c ≠ '.' ∧ c ≠ '-') :
    splitByDotOrDash (Join ts ['.']) = ts := by
  induction ts with
  | nil => exact absurd rfl hne
  | cons t us ih =>
    cases us with
    | nil => exact split_noSep t (h t (by simp))
    | cons u vs =>
      have e : Join (t :: u :: vs) ['.'] = t ++ '.' :: Join (u :: vs) ['.'] := by
        simp [Join]
      rw [e, split_append_sep t '.' _ (h t (by simp)) (Or.inl rfl),
        ih (by simp) (fun e he => h e (List.mem_cons_of_mem _ he))]

theorem split_Join_append (ts : List Str) (rest : Str) (hne : ts ≠ [])
    (h : ∀ t ∈ ts, ∀ c ∈ t, c ≠ '.' ∧ c ≠ '-') :
    splitByDotOrDash (Join ts ['.'] ++ '-' :: rest) = ts ++ splitByDotOrDash rest := by
  induction ts with
  | nil => exact absurd rfl hne
  | cons t us ih =>
    cases us with
    | nil => exact split_append_sep t '-' rest (h t (by simp)) (Or.inr rfl)
    | cons u vs =>
      have e : Join (t :: u :: vs) ['.'] ++ '-' :: rest
          = t ++ '.' :: (Join (u :: vs) ['.'] ++ '-' :: rest) := by
        simp [Join]
      rw [e, split_append_sep t '.' _ (h t (by simp)) (Or.inl rfl),
        ih (by simp) (fun e he => h e (List.mem_cons_of_mem _ he))]
      rfl

theorem digit_not_sep {c : Char} (h : c.isDigit = true) : c ≠ '.' ∧ c ≠ '-' := by
  have := isDigit_toNat h
  exact ⟨toNat_ne (by have : ('.' : Char).toNat = 46 := rfl; omega),
    toNat_ne (by have : ('-' : Char).toNat = 45 := rfl; omega)⟩

theorem letter_not_sep {c : Char} (h : c.isAlpha = true) : c ≠ '.' ∧ c ≠ '-' := by
  have := isAlpha_toNat h
  exact ⟨toNat_ne (by have : ('.' : Char).toNat = 46 := rfl; omega),
    toNat_ne (by have : ('-' : Char).toNat = 45 := rfl; omega)⟩

theorem numerals_noSep (xs : List Nat) :
    ∀ t ∈ xs.map numeral, ∀ c ∈ t, c ≠ '.' ∧ c ≠ '-' := by
  intro t ht c hc
  rw [List.mem_map] at ht
  obtain ⟨n, _, rfl⟩ := ht
  exact digit_not_sep ((numeral_spec n).2.1 c hc)

theorem alphanum_not_sep {c : Char} (h : c.isAlphanum = true) : c ≠ '.' ∧ c ≠ '-' := by
  rcases isAlphanum_cases h with h | h
  · exact letter_not_sep h
  · exact digit_not_sep h

theorem isAlphanum_of_isAlpha {c : Char} (h : c.isAlpha = true) : c.isAlphanum = true := by
  unfold Char.isAlphanum; simp [h]

/-- A suffix as the specification writes it is a tag suffix. -/
theorem IsWordSuffix.toTag {sa : Str} (h : IsWordSuffix sa) : IsTagSuffix sa := by
  rcases h with h | ⟨w, hne, hw, rfl⟩
  · exact Or.inl h
  · cases w with
    | nil => exact absurd rfl hne
    | cons c cs =>
      exact Or.inr ⟨c, cs, hw c (by simp),
        fun e he => isAlphanum_of_isAlpha (hw e (List.mem_cons_of_mem _ he)), rfl⟩

theorem split_core (xs : List Nat) (hne : xs ≠ []) :
    splitByDotOrDash (core xs) = xs.map numeral :=
  split_Join _ (by simpa using hne) (numerals_noSep xs)

theorem split_core_word (xs : List Nat) (hne : xs ≠ []) (w : Str)
    (hw : ∀ c ∈ w, c.isAlphanum = true) :
    splitByDotOrDash (core xs ++ '-' :: w) = xs.map numeral ++ [w] := by
  unfold core
  rw [split_Join_append _ _ (by simpa using hne) (numerals_noSep xs),
    split_noSep w (fun c hc => alphanum_not_sep (hw c hc))]

/-! ### Members of a core -/

theorem mem_Join {ts : List Str} {sep : Str} {c : Char} (h : c ∈ Join ts sep) :
    (∃ t ∈ ts, c ∈ t) ∨ c ∈ sep := by
  induction ts with
  | nil => simp [Join] at h
  | cons t us ih =>
    cases us with
    | nil => exact Or.inl ⟨t, by simp, by simpa [Join] using h⟩
    | cons u vs =>
      simp only [Join, List.mem_append] at h
      rcases h with (h | h) | h
      · exact Or.inl ⟨t, by simp, h⟩
      · exact Or.inr h
      · rcases ih h with ⟨t1, ht1, hc⟩ | hs
        · exact Or.inl ⟨t1, List.mem_cons_of_mem _ ht1, hc⟩
        · exact Or.inr hs

theorem mem_core {xs : List Nat} {c : Char} (h : c ∈ core xs) : c.isDigit = true ∨ c = '.' := by
  rcases mem_Join h with ⟨t, ht, hc⟩ | hs
  · rw [List.mem_map] at ht
    obtain ⟨n, _, rfl⟩ := ht
    exact Or.inl ((numeral_spec n).2.1 c hc)
  · exact Or.inr (by simpa using hs)

theorem core_head (xs : List Nat) (hne : xs ≠ []) :
    ∃ d r, core xs = d :: r ∧ d.isDigit = true := by
  cases xs with
  | nil => exact absurd rfl hne
  | cons x ys =>
    obtain ⟨h1, h2, _⟩ := numeral_spec x
    cases hx : numeral x with
    | nil => exact absurd hx h1
    | cons d r =>
      have hd : d.isDigit = true := h2 d (by rw [hx]; simp)
      cases ys with
      | nil => exact ⟨d, r, by simp [core, Join, hx], hd⟩
      | cons y zs => exact ⟨d, r ++ ['.'] ++ Join ((y :: zs).map numeral) ['.'],
          by simp [core, Join, hx], hd⟩

theorem versionChar_facts (U : UnicodeTables) {c : Char} (h : versionChar c) :
    c ≠ '+' ∧ c ≠ '_' ∧ U.IsSpace c = false := by
  have hdot : ('.' : Char).toNat = 46 := rfl
  have hdash : ('-' : Char).toNat = 45 := rfl
  have hplus : ('+' : Char).toNat = 43 := rfl
  have hus : ('_' : Char).toNat = 95 := rfl
  have key : 45 ≤ c.toNat ∧ c.toNat ≤ 122 ∧ c.toNat ≠ 95 := by
    rcases h with h | h | h | h
    · have := isDigit_toNat h; omega
    · have := isAlpha_toNat h; omega
    · rw [h]; omega
    · rw [h]; omega
  exact ⟨toNat_ne (by omega), toNat_ne (by omega), U_isSpace_false U (by omega) (by omega)⟩

theorem normalized_version (U : UnicodeTables) (s : Str) (d : Char) (r : Str) (hs : s = d :: r)
    (hd : d.isDigit = true) (hall : ∀ c ∈ s, versionChar c) : normalized U s = s := by
  subst hs
  rw [normalized_dotted U d r hd (fun h => (versionChar_facts U (hall _ h)).1 rfl)
    (fun c hc => (versionChar_facts U (hall c hc)).2.2)]
  exact ReplaceAll_of_not_mem _ _ _ (fun h => (versionChar_facts U (hall _ h)).2.1 rfl)

theorem normalized_core_suffix (U : UnicodeTables) (xs : List Nat) (hne : xs ≠ []) (sa : Str)
    (hsa : IsTagSuffix sa) : normalized U (core xs ++ sa) = core xs ++ sa := by
  obtain ⟨d, r, e, hd⟩ := core_head xs hne
  apply normalized_version U _ d (r ++ sa) (by rw [e]; rfl) hd
  intro c hc
  rw [List.mem_append] at hc
  rcases hc with hc | hc
  · rcases mem_core hc with h | h
    · exact Or.inl h
    · exact Or.inr (Or.inr (Or.inl h))
  · rcases hsa with h | ⟨a, w, ha, hw, rfl⟩
    · rw [h] at hc; simp at hc
    · simp only [List.mem_cons] at hc
      rcases hc with h | h | h
      · exact Or.inr (Or.inr (Or.inr h))
      · exact Or.inr (Or.inl (h ▸ ha))
      · rcases isAlphanum_cases (hw c h) with h1 | h1
        · exact Or.inr (Or.inl h1)
        · exact Or.inl h1

/-! ### The numeric prefix decides first -/

theorem tokensCmp_eq (U : UnicodeTables) (opt : Options) (t1 t2 : List Str) :
    tokensCmp U opt t1 t2 =
      if numericPhase (numericTokens t1) (numericTokens t2) ≠ 0
      then numericPhase (numericTokens t1) (numericTokens t2)
      else suffixCmp U opt t1 t2 := by
  unfold tokensCmp numericPhase
  cases h : numericCmp (numericTokens t1) (numericTokens t2) with
  | some r =>
    rcases numericCmp_range _ _ r h with e | e <;> simp [e]
  | none =>
    simp only []
    by_cases h1 : (numericTokens t1).length < (numericTokens t2).length
    · simp [h1]
    · by_cases h2 : (numericTokens t1).length > (numericTokens t2).length
      · simp [h1, h2]
      · simp [h1, h2]

theorem numericTokens_append (N rest : List Str) (h : ∀ t ∈ N, isNum t = true) :
    numericTokens (N ++ rest) = N ++ numericTokens rest := by
  induction N with
  | nil => rfl
  | cons t ts ih =>
    have ht := h t (by simp)
    simp only [numericTokens, List.cons_append, List.takeWhile_cons, ht, if_true]
    have := ih (fun e he => h e (List.mem_cons_of_mem _ he))
    simp only [numericTokens] at this
    rw [this]

theorem suffixTokens_append (N rest : List Str) (h : ∀ t ∈ N, isNum t = true) :
    suffixTokens (N ++ rest) = suffixTokens rest := by
  induction N with
  | nil => rfl
  | cons t ts ih =>
    have ht := h t (by simp)
    simp only [suffixTokens, List.cons_append, List.dropWhile_cons, ht, if_true]
    exact ih (fun e he => h e (List.mem_cons_of_mem _ he))

theorem numerals_isNum (xs : List Nat) (hb : ∀ x ∈ xs, (x : Int) ≤ maxInt) :
    ∀ t ∈ xs.map numeral, isNum t = true := by
  intro t ht
  rw [List.mem_map] at ht
  obtain ⟨n, hn, rfl⟩ := ht
  exact isNum_numeral n (hb n hn)

theorem numericPhase_numerals (xs ys : List Nat) (hbx : ∀ x ∈ xs, (x : Int) ≤ maxInt)
    (hby : ∀ y ∈ ys, (y : Int) ≤ maxInt) :
    numericPhase (xs.map numeral) (ys.map numeral) = lexCompare xs ys := by
  induction xs generalizing ys with
  | nil => cases ys <;> simp [numericPhase, numericCmp, lexCompare]
  | cons x xs ih =>
    cases ys with
    | nil => simp [numericPhase, numericCmp, lexCompare]
    | cons y ys =>
      have hx := numVal_numeral x (hbx x (by simp))
      have hy := numVal_numeral y (hby y (by simp))
      have ih' := ih ys (fun e he => hbx e (List.mem_cons_of_mem _ he))
        (fun e he => hby e (List.mem_cons_of_mem _ he))
      simp only [numericPhase, List.map_cons, numericCmp, hx, hy, lexCompare, Nat.cast_lt,
        gt_iff_lt, List.length_cons, add_lt_add_iff_right] at ih' ⊢
      by_cases h1 : x < y
      · simp [h1]
      · by_cases h2 : y < x
        · simp [h1, h2]
        · simp only [h1, h2, if_false]
          exact ih'

theorem lexCompare_eq_zero (xs ys : List Nat) : lexCompare xs ys = 0 ↔ xs = ys := by
  induction xs generalizing ys with
  | nil => cases ys <;> simp [lexCompare]
  | cons x xs ih =>
    cases ys with
    | nil => simp [lexCompare]
    | cons y ys =>
      simp only [lexCompare, List.cons.injEq]
      by_cases h1 : x < y
      · simp [h1]; omega
      · by_cases h2 : y < x
        · simp [h1, h2]; omega
        · have : x = y := by omega
          simp [h1, h2, this, ih]

theorem lexCompare_range (xs ys : List Nat) :
    lexCompare xs ys = -1 ∨ lexCompare xs ys = 0 ∨ lexCompare xs ys = 1 := by
  induction xs generalizing ys with
  | nil => cases ys <;> simp [lexCompare]
  | cons x xs ih =>
    cases ys with
    | nil => simp [lexCompare]
    | cons y ys =>
      simp only [lexCompare]
      split_ifs
      · simp
      · simp
      · exact ih ys

/-- The tokens of a numeric core followed by a suffix: the numerals, then
the tokens `st` of the suffix, none of them a number. -/
theorem split_tag (c : Char) (w : Str) (hc : c.isAlpha = true)
    (hw : ∀ e ∈ w, e.isAlphanum = true) :
    (splitByDotOrDash ('-' :: c :: w)).tail = [c :: w] := by
  have hall : ∀ e ∈ c :: w, e ≠ '.' ∧ e ≠ '-' := by
    intro e he
    rcases List.mem_cons.1 he with h | h
    · rw [h]; exact letter_not_sep hc
    · exact alphanum_not_sep (hw e h)
  have := split_append_sep [] '-' (c :: w) (by simp) (Or.inr rfl)
  simp only [List.nil_append] at this
  rw [this, split_noSep _ hall]; rfl

theorem tokens_core_suffix (xs : List Nat) (hne : xs ≠ []) (sa : Str) (hsa : IsTagSuffix sa) :
    splitByDotOrDash (core xs ++ sa) = xs.map numeral ++ (splitByDotOrDash sa).tail ∧
      numericTokens (splitByDotOrDash sa).tail = [] ∧
      suffixTokens (splitByDotOrDash sa).tail = (splitByDotOrDash sa).tail := by
  rcases hsa with h | ⟨c, w, hc, hw, rfl⟩
  · subst h
    exact ⟨by simpa [splitByDotOrDash] using split_core xs hne, rfl, rfl⟩
  · have hall : ∀ e ∈ c :: w, e.isAlphanum = true := by
      intro e he
      rcases List.mem_cons.1 he with h | h
      · rw [h]; exact isAlphanum_of_isAlpha hc
      · exact hw e h
    have hn : isNum (c :: w) = false := isNum_tag c w hc
    rw [split_tag c w hc hw]
    refine ⟨split_core_word xs hne _ hall, ?_, ?_⟩
    · simp [numericTokens, List.takeWhile_cons, hn]
    · simp [suffixTokens, List.dropWhile_cons, hn]

theorem compared_core_of_ne (U : UnicodeTables) (opt : Options) (xs ys : List Nat) (sa sb : Str)
    (hxs : xs ≠ []) (hys : ys ≠ [])
    (hbx : ∀ x ∈ xs, (x : Int) ≤ maxInt) (hby : ∀ y ∈ ys, (y : Int) ≤ maxInt)
    (hne : xs ≠ ys) (hsa : IsTagSuffix sa) (hsb : IsTagSuffix sb) :
    compared U (core xs ++ sa) (core ys ++ sb) opt = lexCompare xs ys := by
  obtain ⟨e1, n1, _⟩ := tokens_core_suffix xs hxs sa hsa
  obtain ⟨e2, n2, _⟩ := tokens_core_suffix ys hys sb hsb
  generalize (splitByDotOrDash sa).tail = st1 at e1 n1
  generalize (splitByDotOrDash sb).tail = st2 at e2 n2
  have hl : lexCompare xs ys ≠ 0 := fun h => hne ((lexCompare_eq_zero xs ys).1 h)
  have hp : numericPhase (numericTokens (xs.map numeral ++ st1))
      (numericTokens (ys.map numeral ++ st2)) = lexCompare xs ys := by
    rw [numericTokens_append _ _ (numerals_isNum xs hbx),
      numericTokens_append _ _ (numerals_isNum ys hby), n1, n2, List.append_nil, List.append_nil]
    exact numericPhase_numerals xs ys hbx hby
  unfold compared
  rw [normalized_core_suffix U xs hxs sa hsa, normalized_core_suffix U ys hys sb hsb]
  by_cases he : core xs ++ sa = core ys ++ sb
  · exfalso
    have ht : xs.map numeral ++ st1 = ys.map numeral ++ st2 := by rw [← e1, ← e2, he]
    rw [ht] at hp
    have h0 : numericPhase (numericTokens (ys.map numeral ++ st2))
        (numericTokens (ys.map numeral ++ st2)) = 0 := by
      rw [numericTokens_append _ _ (numerals_isNum ys hby), n2, List.append_nil,
        numericPhase_numerals ys ys hby hby]
      exact (lexCompare_eq_zero ys ys).2 rfl
    exact hl (hp ▸ h0)
  · rw [if_neg he, e1, e2, tokensCmp_eq, hp, if_pos hl]

/-! ### Lower case on ASCII -/

theorem toNat_ofNat_small (n : Nat) (h : n < 55296) : (Char.ofNat n).toNat = n := by
  unfold Char.ofNat
  have hv : n.isValidChar := Or.inl h
  rw [dif_pos hv]
  simp [Char.ofNatAux, Char.toNat, UInt32.toNat]

theorem toLower_toNat (c : Char) :
    c.toLower.toNat = if 65 ≤ c.toNat ∧ c.toNat ≤ 90 then c.toNat + 32 else c.toNat := by
  unfold Char.toLower
  simp only [ge_iff_le]
  by_cases h : 65 ≤ c.toNat ∧ c.toNat ≤ 90
  · rw [if_pos h, if_pos h, toNat_ofNat_small _ (by omega)]
  · rw [if_neg h, if_neg h]

theorem toNat_inj {c d : Char} (h : c.toNat = d.toNat) : c = d := by
  rw [← Char.ofNat_toNat c, ← Char.ofNat_toNat d, h]

theorem toLower_idem (c : Char) : c.toLower.toLower = c.toLower := by
  apply toNat_inj
  rw [toLower_toNat c.toLower, toLower_toNat c]
  split_ifs <;> omega

theorem toLower_ascii_lt {c : Char} (h : c.toNat < 128) : c.toLower.toNat < 128 := by
  rw [toLower_toNat]; split_ifs <;> omega

theorem ToLower_of_ascii (U : UnicodeTables) (s : Str) (h : ∀ c ∈ s, c.toNat < 128) :
    ToLower U s = s.map Char.toLower := by
  unfold ToLower
  apply List.map_congr_left
  intro c hc
  exact U.toLower_ascii c (h c hc)

theorem map_toLower_ascii (s : Str) (h : ∀ c ∈ s, c.toNat < 128) :
    ∀ c ∈ s.map Char.toLower, c.toNat < 128 := by
  intro c hc
  rw [List.mem_map] at hc
  obtain ⟨d, hd, rfl⟩ := hc
  exact toLower_ascii_lt (h d hd)

theorem map_toLower_idem (s : Str) : (s.map Char.toLower).map Char.toLower = s.map Char.toLower := by
  rw [List.map_map]
  apply List.map_congr_left
  intro c _
  exact toLower_idem c

theorem dropWhile_congr_mem {α : Type} (f g : α → Bool) (s : List α)
    (h : ∀ c ∈ s, f c = g c) : s.dropWhile f = s.dropWhile g := by
  induction s with
  | nil => rfl
  | cons c cs ih =>
    have hc := h c (by simp)
    simp only [List.dropWhile_cons, hc]
    rw [ih (fun e he => h e (List.mem_cons_of_mem _ he))]

theorem TrimSpace_of_ascii (U : UnicodeTables) (s : Str) (h : ∀ c ∈ s, c.toNat < 128) :
    TrimSpace U s = TrimSpace asciiTables s := by
  have hf : ∀ c ∈ s, U.IsSpace c = asciiTables.IsSpace c :=
    fun c hc => U.isSpace_ascii c (h c hc)
  unfold TrimSpace TrimRightSpace TrimLeftSpace
  rw [dropWhile_congr_mem _ _ s hf]
  rw [dropWhile_congr_mem U.IsSpace asciiTables.IsSpace _ (fun c hc => by
    apply hf
    have : c ∈ s.dropWhile asciiTables.IsSpace := by simpa using hc
    exact (List.dropWhile_sublist _).subset this)]

/-- On an ASCII suffix the classification does not depend on the tables. -/
theorem suffixKindOf_of_ascii (U : UnicodeTables) (pre post : Option (List Str)) (s : Str)
    (h : ∀ c ∈ s, c.toNat < 128) :
    suffixKindOf U pre post s = suffixKindOf asciiTables pre post s := by
  have h1 := map_toLower_ascii s h
  unfold suffixKindOf rankByOrder
  simp only [ToLower_of_ascii U s h, ToLower_of_ascii asciiTables s h,
    ToLower_of_ascii U _ h1, ToLower_of_ascii asciiTables _ h1, TrimSpace_of_ascii U _ h1]

theorem suffixPriority_of_ascii (U : UnicodeTables) (order : Option (List Str)) (s : Str)
    (h : ∀ c ∈ s, c.toNat < 128) :
    suffixPriority U s order = suffixPriority asciiTables s order := by
  unfold suffixPriority
  rw [ToLower_of_ascii U s h, ToLower_of_ascii asciiTables s h]

theorem suffixCmp_of_ascii (U : UnicodeTables) (opt : Options) (t1 t2 : List Str)
    (h1 : ∀ c ∈ Join (suffixTokens t1) ['-'], c.toNat < 128)
    (h2 : ∀ c ∈ Join (suffixTokens t2) ['-'], c.toNat < 128) :
    suffixCmp U opt t1 t2 = suffixCmp asciiTables opt t1 t2 := by
  unfold suffixCmp
  simp only [suffixKindOf_of_ascii U _ _ _ h1, suffixKindOf_of_ascii U _ _ _ h2,
    suffixPriority_of_ascii U _ _ h1, suffixPriority_of_ascii U _ _ h2]

/-! ### Two versions with the same numeric core -/

theorem remainingCmp_append_left (N s1 s2 : List Str) :
    remainingCmp (N ++ s1) (N ++ s2) = remainingCmp s1 s2 := by
  induction N with
  | nil => rfl
  | cons t ts ih =>
    show remainingCmp (t :: (ts ++ s1)) (t :: (ts ++ s2)) = _
    simp only [remainingCmp, if_true]
    exact ih

theorem suffixCmp_append_left (U : UnicodeTables) (opt : Options) (N s1 s2 : List Str)
    (hN : ∀ t ∈ N, isNum t = true) :
    suffixCmp U opt (N ++ s1) (N ++ s2) = suffixCmp U opt s1 s2 := by
  unfold suffixCmp
  simp only [suffixTokens_append N _ hN, remainingCmp_append_left]

theorem compared_same_core (U : UnicodeTables) (opt : Options) (xs : List Nat) (sa sb : Str)
    (hxs : xs ≠ []) (hbx : ∀ x ∈ xs, (x : Int) ≤ maxInt)
    (hsa : IsTagSuffix sa) (hsb : IsTagSuffix sb) (hne : sa ≠ sb) :
    compared U (core xs ++ sa) (core xs ++ sb) opt
      = suffixCmp U opt (splitByDotOrDash sa).tail (splitByDotOrDash sb).tail := by
  obtain ⟨e1, n1, _⟩ := tokens_core_suffix xs hxs sa hsa
  obtain ⟨e2, n2, _⟩ := tokens_core_suffix xs hxs sb hsb
  have hN := numerals_isNum xs hbx
  unfold compared
  rw [normalized_core_suffix U xs hxs sa hsa, normalized_core_suffix U xs hxs sb hsb,
    if_neg (fun h => hne (List.append_cancel_left h)), e1, e2, tokensCmp_eq,
    numericTokens_append _ _ hN, numericTokens_append _ _ hN, n1, n2, List.append_nil,
    numericPhase_numerals xs xs hbx hbx, (lexCompare_eq_zero xs xs).2 rfl,
    if_neg (by simp), suffixCmp_append_left U opt _ _ _ hN]

theorem IsTagSuffix_of_test {s : Str} (h : isTagSuffix s = true) : IsTagSuffix s := by
  match s, h with
  | [], _ => exact Or.inl rfl
  | c0 :: c :: w, h =>
    simp only [isTagSuffix, Bool.and_eq_true, beq_iff_eq, List.all_eq_true] at h
    obtain ⟨⟨h0, hc⟩, hw⟩ := h
    subst h0
    exact Or.inr ⟨c, w, hc, hw, rfl⟩

theorem tag_ascii {sa : Str} (hsa : IsTagSuffix sa) :
    ∀ c ∈ Join (suffixTokens (splitByDotOrDash sa).tail) ['-'], c.toNat < 128 := by
  rcases hsa with h | ⟨a, w, ha, hw, rfl⟩
  · subst h; intro c hc; simp [splitByDotOrDash, suffixTokens, Join] at hc
  · rw [split_tag a w ha hw]
    have hn : isNum (a :: w) = false := isNum_tag a w ha
    have : suffixTokens [a :: w] = [a :: w] := by
      simp [suffixTokens, List.dropWhile_cons, hn]
    rw [this]
    intro c hc
    simp only [Join, List.mem_cons] at hc
    rcases hc with h | h
    · rw [h]; have := isAlpha_toNat ha; omega
    · rcases isAlphanum_cases (hw c h) with h1 | h1
      · have := isAlpha_toNat h1; omega
      · have := isDigit_toNat h1; omega

/-- Two versions with the same numeric core and different tags compare as
their tags do under the ASCII tables. -/
theorem Compare_same_core (U : UnicodeTables) (xs : List Nat) (sa sb : Str)
    (hxs : xs ≠ []) (hbx : ∀ x ∈ xs, (x : Int) ≤ maxInt)
    (hsa : IsTagSuffix sa) (hsb : IsTagSuffix sb) (hne : sa ≠ sb) :
    Compare U (core xs ++ sa) (core xs ++ sb)
      = some (suffixCmp asciiTables ⟨none, none⟩
          (splitByDotOrDash sa).tail (splitByDotOrDash sb).tail) := by
  rw [Compare_eq, compared_same_core U _ xs sa sb hxs hbx hsa hsb hne,
    suffixCmp_of_ascii U _ _ _ (tag_ascii hsa) (tag_ascii hsb)]

theorem sixSuffixes_pairwise :
    sixSuffixes.Pairwise (fun sa sb => suffixPairOk sa sb = true) := by
  decide

/-! ### The kind of a word of letters under the default tables -/

theorem isAlpha_toLower {c : Char} (h : c.isAlpha = true) :
    97 ≤ c.toLower.toNat ∧ c.toLower.toNat ≤ 122 := by
  have := isAlpha_toNat h
  rw [toLower_toNat]
  split_ifs <;> omega

theorem rankLoop_hotfix (s : Str) :
    rankLoop s ["hotfix".toList] 0 = if Contains s "hotfix".toList = true then 1 else 0 := by
  simp [rankLoop]

theorem rankLoop_prerelease (s : Str) :
    rankLoop s ["alpha".toList, "beta".toList, "rc".toList] 0 =
      if Contains s "alpha".toList = true then 1
      else if Contains s "beta".toList = true then 2
      else if Contains s "rc".toList = true then 3 else 0 := by
  simp [rankLoop]

theorem suffixKindOf_word (U : UnicodeTables) (w : Str) (hne : w ≠ [])
    (hw : ∀ c ∈ w, c.isAlpha = true) :
    suffixKindOf U (preOrder ⟨none, none⟩) (postOrder ⟨none, none⟩) w =
      if (Contains (w.map Char.toLower) "alpha".toList = true
          ∨ Contains (w.map Char.toLower) "beta".toList = true
          ∨ Contains (w.map Char.toLower) "rc".toList = true)
        ∧ ¬ Contains (w.map Char.toLower) "hotfix".toList = true
      then suffixPrerelease else suffixPostrelease := by
  have hasc : ∀ c ∈ w, c.toNat < 128 := fun c hc => by
    have := isAlpha_toNat (hw c hc); omega
  have hasc1 := map_toLower_ascii w hasc
  have htrim : TrimSpace U (w.map Char.toLower) ≠ [] := by
    cases w with
    | nil => exact absurd rfl hne
    | cons c cs =>
      have hc := isAlpha_toLower (hw c (by simp))
      rw [List.map_cons, TrimSpace_cons U _ _ (U_isSpace_false U (by omega) (by omega))]
      simp
  unfold suffixKindOf rankByOrder
  simp only [ToLower_of_ascii U w hasc, ToLower_of_ascii U _ hasc1, map_toLower_idem]
  rw [if_neg htrim]
  have e1 : (postOrder ⟨none, none⟩).getD [] = ["hotfix".toList] := rfl
  have e2 : (preOrder ⟨none, none⟩).getD [] = ["alpha".toList, "beta".toList, "rc".toList] := rfl
  rw [e1, e2, rankLoop_hotfix, rankLoop_prerelease]
  generalize Contains (w.map Char.toLower) "hotfix".toList = bh
  generalize Contains (w.map Char.toLower) "alpha".toList = ba
  generalize Contains (w.map Char.toLower) "beta".toList = bb
  generalize Contains (w.map Char.toLower) "rc".toList = br
  cases bh <;> cases ba <;> cases bb <;> cases br <;> rfl

theorem suffixKindOf_nil (U : UnicodeTables) (pre post : Option (List Str)) :
    suffixKindOf U pre post [] = suffixNone := by
  simp [suffixKindOf, ToLower, TrimSpace, TrimRightSpace, TrimLeftSpace]

theorem suffixCmp_word_nil (U : UnicodeTables) (c : Char) (w : Str) (hc : c.isAlpha = true)
    (hw : ∀ e ∈ w, e.isAlpha = true) :
    suffixCmp U ⟨none, none⟩ [c :: w] [] =
      if (Contains ((c :: w).map Char.toLower) "alpha".toList = true
          ∨ Contains ((c :: w).map Char.toLower) "beta".toList = true
          ∨ Contains ((c :: w).map Char.toLower) "rc".toList = true)
        ∧ ¬ Contains ((c :: w).map Char.toLower) "hotfix".toList = true
      then -1 else 1 := by
  have hall : ∀ e ∈ c :: w, e.isAlpha = true := by
    intro e he
    rcases List.mem_cons.1 he with h | h
    · rw [h]; exact hc
    · exact hw e h
  have hn : isNum (c :: w) = false := isNum_tag c w hc
  have e1 : Join (suffixTokens [c :: w]) ['-'] = c :: w := by
    simp [suffixTokens, List.dropWhile_cons, hn, Join]
  have e2 : Join (suffixTokens ([] : List Str)) ['-'] = [] := rfl
  unfold suffixCmp
  simp only [e1, e2, suffixKindOf_nil, suffixKindOf_word U (c :: w) (by simp) hall]
  split_ifs <;> simp_all [suffixPrerelease, suffixNone, suffixPostrelease]

/-! ## Transitivity -/

/-! ### Order on tokens -/

theorem stringsCompare_self (a : Str) : stringsCompare a a = 0 := by
  induction a with
  | nil => rfl
  | cons c cs ih =>
    simp only [stringsCompare]
    rw [if_neg (lt_irrefl c), if_neg (lt_irrefl c)]; exact ih

theorem stringsCompare_eq_zero {a b : Str} (h : stringsCompare a b = 0) : a = b := by
  induction a generalizing b with
  | nil => cases b with
    | nil => rfl
    | cons d ds => simp [stringsCompare] at h
  | cons c cs ih =>
    cases b with
    | nil => simp [stringsCompare] at h
    | cons d ds =>
      simp only [stringsCompare] at h
      by_cases h1 : c < d
      · simp [h1] at h
      · by_cases h2 : d < c
        · simp [h1, h2] at h
        · rw [if_neg h1, if_neg h2] at h
          have : c = d := le_antisymm (not_lt.mp h2) (not_lt.mp h1)
          rw [this, ih h]

theorem stringsCompare_trans {a b c : Str} (h1 : stringsCompare a b = -1)
    (h2 : stringsCompare b c = -1) : stringsCompare a c = -1 := by
  induction a generalizing b c with
  | nil =>
    cases b with
    | nil => simp [stringsCompare] at h1
    | cons y ys =>
      cases c with
      | nil => simp [stringsCompare] at h2
      | cons z zs => rfl
  | cons x xs ih =>
    cases b with
    | nil => simp [stringsCompare] at h1
    | cons y ys =>
      cases c with
      | nil => simp [stringsCompare] at h2
      | cons z zs =>
        simp only [stringsCompare] at h1 h2 ⊢
        by_cases hxy : x < y
        · by_cases hyz : y < z
          · rw [if_pos (lt_trans hxy hyz)]
          · by_cases hzy : z < y
            · simp [hyz, hzy] at h2
            · have : y = z := le_antisymm (not_lt.mp hzy) (not_lt.mp hyz)
              subst this
              rw [if_pos hxy]
        · by_cases hyx : y < x
          · simp [hxy, hyx] at h1
          · have hxy' : x = y := le_antisymm (not_lt.mp hyx) (not_lt.mp hxy)
            subst hxy'
            rw [if_neg hxy, if_neg hyx] at h1
            by_cases hyz : x < z
            · rw [if_pos hyz]
            · by_cases hzy : z < x
              · simp [hyz, hzy] at h2
              · rw [if_neg hyz, if_neg hzy] at h2 ⊢
                exact ih h1 h2

theorem tokenCmp_self (a : Str) : tokenCmp a a ≠ -1 := by
  unfold tokenCmp
  by_cases h : isNum a = true
  · simp [h]
  · simp [h, stringsCompare_self]

theorem tokenCmp_ne_zero {a b : Str} (h : a ≠ b) : tokenCmp a b ≠ 0 := by
  unfold tokenCmp
  cases ha : isNum a <;> cases hb : isNum b <;>
    simp only [Bool.and_self, Bool.and_false, Bool.false_and, Bool.and_true,
      Bool.true_and, Bool.not_true, Bool.not_false, Bool.false_eq_true, if_false, if_true]
  · exact fun e => h (stringsCompare_eq_zero e)
  · simp
  · simp
  · split_ifs <;> simp

theorem tokenCmp_trans {a b c : Str} (h1 : tokenCmp a b = -1) (h2 : tokenCmp b c = -1) :
    tokenCmp a c = -1 := by
  unfold tokenCmp at h1 h2 ⊢
  cases ha : isNum a <;> cases hb : isNum b <;> cases hc : isNum c <;>
    simp only [ha, hb, hc, Bool.and_self, Bool.and_false, Bool.false_and, Bool.and_true,
      Bool.true_and, Bool.not_true, Bool.not_false, Bool.false_eq_true, if_false, if_true]
      at h1 h2 ⊢
  · exact stringsCompare_trans h1 h2
  · simp at h2
  · simp at h1
  · simp at h1
  · simp at h2
  · by_cases hab : numVal a < numVal b
    · by_cases hbc : numVal b < numVal c
      · rw [if_pos (lt_trans hab hbc)]
      · simp [hbc] at h2
    · simp [hab] at h1

theorem remainingCmp_self (t : List Str) : remainingCmp t t = 0 := by
  induction t with
  | nil => rfl
  | cons a as ih => simp only [remainingCmp, if_true]; exact ih

/-- At two different tokens the loop "Compare remaining tokens" returns. -/
theorem remainingCmp_cons_ne {a b : Str} (as bs : List Str) (h : a ≠ b) :
    remainingCmp (a :: as) (b :: bs) = tokenCmp a b := by
  simp only [remainingCmp]
  rw [if_neg h, if_pos (tokenCmp_ne_zero h)]

theorem remainingCmp_trans {t1 t2 t3 : List Str} (h1 : remainingCmp t1 t2 = -1)
    (h2 : remainingCmp t2 t3 = -1) : remainingCmp t1 t3 = -1 := by
  induction t1 generalizing t2 t3 with
  | nil =>
    cases t2 with
    | nil => simp [remainingCmp] at h1
    | cons b bs =>
      cases t3 with
      | nil => simp [remainingCmp] at h2
      | cons c cs => rfl
  | cons a as ih =>
    cases t2 with
    | nil => simp [remainingCmp] at h1
    | cons b bs =>
      cases t3 with
      | nil => simp [remainingCmp] at h2
      | cons c cs =>
        by_cases hab : a = b
        · subst hab
          by_cases hbc : a = c
          · subst hbc
            simp only [remainingCmp, if_true] at h1 h2 ⊢
            exact ih h1 h2
          · rw [remainingCmp_cons_ne _ _ hbc] at h2 ⊢
            exact h2
        · rw [remainingCmp_cons_ne _ _ hab] at h1
          by_cases hbc : b = c
          · subst hbc
            rw [remainingCmp_cons_ne _ _ hab]; exact h1
          · rw [remainingCmp_cons_ne _ _ hbc] at h2
            have hac : a ≠ c := by
              intro e; subst e
              exact tokenCmp_self a (tokenCmp_trans h1 h2)
            rw [remainingCmp_cons_ne _ _ hac]
            exact tokenCmp_trans h1 h2

/-! ### Order on the values of the numeric prefix -/

theorem valuesLt_irrefl (v : List Int) : ¬ valuesLt v v := by
  induction v with
  | nil => simp [valuesLt]
  | cons x xs ih => simp [valuesLt, ih]

theorem valuesLt_trans {u v w : List Int} (h1 : valuesLt u v) (h2 : valuesLt v w) :
    valuesLt u w := by
  induction u generalizing v w with
  | nil =>
    cases v with
    | nil => simp [valuesLt] at h1
    | cons y ys =>
      cases w with
      | nil => simp [valuesLt] at h2
      | cons z zs => simp [valuesLt]
  | cons x xs ih =>
    cases v with
    | nil => simp [valuesLt] at h1
    | cons y ys =>
      cases w with
      | nil => simp [valuesLt] at h2
      | cons z zs =>
        simp only [valuesLt] at h1 h2 ⊢
        rcases h1 with h1 | ⟨e1, h1⟩ <;> rcases h2 with h2 | ⟨e2, h2⟩
        · left; omega
        · left; omega
        · left; omega
        · right; exact ⟨by omega, ih h1 h2⟩

theorem numericPhase_eq_neg_one (l1 l2 : List Str) :
    numericPhase l1 l2 = -1 ↔ valuesLt (l1.map numVal) (l2.map numVal) := by
  induction l1 generalizing l2 with
  | nil => cases l2 <;> simp [numericPhase, numericCmp, valuesLt]
  | cons a as ih =>
    cases l2 with
    | nil => simp [numericPhase, numericCmp, valuesLt]
    | cons b bs =>
      have ih' := ih bs
      simp only [numericPhase, List.map_cons, numericCmp, valuesLt, List.length_cons,
        add_lt_add_iff_right, gt_iff_lt] at ih' ⊢
      by_cases h1 : numVal a < numVal b
      · simp [h1]
      · by_cases h2 : numVal b < numVal a
        · simp [h1, h2]; omega
        · have : numVal a = numVal b := by omega
          rw [if_neg h1, if_neg h2, ih']
          simp only [this, lt_irrefl, false_or, true_and]

theorem numericPhase_eq_zero (l1 l2 : List Str) :
    numericPhase l1 l2 = 0 ↔ l1.map numVal = l2.map numVal := by
  induction l1 generalizing l2 with
  | nil => cases l2 <;> simp [numericPhase, numericCmp]
  | cons a as ih =>
    cases l2 with
    | nil => simp [numericPhase, numericCmp]
    | cons b bs =>
      have ih' := ih bs
      simp only [numericPhase, List.map_cons, numericCmp, List.length_cons,
        add_lt_add_iff_right, gt_iff_lt, List.cons.injEq] at ih' ⊢
      by_cases h1 : numVal a < numVal b
      · simp [h1]; omega
      · by_cases h2 : numVal b < numVal a
        · simp [h1, h2]; omega
        · have : numVal a = numVal b := by omega
          rw [if_neg h1, if_neg h2, ih']
          simp only [this, true_and]

/-! ### The ranks -/

theorem rankLoop_of_no_token (s : Str) (order : List Str) (i : Int)
    (h : order.filter (fun t => decide (t ≠ [])) = []) : rankLoop s order i = 0 := by
  induction order generalizing i with
  | nil => rfl
  | cons t ts ih =>
    by_cases ht : t = []
    · subst ht
      simp only [rankLoop, if_true]
      exact ih _ (by simpa using h)
    · simp [List.filter_cons, ht] at h

/-- With at most one non-empty token in the table, all matching suffixes have
the same rank. -/
theorem rankLoop_single (s1 s2 : Str) (order : List Str) (i : Int)
    (h : (order.filter (fun t => decide (t ≠ []))).length ≤ 1)
    (h1 : rankLoop s1 order i > 0) (h2 : rankLoop s2 order i > 0) :
    rankLoop s1 order i = rankLoop s2 order i := by
  induction order generalizing i with
  | nil => rfl
  | cons t ts ih =>
    by_cases ht : t = []
    · subst ht
      simp only [rankLoop, if_true] at h1 h2 ⊢
      exact ih _ (by simpa using h) h1 h2
    · have hts : ts.filter (fun t => decide (t ≠ [])) = [] := by
        have : (ts.filter (fun t => decide (t ≠ []))).length = 0 := by
          simp [List.filter_cons, ht] at h
          simpa using h
        exact List.length_eq_zero.1 this
      simp only [rankLoop, if_neg ht, rankLoop_of_no_token _ ts _ hts] at h1 h2 ⊢
      by_cases c1 : Contains s1 t = true
      · by_cases c2 : Contains s2 t = true
        · rw [if_pos c1, if_pos c2]
        · rw [if_neg c2] at h2; exact absurd h2 (lt_irrefl _)
      · rw [if_neg c1] at h1; exact absurd h1 (lt_irrefl _)

theorem ToLower_idem (U : UnicodeTables) (hU : ∀ c, U.ToLower (U.ToLower c) = U.ToLower c)
    (s : Str) : ToLower U (ToLower U s) = ToLower U s := by
  unfold ToLower
  rw [List.map_map]
  apply List.map_congr_left
  intro c _
  exact hU c

/-- A prerelease suffix has a rank in the prerelease table. -/
theorem suffixPriority_pos_of_prerelease (U : UnicodeTables)
    (hU : ∀ c, U.ToLower (U.ToLower c) = U.ToLower c) (pre post : Option (List Str)) (s : Str)
    (h : suffixKindOf U pre post s = suffixPrerelease) : suffixPriority U s pre > 0 := by
  unfold suffixKindOf rankByOrder at h
  simp only [ToLower_idem U hU] at h
  unfold suffixPriority
  split_ifs at h with h1 h2 h3
  · exact absurd h (by decide)
  · exact absurd h (by decide)
  · exact h3
  · exact absurd h (by decide)

/-! ### When `CompareWithOptions` answers `-1` -/

theorem suffixCmp_eq_neg_one (U : UnicodeTables) (opt : Options)
    (hU : ∀ c, U.ToLower (U.ToLower c) = U.ToLower c)
    (hpost : (((postOrder opt).getD []).filter (fun t => decide (t ≠ []))).length ≤ 1)
    (t1 t2 : List Str) :
    suffixCmp U opt t1 t2 = -1 ↔
      (kindOf U opt t1 < kindOf U opt t2 ∨
      (kindOf U opt t1 = kindOf U opt t2 ∧
        (preRank U opt t1 < preRank U opt t2 ∨
        (preRank U opt t1 = preRank U opt t2 ∧ remainingCmp t1 t2 = -1)))) := by
  unfold suffixCmp preRank kindOf
  simp only []
  generalize hs1 : Join (suffixTokens t1) ['-'] = s1
  generalize hs2 : Join (suffixTokens t2) ['-'] = s2
  have hp1 := suffixPriority_pos_of_prerelease U hU (preOrder opt) (postOrder opt) s1
  have hp2 := suffixPriority_pos_of_prerelease U hU (preOrder opt) (postOrder opt) s2
  have hq : suffixPriority U s1 (postOrder opt) > 0 → suffixPriority U s2 (postOrder opt) > 0 →
      suffixPriority U s1 (postOrder opt) = suffixPriority U s2 (postOrder opt) :=
    fun a b => rankLoop_single _ _ _ 0 hpost a b
  generalize suffixKindOf U (preOrder opt) (postOrder opt) s1 = k1 at hp1 ⊢
  generalize suffixKindOf U (preOrder opt) (postOrder opt) s2 = k2 at hp2 ⊢
  generalize suffixPriority U s1 (preOrder opt) = p1 at hp1 ⊢
  generalize suffixPriority U s2 (preOrder opt) = p2 at hp2 ⊢
  generalize suffixPriority U s1 (postOrder opt) = q1 at hq ⊢
  generalize suffixPriority U s2 (postOrder opt) = q2 at hq ⊢
  by_cases hk : k1 = k2
  · subst hk
    rw [if_neg (by simp)]
    by_cases hpre : k1 = suffixPrerelease
    · have a1 := hp1 hpre
      have a2 := hp2 hpre
      simp only [hpre, if_true]
      by_cases hp : p1 = p2
      · subst hp
        rw [if_neg (by simp), if_neg (by simp [suffixPrerelease, suffixPostrelease])]
        simp
      · rw [if_pos ⟨trivial, a1, a2, hp⟩]
        by_cases hlt : p1 < p2
        · simp [hlt]
        · simp [hlt, hp]
    · rw [if_neg (fun h => hpre h.1), if_neg (fun h => h.2.2.2 (hq h.2.1 h.2.2.1))]
      simp [hpre]
  · rw [if_pos hk]
    by_cases hlt : k1 < k2
    · simp [hlt]
    · simp [hlt, hk]

theorem tokensCmp_eq_neg_one (U : UnicodeTables) (opt : Options)
    (hU : ∀ c, U.ToLower (U.ToLower c) = U.ToLower c)
    (hpost : (((postOrder opt).getD []).filter (fun t => decide (t ≠ []))).length ≤ 1)
    (t1 t2 : List Str) :
    tokensCmp U opt t1 t2 = -1 ↔ tokensLess U opt t1 t2 := by
  rw [tokensCmp_eq]
  unfold tokensLess prefixValues
  rw [← numericPhase_eq_neg_one, ← numericPhase_eq_zero, ← suffixCmp_eq_neg_one U opt hU hpost]
  by_cases h0 : numericPhase (numericTokens t1) (numericTokens t2) = 0
  · rw [if_neg (by simp [h0])]
    simp [h0]
  · rw [if_pos h0]
    simp [h0]

theorem tokensLess_irrefl (U : UnicodeTables) (opt : Options) (t : List Str) :
    ¬ tokensLess U opt t t := by
  unfold tokensLess
  simp [valuesLt_irrefl, remainingCmp_self]

theorem tokensLess_trans (U : UnicodeTables) (opt : Options) {t1 t2 t3 : List Str}
    (h1 : tokensLess U opt t1 t2) (h2 : tokensLess U opt t2 t3) : tokensLess U opt t1 t3 := by
  unfold tokensLess at h1 h2 ⊢
  rcases h1 with h1 | ⟨e1, h1⟩
  · rcases h2 with h2 | ⟨e2, h2⟩
    · exact Or.inl (valuesLt_trans h1 h2)
    · exact Or.inl (e2 ▸ h1)
  · rcases h2 with h2 | ⟨e2, h2⟩
    · exact Or.inl (e1 ▸ h2)
    · refine Or.inr ⟨e1.trans e2, ?_⟩
      rcases h1 with h1 | ⟨k1, h1⟩
      · rcases h2 with h2 | ⟨k2, h2⟩
        · exact Or.inl (lt_trans h1 h2)
        · exact Or.inl (k2 ▸ h1)
      · rcases h2 with h2 | ⟨k2, h2⟩
        · exact Or.inl (k1 ▸ h2)
        · refine Or.inr ⟨k1.trans k2, ?_⟩
          rcases h1 with h1 | ⟨r1, h1⟩
          · rcases h2 with h2 | ⟨r2, h2⟩
            · exact Or.inl (lt_trans h1 h2)
            · exact Or.inl (r2 ▸ h1)
          · rcases h2 with h2 | ⟨r2, h2⟩
            · exact Or.inl (r1 ▸ h2)
            · exact Or.inr ⟨r1.trans r2, remainingCmp_trans h1 h2⟩

theorem compared_eq_neg_one (U : UnicodeTables) (opt : Options)
    (hU : ∀ c, U.ToLower (U.ToLower c) = U.ToLower c)
    (hpost : (((postOrder opt).getD []).filter (fun t => decide (t ≠ []))).length ≤ 1)
    (a b : Str) :
    compared U a b opt = -1 ↔
      tokensLess U opt (splitByDotOrDash (normalized U a)) (splitByDotOrDash (normalized U b)) := by
  unfold compared
  by_cases h : normalized U a = normalized U b
  · rw [if_pos h, h]
    constructor
    · intro e; exact absurd e (by decide)
    · intro e; exact absurd e (tokensLess_irrefl U opt _)
  · rw [if_neg h]
    exact tokensCmp_eq_neg_one U opt hU hpost _ _

/-! ## Equality -/

theorem remainingCmp_eq_zero {t1 t2 : List Str} (h : remainingCmp t1 t2 = 0) : t1 = t2 := by
  induction t1 generalizing t2 with
  | nil =>
    cases t2 with
    | nil => rfl
    | cons b bs => simp [remainingCmp] at h
  | cons a as ih =>
    cases t2 with
    | nil => simp [remainingCmp] at h
    | cons b bs =>
      by_cases hab : a = b
      · subst hab
        simp only [remainingCmp, if_true] at h
        rw [ih h]
      · rw [remainingCmp_cons_ne _ _ hab] at h
        exact absurd h (tokenCmp_ne_zero hab)

theorem suffixCmp_self (U : UnicodeTables) (opt : Options) (t : List Str) :
    suffixCmp U opt t t = 0 := by
  unfold suffixCmp
  simp [remainingCmp_self]

theorem suffixCmp_eq_zero (U : UnicodeTables) (opt : Options) {t1 t2 : List Str}
    (h : suffixCmp U opt t1 t2 = 0) : t1 = t2 := by
  unfold suffixCmp at h
  simp only [] at h
  split_ifs at h <;> first | exact remainingCmp_eq_zero h | exact absurd h (by decide)

theorem numericPhase_range (l1 l2 : List Str) :
    numericPhase l1 l2 = -1 ∨ numericPhase l1 l2 = 0 ∨ numericPhase l1 l2 = 1 := by
  unfold numericPhase
  cases h : numericCmp l1 l2 with
  | some r => rcases numericCmp_range _ _ r h with e | e <;> simp [e]
  | none => simp only []; split_ifs <;> simp

theorem tokensCmp_self (U : UnicodeTables) (opt : Options) (t : List Str) :
    tokensCmp U opt t t = 0 := by
  rw [tokensCmp_eq, (numericPhase_eq_zero _ _).2 rfl, if_neg (by simp), suffixCmp_self]

theorem tokensCmp_eq_zero (U : UnicodeTables) (opt : Options) {t1 t2 : List Str}
    (h : tokensCmp U opt t1 t2 = 0) : t1 = t2 := by
  rw [tokensCmp_eq] at h
  by_cases h0 : numericPhase (numericTokens t1) (numericTokens t2) = 0
  · rw [if_neg (by simp [h0])] at h
    exact suffixCmp_eq_zero U opt h
  · rw [if_pos h0] at h
    exact absurd h h0

theorem compared_eq_zero (U : UnicodeTables) (a b : Str) (opt : Options) :
    compared U a b opt = 0 ↔
      splitByDotOrDash (normalized U a) = splitByDotOrDash (normalized U b) := by
  unfold compared
  by_cases h : normalized U a = normalized U b
  · rw [if_pos h, h]; simp
  · rw [if_neg h]
    constructor
    · exact tokensCmp_eq_zero U opt
    · intro e; rw [e]; exact tokensCmp_self U opt _

/-! ## Words of letters -/

theorem letter_facts (U : UnicodeTables) {c : Char} (h : c.isAlpha = true) :
    U.IsSpace c = false ∧ U.IsDigit c = false ∧ c ≠ '_' ∧ c ≠ '+' ∧ c ≠ '.' ∧ c ≠ '-' := by
  have hn := isAlpha_toNat h
  have hus : ('_' : Char).toNat = 95 := rfl
  have hplus : ('+' : Char).toNat = 43 := rfl
  exact ⟨U_isSpace_false U (by omega) (by omega), U_isDigit_false U (by omega) (by omega),
    toNat_ne (by omega), toNat_ne (by omega), (letter_not_sep h).1, (letter_not_sep h).2⟩

theorem TrimSpace_of_no_space (U : UnicodeTables) (s : Str)
    (h : ∀ c ∈ s, U.IsSpace c = false) : TrimSpace U s = s := by
  cases s with
  | nil => simp [TrimSpace, TrimRightSpace, TrimLeftSpace]
  | cons c cs =>
    rw [TrimSpace_cons U c cs (h c (by simp)),
      TrimRightSpace_of_all U cs (fun e he => h e (List.mem_cons_of_mem _ he))]

theorem stripProduct_of_no_digit (U : UnicodeTables) (s : Str)
    (h : ∀ c ∈ s, U.IsDigit c = false) : stripProduct U s = s := by
  unfold stripProduct
  rw [if_neg]
  intro ha
  rw [List.any_eq_true] at ha
  obtain ⟨c, hc, hd⟩ := ha
  rw [h c hc] at hd
  exact absurd hd (by decide)

/-- The normalized form of a word of letters: the word without one leading
`v` and then without one leading `V`. -/
theorem normalized_letters (U : UnicodeTables) (s : Str) (hs : ∀ c ∈ s, c.isAlpha = true) :
    normalized U s = TrimPrefix (TrimPrefix s ['v']) ['V'] := by
  have hmem : ∀ c ∈ TrimPrefix (TrimPrefix s ['v']) ['V'], c.isAlpha = true :=
    fun c hc => hs c (mem_TrimPrefix _ _ c (mem_TrimPrefix _ _ c hc))
  unfold normalized stripped
  rw [TrimSpace_of_no_space U s (fun c hc => (letter_facts U (hs c hc)).1),
    stripProduct_of_no_digit U _ (fun c hc => (letter_facts U (hmem c hc)).2.1),
    ReplaceAll_of_not_mem _ _ _ (fun h => (letter_facts U (hmem _ h)).2.2.1 rfl),
    resolvePlus_of_no_plus _ (fun h => (letter_facts U (hmem _ h)).2.2.2.1 rfl)]

theorem split_letters (s : Str) (hs : ∀ c ∈ s, c.isAlpha = true) :
    splitByDotOrDash s = [s] :=
  split_noSep s (fun c hc => letter_not_sep (hs c hc))

/-! ## Suffixes of several tokens -/

theorem suffixCmp_same_class (U : UnicodeTables) (opt : Options) (t1 t2 : List Str)
    (hk : kindOf U opt t1 = kindOf U opt t2)
    (hp : kindOf U opt t1 = suffixPrerelease →
      suffixPriority U (Join (suffixTokens t1) ['-']) (preOrder opt)
        = suffixPriority U (Join (suffixTokens t2) ['-']) (preOrder opt))
    (hq : kindOf U opt t1 = suffixPostrelease →
      suffixPriority U (Join (suffixTokens t1) ['-']) (postOrder opt)
        = suffixPriority U (Join (suffixTokens t2) ['-']) (postOrder opt)) :
    suffixCmp U opt t1 t2 = remainingCmp t1 t2 := by
  unfold kindOf at hk hp hq
  unfold suffixCmp
  simp only []
  rw [if_neg (by simpa using hk), if_neg (fun h => h.2.2.2 (hp h.1)),
    if_neg (fun h => h.2.2.2 (hq h.1))]

theorem split_cons_sep (x : Char) (rest : Str) (hx : x = '.' ∨ x = '-') :
    splitByDotOrDash (x :: rest) = [] :: splitByDotOrDash rest := by
  simp [splitByDotOrDash, hx]

theorem split_cons_letter (c : Char) (r : Str) (hc : c.isAlpha = true) :
    ∃ t ts, splitByDotOrDash (c :: r) = (c :: t) :: ts := by
  have hn := letter_not_sep hc
  simp only [splitByDotOrDash]
  rw [if_neg (by rintro (e | e); exact hn.1 e; exact hn.2 e)]
  cases splitByDotOrDash r with
  | nil => exact ⟨[], [], rfl⟩
  | cons t ts => exact ⟨t, ts, rfl⟩

theorem tokens_core_text (xs : List Nat) (hne : xs ≠ []) (sa : Str) (hsa : IsSuffixText sa) :
    splitByDotOrDash (core xs ++ sa) = xs.map numeral ++ (splitByDotOrDash sa).tail ∧
      numericTokens (splitByDotOrDash sa).tail = [] ∧
      suffixTokens (splitByDotOrDash sa).tail = (splitByDotOrDash sa).tail := by
  rcases hsa with h | ⟨c, r, hc, _, rfl⟩
  · subst h
    exact ⟨by simpa [splitByDotOrDash] using split_core xs hne, rfl, rfl⟩
  · obtain ⟨t, ts, e⟩ := split_cons_letter c r hc
    have hn : isNum (c :: t) = false := isNum_tag c t hc
    rw [split_cons_sep '-' _ (Or.inr rfl), List.tail_cons]
    refine ⟨?_, ?_, ?_⟩
    · unfold core
      exact split_Join_append _ _ (by simpa using hne) (numerals_noSep xs)
    · rw [e]; simp [numericTokens, List.takeWhile_cons, hn]
    · rw [e]; simp [suffixTokens, List.dropWhile_cons, hn]

theorem normalized_core_text (U : UnicodeTables) (xs : List Nat) (hne : xs ≠ []) (sa : Str)
    (hsa : IsSuffixText sa) : normalized U (core xs ++ sa) = core xs ++ sa := by
  obtain ⟨d, r, e, hd⟩ := core_head xs hne
  apply normalized_version U _ d (r ++ sa) (by rw [e]; rfl) hd
  intro c hc
  rw [List.mem_append] at hc
  rcases hc with hc | hc
  · rcases mem_core hc with h | h
    · exact Or.inl h
    · exact Or.inr (Or.inr (Or.inl h))
  · rcases hsa with h | ⟨a, w, ha, hw, rfl⟩
    · rw [h] at hc; simp at hc
    · simp only [List.mem_cons] at hc
      rcases hc with h | h | h
      · exact Or.inr (Or.inr (Or.inr h))
      · exact Or.inr (Or.inl (h ▸ ha))
      · exact hw c h

/-- Two versions with the same numeric core and different suffixes compare as
the tokens of their suffixes do. -/
theorem compared_same_core_text (U : UnicodeTables) (opt : Options) (xs : List Nat)
    (sa sb : Str) (hxs : xs ≠ []) (hbx : ∀ x ∈ xs, (x : Int) ≤ maxInt)
    (hsa : IsSuffixText sa) (hsb : IsSuffixText sb) (hne : sa ≠ sb) :
    compared U (core xs ++ sa) (core xs ++ sb) opt
      = suffixCmp U opt (splitByDotOrDash sa).tail (splitByDotOrDash sb).tail := by
  obtain ⟨e1, n1, _⟩ := tokens_core_text xs hxs sa hsa
  obtain ⟨e2, n2, _⟩ := tokens_core_text xs hxs sb hsb
  have hN := numerals_isNum xs hbx
  unfold compared
  rw [normalized_core_text U xs hxs sa hsa, normalized_core_text U xs hxs sb hsb,
    if_neg (fun h => hne (List.append_cancel_left h)), e1, e2, tokensCmp_eq,
    numericTokens_append _ _ hN, numericTokens_append _ _ hN, n1, n2, List.append_nil,
    numericPhase_numerals xs xs hbx hbx, (lexCompare_eq_zero xs xs).2 rfl,
    if_neg (by simp), suffixCmp_append_left U opt _ _ _ hN]

/-! ### Classification of an ASCII suffix -/

theorem suffixPriority_ascii (U : UnicodeTables) (order : Option (List Str)) (s : Str)
    (h : ∀ c ∈ s, c.toNat < 128) :
    suffixPriority U s order = rankLoop (s.map Char.toLower) (order.getD []) 0 := by
  unfold suffixPriority
  rw [ToLower_of_ascii U s h]

/-- The kind of an ASCII suffix that begins with a letter. -/
theorem suffixKindOf_ascii (U : UnicodeTables) (pre post : Option (List Str)) (c : Char)
    (r : Str) (hc : c.isAlpha = true) (h : ∀ e ∈ r, e.toNat < 128) :
    suffixKindOf U pre post (c :: r) =
      if rankLoop ((c :: r).map Char.toLower) (post.getD []) 0 > 0 then suffixPostrelease
      else if rankLoop ((c :: r).map Char.toLower) (pre.getD []) 0 > 0 then suffixPrerelease
      else suffixPostrelease := by
  have hasc : ∀ e ∈ c :: r, e.toNat < 128 := by
    intro e he
    rcases List.mem_cons.1 he with h1 | h1
    · rw [h1]; have := isAlpha_toNat hc; omega
    · exact h e h1
  have hasc1 := map_toLower_ascii _ hasc
  have hl := isAlpha_toLower hc
  have htrim : TrimSpace U ((c :: r).map Char.toLower) ≠ [] := by
    rw [List.map_cons, TrimSpace_cons U _ _ (U_isSpace_false U (by omega) (by omega))]
    simp
  unfold suffixKindOf rankByOrder
  simp only [ToLower_of_ascii U _ hasc, ToLower_of_ascii U _ hasc1, map_toLower_idem]
  rw [if_neg htrim]

/-! ### Text after the word does not change the rank -/

theorem HasPrefix_append_of_disjoint (l r tok : Str) (h : ∀ c ∈ tok, c ∉ r) :
    HasPrefix (l ++ r) tok = HasPrefix l tok := by
  induction l generalizing tok with
  | nil =>
    cases tok with
    | nil => cases r <;> rfl
    | cons t ts =>
      cases r with
      | nil => rfl
      | cons c cs =>
        have : c ≠ t := fun e => h t (by simp) (by rw [e]; simp)
        simp [HasPrefix, this]
  | cons c cs ih =>
    cases tok with
    | nil => rfl
    | cons t ts =>
      show (c == t && HasPrefix (cs ++ r) ts) = (c == t && HasPrefix cs ts)
      rw [ih ts (fun e he => h e (List.mem_cons_of_mem _ he))]

theorem Contains_of_disjoint (r tok : Str) (hne : tok ≠ []) (h : ∀ c ∈ tok, c ∉ r) :
    Contains r tok = false := by
  induction r with
  | nil => cases tok with
    | nil => exact absurd rfl hne
    | cons t ts => rfl
  | cons c cs ih =>
    have h' : ∀ e ∈ tok, e ∉ cs := fun e he hm => h e he (List.mem_cons_of_mem _ hm)
    cases tok with
    | nil => exact absurd rfl hne
    | cons t ts =>
      have : c ≠ t := fun e => h t (by simp) (by rw [e]; simp)
      simp only [Contains, HasPrefix, Bool.or_eq_false_iff, Bool.and_eq_false_iff]
      exact ⟨Or.inl (by simpa using this), ih h'⟩

theorem Contains_append_of_disjoint (l r tok : Str) (hne : tok ≠ [])
    (h : ∀ c ∈ tok, c ∉ r) : Contains (l ++ r) tok = Contains l tok := by
  induction l with
  | nil =>
    rw [List.nil_append, Contains_of_disjoint r tok hne h]
    cases tok with
    | nil => exact absurd rfl hne
    | cons t ts => rfl
  | cons c cs ih =>
    show (HasPrefix (c :: cs ++ r) tok || Contains (cs ++ r) tok)
      = (HasPrefix (c :: cs) tok || Contains cs tok)
    rw [ih, HasPrefix_append_of_disjoint (c :: cs) r tok h]

theorem rankLoop_append_of_disjoint (l r : Str) (order : List Str) (i : Int)
    (h : ∀ tok ∈ order, ∀ c ∈ tok, c ∉ r) :
    rankLoop (l ++ r) order i = rankLoop l order i := by
  induction order generalizing i with
  | nil => rfl
  | cons tok rest ih =>
    have ih' := fun j => ih j (fun t ht => h t (List.mem_cons_of_mem _ ht))
    by_cases ht : tok = []
    · subst ht
      simp only [rankLoop, if_true]
      exact ih' _
    · simp only [rankLoop, if_neg ht]
      rw [Contains_append_of_disjoint l r tok ht (h tok (by simp)), ih']

theorem Contains_self_append (p r : Str) : Contains (p ++ r) p = true := by
  have hp : ∀ (p r : Str), HasPrefix (p ++ r) p = true := by
    intro p
    induction p with
    | nil => intro r; cases r <;> rfl
    | cons c cs ih => intro r; simp [HasPrefix, ih]
  cases p with
  | nil => cases r <;> rfl
  | cons c cs =>
    show (HasPrefix (c :: cs ++ r) (c :: cs) || Contains (cs ++ r) (c :: cs)) = true
    rw [hp (c :: cs) r]; rfl

theorem stringsCompare_append_left (p a b : Str) :
    stringsCompare (p ++ a) (p ++ b) = stringsCompare a b := by
  induction p with
  | nil => rfl
  | cons c cs ih =>
    show stringsCompare (c :: (cs ++ a)) (c :: (cs ++ b)) = _
    simp only [stringsCompare]
    rw [if_neg (lt_irrefl c), if_neg (lt_irrefl c)]; exact ih

/-! ### A word followed by digits and separators -/

theorem rankLoop_word_then_low (w r : Str) (order : List Str)
    (hT : ∀ tok ∈ order, ∀ c ∈ tok, 65 ≤ c.toNat) (hr : ∀ c ∈ r, c.toNat < 65) :
    rankLoop ((w ++ r).map Char.toLower) order 0 = rankLoop (w.map Char.toLower) order 0 := by
  rw [List.map_append]
  apply rankLoop_append_of_disjoint
  intro tok htok c hc hm
  rw [List.mem_map] at hm
  obtain ⟨d, hd, rfl⟩ := hm
  have h1 := hT tok htok _ hc
  have h2 := hr d hd
  rw [toLower_toNat] at h1
  split_ifs at h1 <;> omega

theorem suffixKindOf_word_then_low (U : UnicodeTables) (pre post : Option (List Str))
    (c : Char) (cs r : Str) (hc : c.isAlpha = true) (hcs : ∀ e ∈ cs, e.isAlpha = true)
    (hpre : ∀ tok ∈ pre.getD [], ∀ e ∈ tok, 65 ≤ e.toNat)
    (hpost : ∀ tok ∈ post.getD [], ∀ e ∈ tok, 65 ≤ e.toNat)
    (hr : ∀ e ∈ r, e.toNat < 65) :
    suffixKindOf U pre post (c :: cs ++ r) = suffixKindOf U pre post (c :: cs) := by
  have h1 : ∀ e ∈ cs ++ r, e.toNat < 128 := by
    intro e he
    rcases List.mem_append.1 he with h | h
    · have := isAlpha_toNat (hcs e h); omega
    · have := hr e h; omega
  have h2 : ∀ e ∈ cs, e.toNat < 128 := fun e he => h1 e (List.mem_append_left _ he)
  have e1 := suffixKindOf_ascii U pre post c (cs ++ r) hc h1
  have e2 := suffixKindOf_ascii U pre post c cs hc h2
  rw [List.cons_append, e1, e2]
  have a1 := rankLoop_word_then_low (c :: cs) r (pre.getD []) hpre hr
  have a2 := rankLoop_word_then_low (c :: cs) r (post.getD []) hpost hr
  rw [List.cons_append] at a1 a2
  rw [a1, a2]

theorem suffixPriority_word_then_low (U : UnicodeTables) (order : Option (List Str))
    (w r : Str) (hw : ∀ e ∈ w, e.isAlpha = true)
    (hT : ∀ tok ∈ order.getD [], ∀ e ∈ tok, 65 ≤ e.toNat)
    (hr : ∀ e ∈ r, e.toNat < 65) :
    suffixPriority U (w ++ r) order = suffixPriority U w order := by
  have h1 : ∀ e ∈ w ++ r, e.toNat < 128 := by
    intro e he
    rcases List.mem_append.1 he with h | h
    · have := isAlpha_toNat (hw e h); omega
    · have := hr e h; omega
  have h2 : ∀ e ∈ w, e.toNat < 128 := fun e he => h1 e (List.mem_append_left _ he)
  rw [suffixPriority_ascii U order _ h1, suffixPriority_ascii U order _ h2,
    rankLoop_word_then_low w r _ hT hr]

theorem defaultTables_letters :
    (∀ tok ∈ (preOrder ⟨none, none⟩).getD [], ∀ e ∈ tok, 65 ≤ e.toNat) ∧
    (∀ tok ∈ (postOrder ⟨none, none⟩).getD [], ∀ e ∈ tok, 65 ≤ e.toNat) := by
  decide

theorem numeral_low (n : Nat) : ∀ e ∈ '-' :: numeral n, e.toNat < 65 := by
  intro e he
  rcases List.mem_cons.1 he with h | h
  · rw [h]; decide
  · have := isDigit_toNat ((numeral_spec n).2.1 e h); omega

theorem numeral_injective {n m : Nat} (h : numeral n = numeral m) : n = m := by
  rw [← (numeral_spec n).2.2, ← (numeral_spec m).2.2, h]

/-- The suffix tokens `w`, `n` against `w`, `m`, and `w` against `w`, `n`, for
a word `w` and numbers `n < m`, under the default tables. -/
theorem suffixCmp_word_number (U : UnicodeTables) (c : Char) (cs : Str) (n m : Nat)
    (hc : c.isAlpha = true) (hcs : ∀ e ∈ cs, e.isAlpha = true)
    (hnm : n < m) (hm : (m : Int) ≤ maxInt) :
    suffixCmp U ⟨none, none⟩ [c :: cs, numeral n] [c :: cs, numeral m] = -1 ∧
    suffixCmp U ⟨none, none⟩ [c :: cs] [c :: cs, numeral n] = -1 := by
  have hn : (n : Int) ≤ maxInt := by omega
  have hw : ∀ e ∈ c :: cs, e.isAlpha = true := by
    intro e he
    rcases List.mem_cons.1 he with h | h
    · rw [h]; exact hc
    · exact hcs e h
  have hnum : isNum (c :: cs) = false := isNum_tag c cs hc
  have s1 : ∀ k : Nat, Join (suffixTokens [c :: cs, numeral k]) ['-']
      = c :: cs ++ '-' :: numeral k := by
    intro k; simp [suffixTokens, List.dropWhile_cons, hnum, Join]
  have s0 : Join (suffixTokens [c :: cs]) ['-'] = c :: cs := by
    simp [suffixTokens, List.dropWhile_cons, hnum, Join]
  have hk : ∀ k : Nat, suffixKindOf U (preOrder ⟨none, none⟩) (postOrder ⟨none, none⟩)
      (c :: cs ++ '-' :: numeral k)
      = suffixKindOf U (preOrder ⟨none, none⟩) (postOrder ⟨none, none⟩) (c :: cs) :=
    fun k => suffixKindOf_word_then_low U _ _ c cs _ hc hcs defaultTables_letters.1
      defaultTables_letters.2 (numeral_low k)
  have hp : ∀ (k : Nat) (order : Option (List Str)),
      (∀ tok ∈ order.getD [], ∀ e ∈ tok, 65 ≤ e.toNat) →
      suffixPriority U (c :: cs ++ '-' :: numeral k) order = suffixPriority U (c :: cs) order :=
    fun k order hT => suffixPriority_word_then_low U order (c :: cs) _ hw hT (numeral_low k)
  constructor
  · rw [suffixCmp_same_class U _ _ _
      (by unfold kindOf; rw [s1, s1, hk, hk])
      (fun _ => by rw [s1, s1, hp n _ defaultTables_letters.1, hp m _ defaultTables_letters.1])
      (fun _ => by rw [s1, s1, hp n _ defaultTables_letters.2, hp m _ defaultTables_letters.2])]
    have hne : numeral n ≠ numeral m := fun e => by
      have := numeral_injective e; omega
    simp only [remainingCmp, if_true]
    rw [if_neg hne, if_pos (tokenCmp_ne_zero hne)]
    unfold tokenCmp
    rw [isNum_numeral n hn, isNum_numeral m hm, numVal_numeral n hn, numVal_numeral m hm]
    simp [hnm]
  · rw [suffixCmp_same_class U _ _ _
      (by unfold kindOf; rw [s1, s0, hk])
      (fun _ => by rw [s1, s0, hp n _ defaultTables_letters.1])
      (fun _ => by rw [s1, s0, hp n _ defaultTables_letters.2])]
    simp [remainingCmp]

/-! ### The tag `hotfix` followed by digits -/

theorem hotfix_digits_ascii (k : Str) (hk : ∀ c ∈ k, c.isDigit = true) :
    ∀ e ∈ "otfix".toList ++ k, e.toNat < 128 := by
  have h0 : ∀ e ∈ "otfix".toList, e.toNat < 128 := by decide
  intro e he
  rcases List.mem_append.1 he with h | h
  · exact h0 e h
  · have := isDigit_toNat (hk e h); omega

theorem hotfix_digits_alphanum (k : Str) (hk : ∀ c ∈ k, c.isDigit = true) :
    ∀ e ∈ "otfix".toList ++ k, e.isAlphanum = true := by
  have h0 : ∀ e ∈ "otfix".toList, e.isAlphanum = true := by decide
  intro e he
  rcases List.mem_append.1 he with h | h
  · exact h0 e h
  · unfold Char.isAlphanum; simp [hk e h]

theorem rankLoop_hotfix_digits (k : Str) :
    rankLoop (('h' :: ("otfix".toList ++ k)).map Char.toLower) ["hotfix".toList] 0 = 1 := by
  have e : 'h' :: ("otfix".toList ++ k) = "hotfix".toList ++ k := rfl
  have : "hotfix".toList.map Char.toLower = "hotfix".toList := by decide
  rw [e, rankLoop_hotfix, List.map_append, this, Contains_self_append]; rfl

theorem suffixCmp_hotfix_digits (U : UnicodeTables) (n m : Str)
    (hn : ∀ c ∈ n, c.isDigit = true) (hm : ∀ c ∈ m, c.isDigit = true) (hne : n ≠ m) :
    suffixCmp U ⟨none, none⟩ ['h' :: ("otfix".toList ++ n)] ['h' :: ("otfix".toList ++ m)]
      = stringsCompare n m := by
  have hh : ('h' : Char).isAlpha = true := by decide
  have hnum : ∀ k : Str, isNum ('h' :: ("otfix".toList ++ k)) = false :=
    fun k => isNum_tag 'h' ("otfix".toList ++ k) hh
  have s1 : ∀ k : Str, Join (suffixTokens ['h' :: ("otfix".toList ++ k)]) ['-']
      = 'h' :: ("otfix".toList ++ k) := by
    intro k; simp only [suffixTokens, List.dropWhile_cons, hnum k]; rfl
  have hpost : (postOrder ⟨none, none⟩).getD [] = ["hotfix".toList] := rfl
  have hkind : ∀ k : Str, (∀ c ∈ k, c.isDigit = true) →
      suffixKindOf U (preOrder ⟨none, none⟩) (postOrder ⟨none, none⟩)
        ('h' :: ("otfix".toList ++ k)) = suffixPostrelease := by
    intro k hk
    rw [suffixKindOf_ascii U _ _ 'h' _ hh (hotfix_digits_ascii k hk), hpost,
      rankLoop_hotfix_digits k]
    rfl
  have hprio : ∀ k : Str, (∀ c ∈ k, c.isDigit = true) →
      suffixPriority U ('h' :: ("otfix".toList ++ k)) (postOrder ⟨none, none⟩) = 1 := by
    intro k hk
    rw [suffixPriority_ascii U _ _ (by
      intro e he
      rcases List.mem_cons.1 he with h | h
      · rw [h]; decide
      · exact hotfix_digits_ascii k hk e h), hpost, rankLoop_hotfix_digits k]
  have hne' : 'h' :: ("otfix".toList ++ n) ≠ 'h' :: ("otfix".toList ++ m) := by
    intro e
    exact hne (List.append_cancel_left (List.cons.inj e).2)
  rw [suffixCmp_same_class U _ _ _
    (by unfold kindOf; rw [s1, s1, hkind n hn, hkind m hm])
    (fun h => by
      unfold kindOf at h
      rw [s1, hkind n hn] at h
      exact absurd h (by decide))
    (fun _ => by rw [s1, s1, hprio n hn, hprio m hm]),
    remainingCmp_cons_ne _ _ hne']
  unfold tokenCmp
  rw [hnum n, hnum m]
  simp only [Bool.false_and, Bool.false_eq_true, if_false, Bool.not_false, Bool.and_false]
  exact stringsCompare_append_left "hotfix".toList n m

/-! ## Caller-supplied tables -/

theorem Contains_self (s : Str) : Contains s s = true := by
  have := Contains_self_append s []
  simpa using this

theorem isLower_toNat {c : Char} (h : c.isLower = true) : 97 ≤ c.toNat ∧ c.toNat ≤ 122 := by
  unfold Char.isLower at h
  simp only [Bool.and_eq_true, decide_eq_true_eq] at h
  exact ⟨h.1, h.2⟩

theorem isAlpha_of_isLower {c : Char} (h : c.isLower = true) : c.isAlpha = true := by
  unfold Char.isAlpha; simp [h]

theorem isTableToken_cases {t : Str} (h : isTableToken t = true) :
    ∃ c r, t = c :: r ∧ c.isLower = true ∧ ∀ e ∈ r, e.isLower = true ∨ e.isDigit = true := by
  cases t with
  | nil => simp [isTableToken] at h
  | cons c r =>
    simp only [isTableToken, Bool.and_eq_true, List.all_eq_true, Bool.or_eq_true] at h
    exact ⟨c, r, rfl, h.1, h.2⟩

theorem isTableToken_lower {t : Str} (h : isTableToken t = true) :
    t.map Char.toLower = t := by
  obtain ⟨c, r, rfl, hc, hr⟩ := isTableToken_cases h
  have key : ∀ e : Char, (e.isLower = true ∨ e.isDigit = true) → e.toLower = e := by
    intro e he
    apply toNat_inj
    rw [toLower_toNat]
    rcases he with h1 | h1
    · have := isLower_toNat h1; rw [if_neg (by omega)]
    · have := isDigit_toNat h1; rw [if_neg (by omega)]
  rw [List.map_cons, key c (Or.inl hc)]
  congr 1
  conv_rhs => rw [← List.map_id r]
  apply List.map_congr_left
  intro e he
  exact key e (hr e he)

theorem isTableToken_tag {t : Str} (h : isTableToken t = true) : IsTagSuffix ('-' :: t) := by
  obtain ⟨c, r, rfl, hc, hr⟩ := isTableToken_cases h
  refine Or.inr ⟨c, r, isAlpha_of_isLower hc, ?_, rfl⟩
  intro e he
  unfold Char.isAlphanum
  rcases hr e he with h1 | h1
  · simp [isAlpha_of_isLower h1]
  · simp [h1]

/-- The rank of a token of the table in the table, when no earlier token is
contained in it: its position, counted from one. -/
theorem rankLoop_at (T : List Str) (i0 : Int) (k : Nat) (s : Str)
    (hne : ∀ t ∈ T, t ≠ [])
    (hsub : T.Pairwise (fun a b => Contains b a = false))
    (hk : T[k]? = some s) : rankLoop s T i0 = i0 + k + 1 := by
  induction T generalizing i0 k with
  | nil => simp at hk
  | cons h rest ih =>
    have hh : h ≠ [] := hne h (by simp)
    rw [List.pairwise_cons] at hsub
    cases k with
    | zero =>
      simp only [List.getElem?_cons_zero, Option.some.injEq] at hk
      subst hk
      simp only [rankLoop, if_neg hh, Contains_self, if_true]
      simp
    | succ k' =>
      simp only [List.getElem?_cons_succ] at hk
      have hs : s ∈ rest := List.getElem?_mem hk
      have hc : Contains s h = false := hsub.1 s hs
      simp only [rankLoop, if_neg hh, hc, Bool.false_eq_true, if_false]
      rw [ih _ _ (fun t ht => hne t (List.mem_cons_of_mem _ ht)) hsub.2 hk]
      push_cast; ring

theorem suffixCmp_by_prerelease_rank (U : UnicodeTables) (opt : Options) (t1 t2 : List Str)
    (h1 : kindOf U opt t1 = suffixPrerelease) (h2 : kindOf U opt t2 = suffixPrerelease)
    (hp1 : suffixPriority U (Join (suffixTokens t1) ['-']) (preOrder opt) > 0)
    (hlt : suffixPriority U (Join (suffixTokens t1) ['-']) (preOrder opt)
      < suffixPriority U (Join (suffixTokens t2) ['-']) (preOrder opt)) :
    suffixCmp U opt t1 t2 = -1 := by
  unfold kindOf at h1 h2
  unfold suffixCmp
  simp only [h1, h2]
  rw [if_neg (by simp), if_pos ⟨trivial, hp1, by omega, by omega⟩, if_pos hlt]

theorem suffixCmp_by_postrelease_rank (U : UnicodeTables) (opt : Options) (t1 t2 : List Str)
    (h1 : kindOf U opt t1 = suffixPostrelease) (h2 : kindOf U opt t2 = suffixPostrelease)
    (hp1 : suffixPriority U (Join (suffixTokens t1) ['-']) (postOrder opt) > 0)
    (hlt : suffixPriority U (Join (suffixTokens t1) ['-']) (postOrder opt)
      < suffixPriority U (Join (suffixTokens t2) ['-']) (postOrder opt)) :
    suffixCmp U opt t1 t2 = -1 := by
  unfold kindOf at h1 h2
  unfold suffixCmp
  simp only [h1, h2]
  rw [if_neg (by simp), if_neg (by simp [suffixPrerelease, suffixPostrelease]),
    if_pos ⟨trivial, hp1, by omega, by omega⟩, if_pos hlt]

theorem suffixTokens_tag (c : Char) (r : Str) (hc : c.isAlpha = true) :
    Join (suffixTokens [c :: r]) ['-'] = c :: r := by
  have hn : isNum (c :: r) = false := isNum_tag c r hc
  simp [suffixTokens, List.dropWhile_cons, hn, Join]

theorem split_tableToken {t : Str} (h : isTableToken t = true) :
    (splitByDotOrDash ('-' :: t)).tail = [t] := by
  obtain ⟨c, r, rfl, hc, hr⟩ := isTableToken_cases h
  apply split_tag c r (isAlpha_of_isLower hc)
  intro e he
  unfold Char.isAlphanum
  rcases hr e he with h1 | h1
  · simp [isAlpha_of_isLower h1]
  · simp [h1]

theorem tableToken_ascii {t : Str} (h : isTableToken t = true) : ∀ e ∈ t, e.toNat < 128 := by
  obtain ⟨c, r, rfl, hc, hr⟩ := isTableToken_cases h
  intro e he
  rcases List.mem_cons.1 he with h1 | h1
  · rw [h1]; have := isLower_toNat hc; omega
  · rcases hr e h1 with h2 | h2
    · have := isLower_toNat h2; omega
    · have := isDigit_toNat h2; omega

/-- The class of a table token as a suffix, when the table is the prerelease
table and the token does not contain `hotfix`. -/
theorem tableToken_prerelease (U : UnicodeTables) (T : List Str) (s : Str) (k : Nat)
    (hs : isTableToken s = true) (hrank : rankLoop s T 0 = (k : Int) + 1)
    (hh : Contains s "hotfix".toList = false) :
    kindOf U ⟨some T, none⟩ [s] = suffixPrerelease ∧
    suffixPriority U (Join (suffixTokens [s]) ['-']) (preOrder ⟨some T, none⟩)
      = (k : Int) + 1 := by
  obtain ⟨c, r, e, hc, hr⟩ := isTableToken_cases hs
  have hasc := tableToken_ascii hs
  have hl := isTableToken_lower hs
  subst e
  have hca := isAlpha_of_isLower hc
  have e1 : (postOrder ⟨some T, none⟩).getD [] = ["hotfix".toList] := rfl
  have e2 : (preOrder ⟨some T, none⟩).getD [] = T := rfl
  constructor
  · unfold kindOf
    rw [suffixTokens_tag c r hca,
      suffixKindOf_ascii U _ _ c r hca (fun e he => hasc e (List.mem_cons_of_mem _ he)),
      hl, e1, e2, rankLoop_hotfix, hh, hrank]
    rw [if_neg (by simp), if_pos (by omega)]
  · rw [suffixTokens_tag c r hca, suffixPriority_ascii U _ _ hasc, hl, e2, hrank]

/-- The class of a table token as a suffix, when the table is the postrelease
table. -/
theorem tableToken_postrelease (U : UnicodeTables) (T : List Str) (s : Str) (k : Nat)
    (hs : isTableToken s = true) (hrank : rankLoop s T 0 = (k : Int) + 1) :
    kindOf U ⟨none, some T⟩ [s] = suffixPostrelease ∧
    suffixPriority U (Join (suffixTokens [s]) ['-']) (postOrder ⟨none, some T⟩)
      = (k : Int) + 1 := by
  obtain ⟨c, r, e, hc, hr⟩ := isTableToken_cases hs
  have hasc := tableToken_ascii hs
  have hl := isTableToken_lower hs
  subst e
  have hca := isAlpha_of_isLower hc
  have e2 : (postOrder ⟨none, some T⟩).getD [] = T := rfl
  constructor
  · unfold kindOf
    rw [suffixTokens_tag c r hca,
      suffixKindOf_ascii U _ _ c r hca (fun e he => hasc e (List.mem_cons_of_mem _ he)),
      hl, e2, hrank]
    rw [if_pos (by omega)]
  · rw [suffixTokens_tag c r hca, suffixPriority_ascii U _ _ hasc, hl, e2, hrank]

/-! ## Numerals without redundant leading zeros -/

theorem parseUintLoop_inv (s : Str) (n v : Nat) (f : Bool)
    (h : parseUintLoop s n = some (v, f)) :
    (f = true ∧ v = maxUint64) ∨
    (f = false ∧ v = digitsValue s n ∧ ∀ c ∈ s, c.isDigit = true) := by
  induction s generalizing n with
  | nil =>
    simp only [parseUintLoop, Option.some.injEq, Prod.mk.injEq] at h
    exact Or.inr ⟨h.2.symm, h.1.symm, by simp⟩
  | cons c cs ih =>
    unfold parseUintLoop at h
    by_cases hc : 48 ≤ c.toNat ∧ c.toNat ≤ 57
    · rw [if_pos hc] at h
      by_cases h1 : n ≥ maxUint64 / 10 + 1
      · rw [if_pos h1] at h
        simp only [Option.some.injEq, Prod.mk.injEq] at h
        exact Or.inl ⟨h.2.symm, h.1.symm⟩
      · rw [if_neg h1] at h
        simp only [] at h
        by_cases h2 : n * 10 + (c.toNat - 48) > maxUint64
        · rw [if_pos h2] at h
          simp only [Option.some.injEq, Prod.mk.injEq] at h
          exact Or.inl ⟨h.2.symm, h.1.symm⟩
        · rw [if_neg h2] at h
          rcases ih _ h with h3 | ⟨h3, h4, h5⟩
          · exact Or.inl h3
          · refine Or.inr ⟨h3, h4, ?_⟩
            intro e he
            rcases List.mem_cons.1 he with h6 | h6
            · rw [h6]; exact isDigit_of_toNat hc.1 hc.2
            · exact h5 e h6
    · rw [if_neg hc] at h
      exact absurd h (by simp)

/-- A token without sign that `strconv.Atoi` accepts is a run of digits, and
its value is the value of the run. -/
theorem isNum_inv (t : Str) (h : isNum t = true) (hs : '+' ∉ t ∧ '-' ∉ t) :
    t ≠ [] ∧ (∀ c ∈ t, c.isDigit = true) ∧ numVal t = (digitsValue t 0 : Int) := by
  cases t with
  | nil => simp [isNum, Atoi] at h
  | cons c cs =>
    have h1 : (c == '-') = false := by
      rw [beq_eq_false_iff_ne]; intro e; exact hs.2 (by rw [e]; simp)
    have h2 : (c == '+') = false := by
      rw [beq_eq_false_iff_ne]; intro e; exact hs.1 (by rw [e]; simp)
    have hmaxI : maxInt = 9223372036854775807 := rfl
    have hmax : maxUint64 = 18446744073709551615 := rfl
    unfold isNum at h
    unfold numVal
    unfold Atoi at h ⊢
    simp only [h1, h2, Bool.or_false, Bool.false_eq_true, if_false] at h ⊢
    rw [if_neg (by simp)] at h ⊢
    cases hp : parseUintLoop (c :: cs) 0 with
    | none => rw [hp] at h; simp at h
    | some p =>
      obtain ⟨un, f⟩ := p
      rw [hp] at h
      simp only [Bool.not_false, Bool.true_and, Bool.false_and, Bool.false_eq_true,
        if_false] at h ⊢
      by_cases hb : (un : Int) ≥ maxInt + 1
      · rw [if_pos (by simpa using hb)] at h; simp at h
      · rw [if_neg (by simpa using hb)]
        rcases parseUintLoop_inv _ _ _ _ hp with ⟨_, h4⟩ | ⟨_, h4, h5⟩
        · exfalso; rw [h4, hmax, hmaxI] at hb; omega
        · exact ⟨by simp, h5, by rw [h4]⟩

theorem digitsValue_split (s : Str) (n : Nat) :
    digitsValue s n = n * 10 ^ s.length + digitsValue s 0 := by
  induction s generalizing n with
  | nil => simp [digitsValue]
  | cons c cs ih =>
    simp only [digitsValue, List.length_cons]
    rw [ih (n * 10 + (c.toNat - 48)), ih (0 * 10 + (c.toNat - 48))]
    ring

theorem digitsValue_lt (s : Str) (hs : ∀ c ∈ s, c.isDigit = true) :
    digitsValue s 0 < 10 ^ s.length := by
  induction s with
  | nil => simp [digitsValue]
  | cons c cs ih =>
    have hc := isDigit_toNat (hs c (by simp))
    have ih' := ih (fun e he => hs e (List.mem_cons_of_mem _ he))
    simp only [digitsValue, List.length_cons]
    rw [digitsValue_split]
    have : (0 * 10 + (c.toNat - 48)) ≤ 9 := by omega
    calc (0 * 10 + (c.toNat - 48)) * 10 ^ cs.length + digitsValue cs 0
        < (0 * 10 + (c.toNat - 48)) * 10 ^ cs.length + 10 ^ cs.length := by omega
      _ = ((0 * 10 + (c.toNat - 48)) + 1) * 10 ^ cs.length := by ring
      _ ≤ 10 * 10 ^ cs.length := Nat.mul_le_mul_right _ (by omega)
      _ = 10 ^ (cs.length + 1) := by ring

theorem digitsValue_ge (c : Char) (cs : Str) (hc : c.isDigit = true) (h0 : c ≠ '0') :
    10 ^ cs.length ≤ digitsValue (c :: cs) 0 := by
  have hn := isDigit_toNat hc
  have h48 : c.toNat ≠ 48 := fun e => h0 (toNat_inj (by rw [e]; rfl))
  simp only [digitsValue]
  rw [digitsValue_split]
  have : 1 ≤ 0 * 10 + (c.toNat - 48) := by omega
  calc 10 ^ cs.length = 1 * 10 ^ cs.length := by ring
    _ ≤ (0 * 10 + (c.toNat - 48)) * 10 ^ cs.length := Nat.mul_le_mul_right _ this
    _ ≤ _ := Nat.le_add_right _ _

theorem block_inj (P a b x y : Nat) (hx : x < P) (hy : y < P)
    (h : a * P + x = b * P + y) : a = b ∧ x = y := by
  have hab : a = b := by
    by_contra hne
    rcases Nat.lt_or_gt_of_ne hne with hlt | hlt
    · have : a * P + P ≤ b * P := by
        calc a * P + P = (a + 1) * P := by ring
          _ ≤ b * P := Nat.mul_le_mul_right _ hlt
      omega
    · have : b * P + P ≤ a * P := by
        calc b * P + P = (b + 1) * P := by ring
          _ ≤ a * P := Nat.mul_le_mul_right _ hlt
      omega
  subst hab
  exact ⟨rfl, by omega⟩

theorem digitsValue_inj_of_length (s t : Str) (hs : ∀ c ∈ s, c.isDigit = true)
    (ht : ∀ c ∈ t, c.isDigit = true) (hl : s.length = t.length)
    (hv : digitsValue s 0 = digitsValue t 0) : s = t := by
  induction s generalizing t with
  | nil =>
    cases t with
    | nil => rfl
    | cons d ds => simp at hl
  | cons c cs ih =>
    cases t with
    | nil => simp at hl
    | cons d ds =>
      have hc := isDigit_toNat (hs c (by simp))
      have hd := isDigit_toNat (ht d (by simp))
      have hcs := fun e he => hs e (List.mem_cons_of_mem c he)
      have hds := fun e he => ht e (List.mem_cons_of_mem d he)
      have hl' : cs.length = ds.length := by simpa using hl
      have b1 := digitsValue_lt cs hcs
      have b2 := digitsValue_lt ds hds
      simp only [digitsValue] at hv
      rw [digitsValue_split cs, digitsValue_split ds, hl'] at hv
      rw [hl'] at b1
      obtain ⟨e1, e2⟩ := block_inj _ _ _ _ _ b1 b2 hv
      have ecd : c = d := toNat_inj (by omega)
      rw [ecd, ih ds hcs hds hl' e2]

/-- Two runs of digits without redundant leading zeros that have the same
value are the same text. -/
theorem digitsValue_inj (s t : Str) (hs0 : s ≠ []) (ht0 : t ≠ [])
    (hs : ∀ c ∈ s, c.isDigit = true) (ht : ∀ c ∈ t, c.isDigit = true)
    (cs : s = ['0'] ∨ s.head? ≠ some '0') (ct : t = ['0'] ∨ t.head? ≠ some '0')
    (hv : digitsValue s 0 = digitsValue t 0) : s = t := by
  have pos : ∀ u : Str, u ≠ [] → (∀ c ∈ u, c.isDigit = true) → u.head? ≠ some '0' →
      10 ^ (u.length - 1) ≤ digitsValue u 0 := by
    intro u hu0 hu hh
    cases u with
    | nil => exact absurd rfl hu0
    | cons c r =>
      have := digitsValue_ge c r (hu c (by simp)) (fun e => hh (by rw [e]; rfl))
      simpa using this
  have one : ∀ k : Nat, 1 ≤ 10 ^ k := fun k => Nat.one_le_two_pow.trans
    (Nat.pow_le_pow_left (by decide) k)
  have z0 : digitsValue ['0'] 0 = 0 := by decide
  rcases cs with cs | cs <;> rcases ct with ct | ct
  · rw [cs, ct]
  · exfalso
    have := pos t ht0 ht ct
    have := one (t.length - 1)
    rw [cs, z0] at hv
    omega
  · exfalso
    have := pos s hs0 hs cs
    have := one (s.length - 1)
    rw [ct, z0] at hv
    omega
  · apply digitsValue_inj_of_length s t hs ht _ hv
    have ls := digitsValue_lt s hs
    have lt := digitsValue_lt t ht
    have gs := pos s hs0 hs cs
    have gt := pos t ht0 ht ct
    have hsl : 0 < s.length := List.length_pos.2 hs0
    have htl : 0 < t.length := List.length_pos.2 ht0
    by_contra hne
    rcases Nat.lt_or_gt_of_ne hne with h | h
    · have : 10 ^ s.length ≤ 10 ^ (t.length - 1) :=
        Nat.pow_le_pow_right (by decide) (by omega)
      omega
    · have : 10 ^ t.length ≤ 10 ^ (s.length - 1) :=
        Nat.pow_le_pow_right (by decide) (by omega)
      omega

/-! ## Symmetry on versions without redundant leading zeros -/

theorem mem_split (s : Str) : ∀ t ∈ splitByDotOrDash s, ∀ c ∈ t, c ∈ s ∧ c ≠ '.' ∧ c ≠ '-' := by
  induction s with
  | nil =>
    intro t ht c hc
    simp only [splitByDotOrDash, List.mem_singleton] at ht
    rw [ht] at hc; simp at hc
  | cons d ds ih =>
    intro t ht c hc
    simp only [splitByDotOrDash] at ht
    by_cases hd : d = '.' ∨ d = '-'
    · rw [if_pos hd] at ht
      rcases List.mem_cons.1 ht with h | h
      · rw [h] at hc; simp at hc
      · obtain ⟨h1, h2⟩ := ih t h c hc
        exact ⟨List.mem_cons_of_mem _ h1, h2⟩
    · rw [if_neg hd] at ht
      cases hsp : splitByDotOrDash ds with
      | nil =>
        rw [hsp] at ht
        simp only [List.mem_singleton] at ht
        rw [ht] at hc
        simp only [List.mem_singleton] at hc
        rw [hc]
        exact ⟨by simp, fun e => hd (Or.inl e), fun e => hd (Or.inr e)⟩
      | cons t0 ts =>
        rw [hsp] at ht ih
        rcases List.mem_cons.1 ht with h | h
        · rw [h] at hc
          rcases List.mem_cons.1 hc with h1 | h1
          · rw [h1]
            exact ⟨by simp, fun e => hd (Or.inl e), fun e => hd (Or.inr e)⟩
          · obtain ⟨h2, h3⟩ := ih t0 (by simp) c h1
            exact ⟨List.mem_cons_of_mem _ h2, h3⟩
        · obtain ⟨h2, h3⟩ := ih t (List.mem_cons_of_mem _ h) c hc
          exact ⟨List.mem_cons_of_mem _ h2, h3⟩

theorem not_mem_takeWhile_ne (s : Str) (x : Char) : x ∉ s.takeWhile (fun c => c != x) := by
  induction s with
  | nil => simp
  | cons c cs ih =>
    by_cases hc : c = x
    · simp [List.takeWhile_cons, hc]
    · simp only [List.takeWhile_cons, bne_iff_ne, ne_eq, hc, not_false_eq_true, decide_True,
        if_true, List.mem_cons, not_or]
      exact ⟨fun e => hc e.symm, ih⟩

theorem normalized_no_plus (U : UnicodeTables) (s : Str) : '+' ∉ normalized U s := by
  unfold normalized resolvePlus
  split_ifs with h1 h2
  · exact not_mem_takeWhile_ne _ _
  · exact not_mem_ReplaceAll _ _ _ (by decide)
  · exact h1

/-- The tokens of a normalized string carry no sign. -/
theorem token_no_sign (U : UnicodeTables) (s : Str) :
    ∀ t ∈ splitByDotOrDash (normalized U s), '+' ∉ t ∧ '-' ∉ t := by
  intro t ht
  constructor
  · intro h
    exact normalized_no_plus U s (mem_split _ t ht _ h).1
  · intro h
    exact (mem_split _ t ht _ h).2.2 rfl

/-- Numeric tokens without sign and without redundant leading zeros that have
the same value are the same token. -/
theorem numVal_inj (a b : Str) (ha : '+' ∉ a ∧ '-' ∉ a) (hb : '+' ∉ b ∧ '-' ∉ b)
    (ca : canonicalToken a = true) (cb : canonicalToken b = true)
    (na : isNum a = true) (nb : isNum b = true) (hv : numVal a = numVal b) : a = b := by
  obtain ⟨a0, ad, av⟩ := isNum_inv a na ha
  obtain ⟨b0, bd, bv⟩ := isNum_inv b nb hb
  have key : ∀ t : Str, (∀ c ∈ t, c.isDigit = true) → canonicalToken t = true →
      t = ['0'] ∨ t.head? ≠ some '0' := by
    intro t ht ct
    unfold canonicalToken at ct
    have : t.all Char.isDigit = true := by rw [List.all_eq_true]; exact ht
    simp only [this, Bool.not_true, Bool.false_or, Bool.or_eq_true, beq_iff_eq,
      bne_iff_ne, ne_eq] at ct
    exact ct
  apply digitsValue_inj a b a0 b0 ad bd (key a ad ca) (key b bd cb)
  rw [av, bv] at hv
  exact_mod_cast hv

theorem stringsCompare_antisymm (a b : Str) : stringsCompare b a = - stringsCompare a b := by
  induction a generalizing b with
  | nil => cases b <;> simp [stringsCompare]
  | cons c cs ih =>
    cases b with
    | nil => simp [stringsCompare]
    | cons d ds =>
      simp only [stringsCompare]
      by_cases h1 : c < d
      · have h2 : ¬ d < c := not_lt.mpr (le_of_lt h1)
        simp [h1, h2]
      · by_cases h2 : d < c
        · simp [h1, h2]
        · simp only [h1, h2, if_false]
          exact ih ds

theorem tokenCmp_antisymm (a b : Str)
    (hval : isNum a = true → isNum b = true → numVal a ≠ numVal b) :
    tokenCmp b a = - tokenCmp a b := by
  unfold tokenCmp
  cases ha : isNum a <;> cases hb : isNum b <;>
    simp only [Bool.and_self, Bool.and_false, Bool.false_and, Bool.and_true,
      Bool.true_and, Bool.not_true, Bool.not_false, Bool.false_eq_true, if_false, if_true]
  case false.false => exact stringsCompare_antisymm a b
  case true.true =>
    have := hval ha hb
    by_cases h1 : numVal a < numVal b
    · have h2 : ¬ numVal b < numVal a := by omega
      simp [h1, h2]
    · have h2 : numVal b < numVal a := by omega
      simp [h1, h2]
  all_goals rfl

theorem remainingCmp_antisymm (t1 t2 : List Str)
    (h : ∀ a ∈ t1, ∀ b ∈ t2, a ≠ b → isNum a = true → isNum b = true → numVal a ≠ numVal b) :
    remainingCmp t2 t1 = - remainingCmp t1 t2 := by
  induction t1 generalizing t2 with
  | nil => cases t2 <;> simp [remainingCmp]
  | cons a as ih =>
    cases t2 with
    | nil => simp [remainingCmp]
    | cons b bs =>
      have ih' := ih bs (fun x hx y hy => h x (List.mem_cons_of_mem _ hx) y
        (List.mem_cons_of_mem _ hy))
      by_cases hab : a = b
      · subst hab
        simp only [remainingCmp, if_true]
        exact ih'
      · rw [remainingCmp_cons_ne _ _ hab, remainingCmp_cons_ne _ _ (Ne.symm hab)]
        exact tokenCmp_antisymm a b (h a (by simp) b (by simp) hab)

theorem numericPhase_antisymm (l1 l2 : List Str) :
    numericPhase l2 l1 = - numericPhase l1 l2 := by
  induction l1 generalizing l2 with
  | nil => cases l2 <;> simp [numericPhase, numericCmp]
  | cons a as ih =>
    cases l2 with
    | nil => simp [numericPhase, numericCmp]
    | cons b bs =>
      have ih' := ih bs
      simp only [numericPhase, numericCmp, List.length_cons, add_lt_add_iff_right,
        gt_iff_lt] at ih' ⊢
      by_cases h1 : numVal a < numVal b
      · have h2 : ¬ numVal b < numVal a := by omega
        simp [h1, h2]
      · by_cases h2 : numVal b < numVal a
        · simp [h1, h2]
        · simp only [h1, h2, if_false]
          exact ih'

theorem suffixCmp_antisymm (U : UnicodeTables) (opt : Options) (t1 t2 : List Str)
    (h : remainingCmp t2 t1 = - remainingCmp t1 t2) :
    suffixCmp U opt t2 t1 = - suffixCmp U opt t1 t2 := by
  unfold suffixCmp
  simp only []
  generalize suffixKindOf U (preOrder opt) (postOrder opt) (Join (suffixTokens t1) ['-']) = k1
  generalize suffixKindOf U (preOrder opt) (postOrder opt) (Join (suffixTokens t2) ['-']) = k2
  generalize suffixPriority U (Join (suffixTokens t1) ['-']) (preOrder opt) = p1
  generalize suffixPriority U (Join (suffixTokens t2) ['-']) (preOrder opt) = p2
  generalize suffixPriority U (Join (suffixTokens t1) ['-']) (postOrder opt) = q1
  generalize suffixPriority U (Join (suffixTokens t2) ['-']) (postOrder opt) = q2
  by_cases hk : k1 = k2
  · subst hk
    rw [if_neg (show ¬ (k1 ≠ k1) by simp), if_neg (show ¬ (k1 ≠ k1) by simp)]
    by_cases hp : k1 = suffixPrerelease ∧ p1 > 0 ∧ p2 > 0 ∧ p1 ≠ p2
    · rw [if_pos hp, if_pos ⟨hp.1, hp.2.2.1, hp.2.1, Ne.symm hp.2.2.2⟩]
      by_cases hlt : p1 < p2
      · have : ¬ p2 < p1 := by omega
        simp [hlt, this]
      · have : p2 < p1 := by have := hp.2.2.2; omega
        simp [hlt, this]
    · rw [if_neg hp, if_neg (fun x => hp ⟨x.1, x.2.2.1, x.2.1, Ne.symm x.2.2.2⟩)]
      by_cases hq : k1 = suffixPostrelease ∧ q1 > 0 ∧ q2 > 0 ∧ q1 ≠ q2
      · rw [if_pos hq, if_pos ⟨hq.1, hq.2.2.1, hq.2.1, Ne.symm hq.2.2.2⟩]
        by_cases hlt : q1 < q2
        · have : ¬ q2 < q1 := by omega
          simp [hlt, this]
        · have : q2 < q1 := by have := hq.2.2.2; omega
          simp [hlt, this]
      · rw [if_neg hq, if_neg (fun x => hq ⟨x.1, x.2.2.1, x.2.1, Ne.symm x.2.2.2⟩)]
        exact h
  · rw [if_pos hk, if_pos (Ne.symm hk)]
    by_cases hlt : k1 < k2
    · have : ¬ k2 < k1 := not_lt.mpr (le_of_lt hlt)
      simp [hlt, this]
    · have : k2 < k1 := lt_of_le_of_ne (not_lt.mp hlt) (Ne.symm hk)
      simp [hlt, this]

theorem tokensCmp_antisymm (U : UnicodeTables) (opt : Options) (t1 t2 : List Str)
    (h : remainingCmp t2 t1 = - remainingCmp t1 t2) :
    tokensCmp U opt t2 t1 = - tokensCmp U opt t1 t2 := by
  rw [tokensCmp_eq, tokensCmp_eq, numericPhase_antisymm (numericTokens t1) (numericTokens t2),
    suffixCmp_antisymm U opt t1 t2 h]
  by_cases h0 : numericPhase (numericTokens t1) (numericTokens t2) = 0
  · simp [h0]
  · simp [h0]

theorem noLeadingZeros_tokens (U : UnicodeTables) (s : Str) (h : noLeadingZeros U s = true) :
    ∀ t ∈ splitByDotOrDash (normalized U s), canonicalToken t = true := by
  unfold noLeadingZeros at h
  rw [normalize_eq] at h
  simp only [List.all_eq_true] at h
  exact h

theorem compared_antisymm (U : UnicodeTables) (opt : Options) (a b : Str)
    (ha : noLeadingZeros U a = true) (hb : noLeadingZeros U b = true) :
    compared U b a opt = - compared U a b opt := by
  unfold compared
  by_cases h : normalized U a = normalized U b
  · rw [if_pos h, if_pos h.symm]; rfl
  · rw [if_neg h, if_neg (Ne.symm h)]
    apply tokensCmp_antisymm
    apply remainingCmp_antisymm
    intro x hx y hy _ nx ny hv
    exact absurd (numVal_inj x y (token_no_sign U a x hx) (token_no_sign U b y hy)
      (noLeadingZeros_tokens U a ha x hx) (noLeadingZeros_tokens U b hb y hy) nx ny hv) ‹x ≠ y›

/-! ## The comparison as a function of the tokens -/

theorem compared_eq_tokensCmp (U : UnicodeTables) (a b : Str) (opt : Options) :
    compared U a b opt
      = tokensCmp U opt (splitByDotOrDash (normalized U a)) (splitByDotOrDash (normalized U b)) := by
  unfold compared
  by_cases h : normalized U a = normalized U b
  · rw [if_pos h, h, tokensCmp_self]
  · rw [if_neg h]

theorem tokensCmp_le_trans (U : UnicodeTables) (opt : Options)
    (hU : ∀ c, U.ToLower (U.ToLower c) = U.ToLower c)
    (hpost : (((postOrder opt).getD []).filter (fun t => decide (t ≠ []))).length ≤ 1)
    (t1 t2 t3 : List Str) (h1 : tokensCmp U opt t1 t2 ≤ 0) (h2 : tokensCmp U opt t2 t3 ≤ 0) :
    tokensCmp U opt t1 t3 ≤ 0 := by
  have c1 : tokensCmp U opt t1 t2 = -1 ∨ tokensCmp U opt t1 t2 = 0 := by
    rcases tokensCmp_range U opt t1 t2 with h | h | h
    · exact Or.inl h
    · exact Or.inr h
    · omega
  have c2 : tokensCmp U opt t2 t3 = -1 ∨ tokensCmp U opt t2 t3 = 0 := by
    rcases tokensCmp_range U opt t2 t3 with h | h | h
    · exact Or.inl h
    · exact Or.inr h
    · omega
  rcases c1 with e1 | e1
  · rcases c2 with e2 | e2
    · have l1 := (tokensCmp_eq_neg_one U opt hU hpost t1 t2).1 e1
      have l2 := (tokensCmp_eq_neg_one U opt hU hpost t2 t3).1 e2
      rw [(tokensCmp_eq_neg_one U opt hU hpost t1 t3).2 (tokensLess_trans U opt l1 l2)]
      decide
    · rw [← tokensCmp_eq_zero U opt e2, e1]; decide
  · rw [tokensCmp_eq_zero U opt e1]; exact h2

/-! ## The strict comparator -/

theorem stringLt_iff (a b : Str) : stringLt a b = true ↔ stringsCompare a b = -1 := by
  induction a generalizing b with
  | nil => cases b <;> simp [stringLt, stringsCompare]
  | cons c cs ih =>
    cases b with
    | nil => simp [stringLt, stringsCompare]
    | cons d ds =>
      simp only [stringLt, stringsCompare]
      by_cases h1 : c < d
      · simp [h1]
      · by_cases h2 : d < c
        · simp [h1, h2]
        · simp only [h1, h2, if_false]
          exact ih ds

theorem stringLt_trans {a b c : Str} (h1 : stringLt a b = true) (h2 : stringLt b c = true) :
    stringLt a c = true :=
  (stringLt_iff a c).2 (stringsCompare_trans ((stringLt_iff a b).1 h1) ((stringLt_iff b c).1 h2))

/-- The fall-back of `CompareSemver`: when one of the two sides is not valid,
the original inputs are compared as strings. -/
theorem CompareSemver_fallback (S : SemverPackage) (a b : Str)
    (h : S.IsValid (CanonicalSemver S a) = false ∨ S.IsValid (CanonicalSemver S b) = false) :
    CompareSemver S a b < 0 ↔ stringLt a b = true := by
  unfold CompareSemver
  simp only []
  have hc : ¬ ((S.IsValid (CanonicalSemver S a) && S.IsValid (CanonicalSemver S b)) = true) := by
    rcases h with h | h <;> simp [h]
  rw [if_neg hc]
  by_cases h1 : stringLt a b = true
  · simp [h1]
  · by_cases h2 : stringLt b a = true
    · simp [h1, h2]
    · simp [h1, h2]

theorem CompareSemver_valid (S : SemverPackage) (a b : Str)
    (ha : S.IsValid (CanonicalSemver S a) = true) (hb : S.IsValid (CanonicalSemver S b) = true) :
    CompareSemver S a b = S.Compare (CanonicalSemver S a) (CanonicalSemver S b) := by
  unfold CompareSemver
  simp [ha, hb]

/-- An input that does not begin with `v` and is not valid with the `v` in
front comes back with the `v`. -/
theorem CanonicalSemver_invalid (S : SemverPackage) (c : Char) (r : Str) (hc : c ≠ 'v')
    (h : S.IsValid ('v' :: c :: r) = false) :
    CanonicalSemver S (c :: r) = 'v' :: c :: r := by
  simp [CanonicalSemver, hc, h]

/-! ## The package variable `DefaultOptions` as a state -/

/-- The tables a call uses when the variable `DefaultOptions` holds `D`: a
table of `opt` that is not nil, else the table of `D`; a nil table is read as
an empty one by every loop over it. -/
theorem CompareWithOptionsAt_eq (U : UnicodeTables) (D : Options) (a b : Str) (opt : Options) :
    CompareWithOptionsAt U D a b opt
      = CompareWithOptions U a b
          ⟨some ((if opt.PrereleaseSuffixOrder = none then D.PrereleaseSuffixOrder
              else opt.PrereleaseSuffixOrder).getD []),
           some ((if opt.PostreleaseSuffixOrder = none then D.PostreleaseSuffixOrder
              else opt.PostreleaseSuffixOrder).getD [])⟩ := by
  rfl

/-- With the variable at its declared value the call is `CompareWithOptions`. -/
theorem CompareWithOptionsAt_declared (U : UnicodeTables) (a b : Str) (opt : Options) :
    CompareWithOptionsAt U DefaultOptions a b opt = CompareWithOptions U a b opt := rfl

/-- The call returns one of `-1`, `0`, `1` whatever the variable holds. -/
theorem CompareWithOptionsAt_total (U : UnicodeTables) (D : Options) (a b : Str)
    (opt : Options) :
    ∃ r : Int, CompareWithOptionsAt U D a b opt = some r ∧ (r = -1 ∨ r = 0 ∨ r = 1) := by
  rw [CompareWithOptionsAt_eq]
  exact ⟨_, CompareWithOptions_eq U a b _, compared_range U a b _⟩

/-! ## The claims -/

/-- C1 (symmetry, `Compare(a, b) = -Compare(b, a)`): the code at the input
`a = "1.01"`, `b = "1.1"`. Both orders give `1`: the loop "Compare remaining
tokens" meets the tokens `01` and `1`, different as text and equal as numbers,
and returns `1` whichever side comes first. -/
theorem C1_symmetry_fails_at_leading_zero :
    Compare asciiTables "1.01".toList "1.1".toList = some 1 ∧
    Compare asciiTables "1.1".toList "1.01".toList = some 1 := by
  decide

/-- C2 (transitivity), refuted as stated: with the postrelease table
`["z", "a"]` the code answers `1.0.0-m < 1.0.0-z` (by the tokens `m`, `z`, the
suffix `m` having no rank) and `1.0.0-z < 1.0.0-a` (by the ranks 1 and 2), and
`1.0.0-m > 1.0.0-a` (by the tokens `m`, `a`). -/
theorem C2_not_transitive_with_two_postrelease_tokens :
    CompareWithOptions asciiTables "1.0.0-m".toList "1.0.0-z".toList
      ⟨none, some ["z".toList, "a".toList]⟩ = some (-1) ∧
    CompareWithOptions asciiTables "1.0.0-z".toList "1.0.0-a".toList
      ⟨none, some ["z".toList, "a".toList]⟩ = some (-1) ∧
    CompareWithOptions asciiTables "1.0.0-m".toList "1.0.0-a".toList
      ⟨none, some ["z".toList, "a".toList]⟩ = some 1 := by
  decide

/-- C2 (transitivity), amended: for every option value whose postrelease table
in force (the default one when the field is nil) has at most one non-empty
token, and all strings `a`, `b`, `c`: if `CompareWithOptions(a, b, opt) = -1`
and `CompareWithOptions(b, c, opt) = -1` then
`CompareWithOptions(a, c, opt) = -1`. The lower-case mapping of the tables is
taken idempotent, as the one of Unicode is. -/
theorem C2_transitive_with_one_postrelease_token (U : UnicodeTables) (opt : Options)
    (hU : ∀ c, U.ToLower (U.ToLower c) = U.ToLower c)
    (hpost : (((postOrder opt).getD []).filter (fun t => decide (t ≠ []))).length ≤ 1)
    (a b c : Str)
    (hab : CompareWithOptions U a b opt = some (-1))
    (hbc : CompareWithOptions U b c opt = some (-1)) :
    CompareWithOptions U a c opt = some (-1) := by
  rw [CompareWithOptions_eq] at hab hbc ⊢
  have h1 := (compared_eq_neg_one U opt hU hpost a b).1 (Option.some.inj hab)
  have h2 := (compared_eq_neg_one U opt hU hpost b c).1 (Option.some.inj hbc)
  exact congrArg some ((compared_eq_neg_one U opt hU hpost a c).2 (tokensLess_trans U opt h1 h2))

/-- The amended transitivity at `1.0.0-alpha`, `1.0.0`, `1.0.0-hotfix` under the
default options. -/
theorem C2_transitive_with_one_postrelease_token_witness :
    CompareWithOptions asciiTables "1.0.0-alpha".toList "1.0.0".toList ⟨none, none⟩ = some (-1) ∧
    CompareWithOptions asciiTables "1.0.0".toList "1.0.0-hotfix".toList ⟨none, none⟩ = some (-1) ∧
    CompareWithOptions asciiTables "1.0.0-alpha".toList "1.0.0-hotfix".toList ⟨none, none⟩
      = some (-1) :=
  ⟨by decide, by decide,
    C2_transitive_with_one_postrelease_token asciiTables ⟨none, none⟩ toLower_idem (by decide)
      "1.0.0-alpha".toList "1.0.0".toList "1.0.0-hotfix".toList (by decide) (by decide)⟩

/-- C3 (totality, and the result is a function of `(a, b, opt)` only), refuted
in its last clause. A call with a nil table reads the exported package
variable `DefaultOptions`. With both tables of `opt` nil and the variable at
its declared value, `1.0.0-alpha` against `1.0.0` gives `-1`; with the same
`a`, `b` and `opt` after the variable was assigned two empty tables, the
suffix `alpha` is unknown, sorts after the stable version, and the call
gives `1`. -/
theorem C3_result_depends_on_DefaultOptions :
    CompareWithOptionsAt asciiTables DefaultOptions "1.0.0-alpha".toList "1.0.0".toList
      ⟨none, none⟩ = some (-1) ∧
    CompareWithOptionsAt asciiTables ⟨some [], some []⟩ "1.0.0-alpha".toList "1.0.0".toList
      ⟨none, none⟩ = some 1 ∧
    CompareAt asciiTables DefaultOptions "1.0.0-alpha".toList "1.0.0".toList = some (-1) ∧
    CompareAt asciiTables ⟨some [], some []⟩ "1.0.0-alpha".toList "1.0.0".toList = some 1 := by
  decide

/-- C3 (totality), amended: for all strings `a`, `b`, every option value and
every value `D` of the package variable `DefaultOptions`, `CompareWithOptions`
and `Compare` return, without a failing index or slice expression, one of
`-1`, `0`, `1` (also with the variable at its declared value); and the result
is a function of `(a, b, opt)` and of the tables of the variable that stand
in for the nil tables of `opt`: two values of the variable that agree on
every table that `opt` leaves nil give the same result. -/
theorem C3_totality_for_every_DefaultOptions (U : UnicodeTables) (D : Options) (a b : Str)
    (opt : Options) :
    (∃ r : Int, CompareWithOptionsAt U D a b opt = some r ∧ (r = -1 ∨ r = 0 ∨ r = 1)) ∧
    (∃ r : Int, CompareAt U D a b = some r ∧ (r = -1 ∨ r = 0 ∨ r = 1)) ∧
    (∃ r : Int, CompareWithOptions U a b opt = some r ∧ (r = -1 ∨ r = 0 ∨ r = 1)) ∧
    (∃ r : Int, Compare U a b = some r ∧ (r = -1 ∨ r = 0 ∨ r = 1)) ∧
    (∀ D2 : Options,
      (opt.PrereleaseSuffixOrder = none →
        D2.PrereleaseSuffixOrder = D.PrereleaseSuffixOrder) →
      (opt.PostreleaseSuffixOrder = none →
        D2.PostreleaseSuffixOrder = D.PostreleaseSuffixOrder) →
      CompareWithOptionsAt U D2 a b opt = CompareWithOptionsAt U D a b opt) := by
  refine ⟨CompareWithOptionsAt_total U D a b opt, CompareWithOptionsAt_total U D a b _,
    ⟨_, CompareWithOptions_eq U a b opt, compared_range U a b opt⟩,
    ⟨_, Compare_eq U a b, compared_range U a b _⟩, ?_⟩
  · intro D2 hpre hpost
    rw [CompareWithOptionsAt_eq U D2, CompareWithOptionsAt_eq U D]
    by_cases h1 : opt.PrereleaseSuffixOrder = none
    · by_cases h2 : opt.PostreleaseSuffixOrder = none
      · rw [if_pos h1, if_pos h1, if_pos h2, if_pos h2, hpre h1, hpost h2]
      · rw [if_pos h1, if_pos h1, if_neg h2, if_neg h2, hpre h1]
    · by_cases h2 : opt.PostreleaseSuffixOrder = none
      · rw [if_neg h1, if_neg h1, if_pos h2, if_pos h2, hpost h2]
      · rw [if_neg h1, if_neg h1, if_neg h2, if_neg h2]

/-- The amended C3 at a table `x` for the prerelease suffixes and a nil
postrelease table: two values of the variable with the same postrelease table
give the same result. -/
theorem C3_totality_for_every_DefaultOptions_witness :
    CompareWithOptionsAt asciiTables ⟨some [], some ["hotfix".toList]⟩
        "1.0.0-x".toList "1.0.0".toList ⟨some ["x".toList], none⟩
      = CompareWithOptionsAt asciiTables DefaultOptions
        "1.0.0-x".toList "1.0.0".toList ⟨some ["x".toList], none⟩ :=
  (C3_totality_for_every_DefaultOptions asciiTables DefaultOptions
    "1.0.0-x".toList "1.0.0".toList ⟨some ["x".toList], none⟩).2.2.2.2
    ⟨some [], some ["hotfix".toList]⟩ (fun h => absurd h (by decide)) (fun _ => rfl)

/-- C4 (marker and product prefix): for every string `p` without a digit and
every string `d :: r` that begins with an ASCII digit, `Compare(p + s, s) = 0`;
in particular for `p = "v"`, `p = "V"` and `p = "hive."`. -/
theorem C4_prefix_invariance (U : UnicodeTables) (p : Str) (d : Char) (r : Str)
    (hp : ∀ c ∈ p, U.IsDigit c = false) (hd : d.isDigit = true) :
    Compare U (p ++ d :: r) (d :: r) = some 0 ∧
    Compare U ("v".toList ++ d :: r) (d :: r) = some 0 ∧
    Compare U ("V".toList ++ d :: r) (d :: r) = some 0 ∧
    Compare U ("hive.".toList ++ d :: r) (d :: r) = some 0 := by
  have key : ∀ q : Str, (∀ c ∈ q, U.IsDigit c = false) →
      Compare U (q ++ d :: r) (d :: r) = some 0 := fun q hq =>
    compare_of_normalized_eq U _ _ _ (normalized_prefix_digit U q d r hq hd)
  have hasc : ∀ q : Str, (∀ c ∈ q, c.toNat < 128 ∧ c.isDigit = false) →
      ∀ c ∈ q, U.IsDigit c = false := fun q hq c hc => by
    rw [U.isDigit_ascii c (hq c hc).1]; exact (hq c hc).2
  exact ⟨key p hp, key _ (hasc _ (by decide)), key _ (hasc _ (by decide)),
    key _ (hasc _ (by decide))⟩

/-- The prefix invariance at `hive.1.0.0` and `1.0.0`. -/
theorem C4_prefix_invariance_witness :
    (∀ c ∈ "hive.".toList, asciiTables.IsDigit c = false) ∧ ('1' : Char).isDigit = true ∧
    Compare asciiTables ("hive.".toList ++ '1' :: ".0.0".toList) ('1' :: ".0.0".toList) = some 0 :=
  ⟨by decide, by decide,
    (C4_prefix_invariance asciiTables "hive.".toList '1' ".0.0".toList (by decide) (by decide)).1⟩

/-- C5 (underscore is dot): for every string `s`, `Compare(s', s) = 0` where
`s'` is `s` with every `_` replaced by `.`. -/
theorem C5_underscore_is_dot (U : UnicodeTables) (s : Str) :
    Compare U (ReplaceAll s '_' '.') s = some 0 :=
  compare_of_normalized_eq U _ _ _ (normalized_underscore U s)

/-- C6 (build metadata): for every string `s = d :: r` that begins with an
ASCII digit, contains `.`, no `+` and no white space, and all strings `m1`,
`m2`: `Compare(s + "+" + m1, s) = 0` and
`Compare(s + "+" + m1, s + "+" + m2) = 0`. -/
theorem C6_build_metadata_ignored (U : UnicodeTables) (d : Char) (r m1 m2 : Str)
    (hd : d.isDigit = true) (hdot : '.' ∈ d :: r) (hplus : '+' ∉ d :: r)
    (hsp : ∀ c ∈ d :: r, U.IsSpace c = false) :
    Compare U ((d :: r) ++ '+' :: m1) (d :: r) = some 0 ∧
    Compare U ((d :: r) ++ '+' :: m1) ((d :: r) ++ '+' :: m2) = some 0 := by
  constructor
  · apply compare_of_normalized_eq
    rw [normalized_build U d r m1 hd hdot hplus, normalized_dotted U d r hd hplus hsp]
  · apply compare_of_normalized_eq
    rw [normalized_build U d r m1 hd hdot hplus, normalized_build U d r m2 hd hdot hplus]

/-- The build metadata rule at `1.0.0+build.1`, `1.0.0+build.2` and `1.0.0`. -/
theorem C6_build_metadata_ignored_witness :
    Compare asciiTables ("1.0.0".toList ++ '+' :: "build.1".toList) "1.0.0".toList = some 0 ∧
    Compare asciiTables ("1.0.0".toList ++ '+' :: "build.1".toList)
      ("1.0.0".toList ++ '+' :: "build.2".toList) = some 0 :=
  C6_build_metadata_ignored asciiTables '1' ".0.0".toList "build.1".toList "build.2".toList
    (by decide) (by decide) (by decide) (by decide)

/-- C7 (legacy `+`): for every string `s` that contains neither `.` nor `_`,
`Compare(s, s') = 0` where `s'` is `s` with every `+` replaced by `.`. -/
theorem C7_legacy_plus_is_dot (U : UnicodeTables) (s : Str) (hdot : '.' ∉ s) (hus : '_' ∉ s) :
    Compare U s (ReplaceAll s '+' '.') = some 0 :=
  compare_of_normalized_eq U _ _ _ (normalized_plus U s hdot hus)

/-- The legacy separator rule at `1+0+0`. -/
theorem C7_legacy_plus_is_dot_witness :
    Compare asciiTables "1+0+0".toList (ReplaceAll "1+0+0".toList '+' '.') = some 0 ∧
    ReplaceAll "1+0+0".toList '+' '.' = "1.0.0".toList :=
  ⟨C7_legacy_plus_is_dot asciiTables "1+0+0".toList (by decide) (by decide), by decide⟩

/-- C8 (the numeric core decides first): for non-empty lists `xs ≠ ys` of
natural numbers within the `int` range, written as decimal numerals joined by
`.`, and suffixes `sa`, `sb` that are empty or `-` and a non-empty word of
ASCII letters, `Compare(xs + sa, ys + sb)` is the lexicographic comparison of
`xs` with `ys`, a proper prefix being smaller; it is `-1` or `1`. -/
theorem C8_numeric_core_decides (U : UnicodeTables) (xs ys : List Nat) (sa sb : Str)
    (hxs : xs ≠ []) (hys : ys ≠ [])
    (hbx : ∀ x ∈ xs, (x : Int) ≤ maxInt) (hby : ∀ y ∈ ys, (y : Int) ≤ maxInt)
    (hne : xs ≠ ys) (hsa : IsWordSuffix sa) (hsb : IsWordSuffix sb) :
    Compare U (core xs ++ sa) (core ys ++ sb) = some (lexCompare xs ys) ∧
    (lexCompare xs ys = -1 ∨ lexCompare xs ys = 1) := by
  constructor
  · rw [Compare_eq, compared_core_of_ne U _ xs ys sa sb hxs hys hbx hby hne hsa.toTag hsb.toTag]
  · rcases lexCompare_range xs ys with h | h | h
    · exact Or.inl h
    · exact absurd ((lexCompare_eq_zero xs ys).1 h) hne
    · exact Or.inr h

/-- The numeric core rule at `1.0.1-alpha` and `1.0.0-hotfix`. -/
theorem C8_numeric_core_decides_witness :
    Compare asciiTables (core [1, 0, 1] ++ "-alpha".toList) (core [1, 0, 0] ++ "-hotfix".toList)
      = some (lexCompare [1, 0, 1] [1, 0, 0]) ∧
    lexCompare [1, 0, 1] [1, 0, 0] = 1 ∧
    core [1, 0, 1] ++ "-alpha".toList = "1.0.1-alpha".toList ∧
    core [1, 0, 0] ++ "-hotfix".toList = "1.0.0-hotfix".toList :=
  ⟨(C8_numeric_core_decides asciiTables [1, 0, 1] [1, 0, 0] "-alpha".toList "-hotfix".toList
      (by decide) (by decide) (by decide) (by decide) (by decide)
      (Or.inr ⟨"alpha".toList, by decide, by decide, rfl⟩)
      (Or.inr ⟨"hotfix".toList, by decide, by decide, rfl⟩)).1,
    by decide, by decide, by decide⟩

/-- C9 (default suffix ordering): for every numeric core `x`, the versions
`x-alpha`, `x-beta`, `x-rc`, `x`, `x-hotfix`, `x-hotfix2` are strictly
increasing: for every two of them, `Compare(earlier, later) = -1` and
`Compare(later, earlier) = 1`. -/
theorem C9_default_suffix_order (U : UnicodeTables) (xs : List Nat) (hxs : xs ≠ [])
    (hbx : ∀ x ∈ xs, (x : Int) ≤ maxInt) :
    (sixVersions xs).Pairwise
      (fun a b => Compare U a b = some (-1) ∧ Compare U b a = some 1) := by
  unfold sixVersions
  rw [List.pairwise_map]
  refine sixSuffixes_pairwise.imp ?_
  intro sa sb h
  simp only [suffixPairOk, Bool.and_eq_true, decide_eq_true_eq] at h
  obtain ⟨⟨⟨⟨h1, h2⟩, h3⟩, h4⟩, h5⟩ := h
  have t1 := IsTagSuffix_of_test h1
  have t2 := IsTagSuffix_of_test h2
  rw [Compare_same_core U xs sa sb hxs hbx t1 t2 h3,
    Compare_same_core U xs sb sa hxs hbx t2 t1 (Ne.symm h3), h4, h5]
  exact ⟨rfl, rfl⟩

/-- The default suffix order for the numeric core `1.0.0`. -/
theorem C9_default_suffix_order_witness :
    (sixVersions [1, 0, 0]).Pairwise
      (fun a b => Compare asciiTables a b = some (-1) ∧ Compare asciiTables b a = some 1) ∧
    sixVersions [1, 0, 0] = ["1.0.0-alpha".toList, "1.0.0-beta".toList, "1.0.0-rc".toList,
      "1.0.0".toList, "1.0.0-hotfix".toList, "1.0.0-hotfix2".toList] :=
  ⟨C9_default_suffix_order asciiTables [1, 0, 0] (by decide) (by decide), by decide⟩

/-- C10 (a suffix sorts after the stable release unless it is a prerelease):
for every numeric core `x` and every non-empty word `w` of ASCII letters,
`Compare(x + "-" + w, x)` is `-1` if the lower-cased `w` contains one of
`alpha`, `beta`, `rc` and does not contain `hotfix`, and `1` otherwise. -/
theorem C10_suffix_kind_against_stable (U : UnicodeTables) (xs : List Nat) (w : Str)
    (hxs : xs ≠ []) (hbx : ∀ x ∈ xs, (x : Int) ≤ maxInt)
    (hne : w ≠ []) (hw : ∀ c ∈ w, c.isAlpha = true) :
    Compare U (core xs ++ '-' :: w) (core xs) =
      some (if (Contains (w.map Char.toLower) "alpha".toList = true
              ∨ Contains (w.map Char.toLower) "beta".toList = true
              ∨ Contains (w.map Char.toLower) "rc".toList = true)
            ∧ ¬ Contains (w.map Char.toLower) "hotfix".toList = true
          then -1 else 1) := by
  cases w with
  | nil => exact absurd rfl hne
  | cons c cs =>
    have hc : c.isAlpha = true := hw c (by simp)
    have hcs : ∀ e ∈ cs, e.isAlpha = true := fun e he => hw e (List.mem_cons_of_mem _ he)
    have hcs' : ∀ e ∈ cs, e.isAlphanum = true := fun e he => isAlphanum_of_isAlpha (hcs e he)
    have t1 : IsTagSuffix ('-' :: c :: cs) := Or.inr ⟨c, cs, hc, hcs', rfl⟩
    have t2 : IsTagSuffix [] := Or.inl rfl
    have e := compared_same_core U ⟨none, none⟩ xs ('-' :: c :: cs) [] hxs hbx t1 t2 (by simp)
    rw [List.append_nil] at e
    rw [Compare_eq, e, split_tag c cs hc hcs']
    exact congrArg some (suffixCmp_word_nil U c cs hc hcs)

/-- The suffix rule at `1.0.0-foo` and `1.0.0-Alpha`. -/
theorem C10_suffix_kind_against_stable_witness :
    Compare asciiTables (core [1, 0, 0] ++ '-' :: "foo".toList) (core [1, 0, 0]) = some 1 ∧
    Compare asciiTables (core [1, 0, 0] ++ '-' :: "Alpha".toList) (core [1, 0, 0]) = some (-1) :=
  ⟨C10_suffix_kind_against_stable asciiTables [1, 0, 0] "foo".toList
      (by decide) (by decide) (by decide) (by decide),
   C10_suffix_kind_against_stable asciiTables [1, 0, 0] "Alpha".toList
      (by decide) (by decide) (by decide) (by decide)⟩

/-- C11 (a caller-supplied table orders its own tokens), refuted as stated.
With the prerelease table `["b", "ab"]` the suffix `ab` contains the earlier
token `b`, both suffixes get rank 1 and the tokens decide: `1.0.0-b` is
greater than `1.0.0-ab`. With the prerelease table `["hotfixb", "hotfixa"]`
both suffixes match the default postrelease token `hotfix`, and the tokens
decide again. -/
theorem C11_table_order_fails_on_contained_tokens :
    CompareWithOptions asciiTables "1.0.0-b".toList "1.0.0-ab".toList
      ⟨some ["b".toList, "ab".toList], none⟩ = some 1 ∧
    CompareWithOptions asciiTables "1.0.0-hotfixb".toList "1.0.0-hotfixa".toList
      ⟨some ["hotfixb".toList, "hotfixa".toList], none⟩ = some 1 := by
  decide

/-- C11, amended: let one table of `opt` be a list `T` of non-empty tokens made
of lower-case ASCII letters and digits and beginning with a letter, none of
which contains an earlier token of `T`, and none of which contains `hotfix`
when `T` is the prerelease table; let the other table be nil. Then for every
numeric core `x` and all indices `i < j`,
`CompareWithOptions(x-T[i], x-T[j], opt) = -1`. -/
theorem C11_table_order (U : UnicodeTables) (T : List Str) (opt : Options) (xs : List Nat)
    (hxs : xs ≠ []) (hbx : ∀ x ∈ xs, (x : Int) ≤ maxInt)
    (hT : ∀ t ∈ T, isTableToken t = true)
    (hsub : T.Pairwise (fun earlier later => Contains later earlier = false))
    (hopt : (opt = ⟨some T, none⟩ ∧ ∀ t ∈ T, Contains t "hotfix".toList = false)
      ∨ opt = ⟨none, some T⟩)
    (i j : Nat) (s t : Str) (hij : i < j) (hi : T[i]? = some s) (hj : T[j]? = some t) :
    CompareWithOptions U (core xs ++ '-' :: s) (core xs ++ '-' :: t) opt = some (-1) := by
  have hs : isTableToken s = true := hT s (List.getElem?_mem hi)
  have ht : isTableToken t = true := hT t (List.getElem?_mem hj)
  have hne : ∀ u ∈ T, u ≠ [] := by
    intro u hu e
    have := hT u hu
    rw [e] at this
    exact absurd this (by decide)
  have r1 : rankLoop s T 0 = (i : Int) + 1 := by
    rw [rankLoop_at T 0 i s hne hsub hi]; simp
  have r2 : rankLoop t T 0 = (j : Int) + 1 := by
    rw [rankLoop_at T 0 j t hne hsub hj]; simp
  have hst : s ≠ t := by
    intro e
    rw [e, r2] at r1
    omega
  rw [CompareWithOptions_eq, compared_same_core U opt xs _ _ hxs hbx (isTableToken_tag hs)
    (isTableToken_tag ht) (fun e => hst (List.cons.inj e).2),
    split_tableToken hs, split_tableToken ht]
  rcases hopt with ⟨rfl, hh⟩ | rfl
  · obtain ⟨k1, p1⟩ := tableToken_prerelease U T s i hs r1 (hh s (List.getElem?_mem hi))
    obtain ⟨k2, p2⟩ := tableToken_prerelease U T t j ht r2 (hh t (List.getElem?_mem hj))
    rw [suffixCmp_by_prerelease_rank U _ _ _ k1 k2 (by rw [p1]; omega) (by rw [p1, p2]; omega)]
  · obtain ⟨k1, p1⟩ := tableToken_postrelease U T s i hs r1
    obtain ⟨k2, p2⟩ := tableToken_postrelease U T t j ht r2
    rw [suffixCmp_by_postrelease_rank U _ _ _ k1 k2 (by rw [p1]; omega) (by rw [p1, p2]; omega)]

/-- The rule for the prerelease table `rc`, `beta`, `alpha` at `1.0.0-rc` and
`1.0.0-alpha`, and for the postrelease table `p1`, `p2`. -/
theorem C11_table_order_witness :
    CompareWithOptions asciiTables (core [1, 0, 0] ++ '-' :: "rc".toList)
      (core [1, 0, 0] ++ '-' :: "alpha".toList)
      ⟨some ["rc".toList, "beta".toList, "alpha".toList], none⟩ = some (-1) ∧
    CompareWithOptions asciiTables (core [1, 0, 0] ++ '-' :: "p1".toList)
      (core [1, 0, 0] ++ '-' :: "p2".toList)
      ⟨none, some ["p1".toList, "p2".toList]⟩ = some (-1) :=
  ⟨C11_table_order asciiTables ["rc".toList, "beta".toList, "alpha".toList] _ [1, 0, 0]
      (by decide) (by decide) (by decide) (by decide) (Or.inl ⟨rfl, by decide⟩)
      0 2 "rc".toList "alpha".toList (by decide) rfl rfl,
   C11_table_order asciiTables ["p1".toList, "p2".toList] _ [1, 0, 0]
      (by decide) (by decide) (by decide) (by decide) (Or.inr rfl)
      0 1 "p1".toList "p2".toList (by decide) rfl rfl⟩

/-- C12 (an empty table falls back to the default), refuted as stated: with the
two tables empty and not nil, `1.0.0-alpha` is greater than `1.0.0`, whereas
`Compare` finds it smaller. -/
theorem C12_empty_table_is_not_the_default :
    CompareWithOptions asciiTables "1.0.0-alpha".toList "1.0.0".toList ⟨some [], some []⟩
      = some 1 ∧
    Compare asciiTables "1.0.0-alpha".toList "1.0.0".toList = some (-1) := by
  decide

/-- C12, amended: for every option value in which each of the two tables is
absent (nil), and all strings `a`, `b`, `CompareWithOptions(a, b, opt)` is
`Compare(a, b)`, and is `CompareWithOptions(a, b, DefaultOptions)`: a nil table
is replaced by the default table. -/
theorem C12_nil_tables_fall_back (U : UnicodeTables) (a b : Str) (opt : Options)
    (hpre : opt.PrereleaseSuffixOrder = none) (hpost : opt.PostreleaseSuffixOrder = none) :
    CompareWithOptions U a b opt = Compare U a b ∧
    CompareWithOptions U a b opt = CompareWithOptions U a b DefaultOptions := by
  obtain ⟨p, q⟩ := opt
  simp only [] at hpre hpost
  subst hpre hpost
  exact ⟨rfl, rfl⟩

/-- The fall-back at `1.0.0-alpha` and `1.0.0`. -/
theorem C12_nil_tables_fall_back_witness :
    CompareWithOptions asciiTables "1.0.0-alpha".toList "1.0.0".toList ⟨none, none⟩
      = Compare asciiTables "1.0.0-alpha".toList "1.0.0".toList ∧
    CompareWithOptions asciiTables "1.0.0-alpha".toList "1.0.0".toList ⟨none, none⟩
      = CompareWithOptions asciiTables "1.0.0-alpha".toList "1.0.0".toList DefaultOptions ∧
    CompareWithOptions asciiTables "1.0.0-alpha".toList "1.0.0".toList DefaultOptions
      = some (-1) :=
  ⟨(C12_nil_tables_fall_back asciiTables "1.0.0-alpha".toList "1.0.0".toList ⟨none, none⟩
      rfl rfl).1,
   (C12_nil_tables_fall_back asciiTables "1.0.0-alpha".toList "1.0.0".toList ⟨none, none⟩
      rfl rfl).2, by decide⟩

/-- C18 (one marker only), refuted as stated for `c1 = v`, `c2 = V`: the two
calls of `TrimPrefix` remove both characters, the normalized form of `vVabc`
is `abc` and `Compare("vVabc", "abc") = 0`. -/
theorem C18_two_markers_removed :
    normalize asciiTables "vVabc".toList = some "abc".toList ∧
    Compare asciiTables "vVabc".toList "abc".toList = some 0 := by
  decide

/-- C18, amended: for every string `s` of ASCII letters and all `c1`, `c2` in
`v`, `V`, the normalized form of `c1 + c2 + s` is `c2 + s`, except for
`c1 = v` and `c2 = V`, where it is `s`; outside that case, when `s` is not
empty and begins with neither `v` nor `V`, `Compare(c1 + c2 + s, s)` is not
`0`. -/
theorem C18_one_marker_removed (U : UnicodeTables) (s : Str) (c1 c2 : Char)
    (hs : ∀ c ∈ s, c.isAlpha = true) (h1 : c1 = 'v' ∨ c1 = 'V') (h2 : c2 = 'v' ∨ c2 = 'V') :
    normalize U (c1 :: c2 :: s) = some (if c1 = 'v' ∧ c2 = 'V' then s else c2 :: s) ∧
    (¬ (c1 = 'v' ∧ c2 = 'V') → s ≠ [] → s.head? ≠ some 'v' → s.head? ≠ some 'V' →
      Compare U (c1 :: c2 :: s) s ≠ some 0) := by
  have hall : ∀ c ∈ c1 :: c2 :: s, c.isAlpha = true := by
    intro c hc
    simp only [List.mem_cons] at hc
    rcases hc with h | h | h
    · rcases h1 with e | e <;> rw [h, e] <;> decide
    · rcases h2 with e | e <;> rw [h, e] <;> decide
    · exact hs c h
  have hn : normalized U (c1 :: c2 :: s) = if c1 = 'v' ∧ c2 = 'V' then s else c2 :: s := by
    rw [normalized_letters U _ hall]
    rcases h1 with e1 | e1 <;> rcases h2 with e2 | e2 <;> subst e1 <;> subst e2 <;>
      simp [TrimPrefix, HasPrefix]
  refine ⟨by rw [normalize_eq, hn], ?_⟩
  intro hne hs0 hv hV
  rw [Compare_eq]
  intro h0
  have h0' := (compared_eq_zero U _ _ _).1 (Option.some.inj h0)
  have hns : normalized U s = s := by
    rw [normalized_letters U _ hs]
    cases s with
    | nil => exact absurd rfl hs0
    | cons c cs =>
      have e1 : c ≠ 'v' := fun e => hv (by rw [e]; rfl)
      have e2 : c ≠ 'V' := fun e => hV (by rw [e]; rfl)
      rw [TrimPrefix_cons_ne c 'v' cs e1, TrimPrefix_cons_ne c 'V' cs e2]
  rw [hn, hns, if_neg hne, split_letters s hs,
    split_letters (c2 :: s) (fun c hc => hall c (List.mem_cons_of_mem _ hc))] at h0'
  have := congrArg (fun l => (l.map List.length).sum) h0'
  simp at this

/-- The rule at `vvabc`, `Vvabc`, `VVabc` (one marker removed) and `vVabc`
(both removed). -/
theorem C18_one_marker_removed_witness :
    normalize asciiTables ('v' :: 'v' :: "abc".toList) = some ('v' :: "abc".toList) ∧
    normalize asciiTables ('V' :: 'v' :: "abc".toList) = some ('v' :: "abc".toList) ∧
    normalize asciiTables ('V' :: 'V' :: "abc".toList) = some ('V' :: "abc".toList) ∧
    normalize asciiTables ('v' :: 'V' :: "abc".toList) = some "abc".toList ∧
    Compare asciiTables ('v' :: 'v' :: "abc".toList) "abc".toList ≠ some 0 :=
  ⟨(C18_one_marker_removed asciiTables "abc".toList 'v' 'v' (by decide) (by decide)
      (by decide)).1,
   (C18_one_marker_removed asciiTables "abc".toList 'V' 'v' (by decide) (by decide)
      (by decide)).1,
   (C18_one_marker_removed asciiTables "abc".toList 'V' 'V' (by decide) (by decide)
      (by decide)).1,
   (C18_one_marker_removed asciiTables "abc".toList 'v' 'V' (by decide) (by decide)
      (by decide)).1,
   (C18_one_marker_removed asciiTables "abc".toList 'v' 'v' (by decide) (by decide)
      (by decide)).2 (by decide) (by decide) (by decide) (by decide)⟩

/-- C19 (equality is token-sequence equality): for all strings `a`, `b` and
every option value, `CompareWithOptions(a, b, opt) = 0` if and only if the
normalized `a` and the normalized `b` split on `.` and `-` into the same list
of tokens; `Compare(a, a) = 0`, `Compare("1-0-0", "1.0.0") = 0` and
`Compare("1.01", "1.1")` is not `0`. -/
theorem C19_equality_is_token_equality (U : UnicodeTables) (a b : Str) (opt : Options) :
    (CompareWithOptions U a b opt = some 0 ↔
      (normalize U a).map splitByDotOrDash = (normalize U b).map splitByDotOrDash) ∧
    Compare U a a = some 0 ∧
    Compare U "1-0-0".toList "1.0.0".toList = some 0 ∧
    Compare U "1.01".toList "1.1".toList ≠ some 0 := by
  refine ⟨?_, ?_, ?_, ?_⟩
  · rw [CompareWithOptions_eq, normalize_eq, normalize_eq]
    simp only [Option.map_some', Option.some.injEq]
    exact compared_eq_zero U a b opt
  · exact compare_of_normalized_eq U a a _ rfl
  · rw [Compare_eq]
    refine congrArg some ((compared_eq_zero U _ _ _).2 ?_)
    rw [normalized_version U "1-0-0".toList '1' "-0-0".toList rfl (by decide) (by decide),
      normalized_version U "1.0.0".toList '1' ".0.0".toList rfl (by decide) (by decide)]
    decide
  · rw [Compare_eq]
    intro h
    have h' := (compared_eq_zero U _ _ _).1 (Option.some.inj h)
    rw [normalized_version U "1.01".toList '1' ".01".toList rfl (by decide) (by decide),
      normalized_version U "1.1".toList '1' ".1".toList rfl (by decide) (by decide)] at h'
    revert h'
    decide

/-- C13 (case-insensitive classification), refuted as stated: with the
prerelease table `["RC"]` neither `1.0.0-RC` nor `1.0.0-rc` is a prerelease.
The suffix is lower-cased, the token of the table is not, and a token with an
upper-case letter matches no suffix. -/
theorem C13_upper_case_token_never_matches :
    CompareWithOptions asciiTables "1.0.0-RC".toList "1.0.0".toList
      ⟨some ["RC".toList], none⟩ = some 1 ∧
    CompareWithOptions asciiTables "1.0.0-rc".toList "1.0.0".toList
      ⟨some ["RC".toList], none⟩ = some 1 := by
  decide

/-- C13, amended: the classification ignores the letter case of the suffix,
and the tokens of the table are taken as written. For every non-empty word
`w` of ASCII letters whose lower-cased form `T` does not contain `hotfix`,
with the prerelease table `[T]` and the postrelease table nil, and every
numeric core `x`, `CompareWithOptions(x-w, x, opt) = -1`. -/
theorem C13_suffix_case_is_ignored (U : UnicodeTables) (xs : List Nat) (w : Str)
    (hxs : xs ≠ []) (hbx : ∀ x ∈ xs, (x : Int) ≤ maxInt)
    (hne : w ≠ []) (hw : ∀ c ∈ w, c.isAlpha = true)
    (hh : Contains (w.map Char.toLower) "hotfix".toList = false) :
    CompareWithOptions U (core xs ++ '-' :: w) (core xs)
      ⟨some [w.map Char.toLower], none⟩ = some (-1) := by
  cases w with
  | nil => exact absurd rfl hne
  | cons c cs =>
    have hc : c.isAlpha = true := hw c (by simp)
    have hcs : ∀ e ∈ cs, e.isAlpha = true := fun e he => hw e (List.mem_cons_of_mem _ he)
    have hcs' : ∀ e ∈ cs, e.isAlphanum = true := fun e he => isAlphanum_of_isAlpha (hcs e he)
    have t1 : IsTagSuffix ('-' :: c :: cs) := Or.inr ⟨c, cs, hc, hcs', rfl⟩
    have t2 : IsTagSuffix [] := Or.inl rfl
    have e := compared_same_core U ⟨some [(c :: cs).map Char.toLower], none⟩ xs
      ('-' :: c :: cs) [] hxs hbx t1 t2 (by simp)
    rw [List.append_nil] at e
    rw [CompareWithOptions_eq, e, split_tag c cs hc hcs']
    have hasc : ∀ e ∈ cs, e.toNat < 128 := fun e he => by
      have := isAlpha_toNat (hcs e he); omega
    have hk : suffixKindOf U (preOrder ⟨some [(c :: cs).map Char.toLower], none⟩)
        (postOrder ⟨some [(c :: cs).map Char.toLower], none⟩) (c :: cs)
        = suffixPrerelease := by
      have e1 : (postOrder ⟨some [(c :: cs).map Char.toLower], none⟩).getD []
          = ["hotfix".toList] := rfl
      have e2 : (preOrder ⟨some [(c :: cs).map Char.toLower], none⟩).getD []
          = [(c :: cs).map Char.toLower] := rfl
      rw [suffixKindOf_ascii U _ _ c cs hc hasc, e1, e2, rankLoop_hotfix, hh]
      simp [rankLoop, Contains_self, suffixPrerelease]
    have s1 : Join (suffixTokens [c :: cs]) ['-'] = c :: cs := suffixTokens_tag c cs hc
    have s2 : Join (suffixTokens ([] : List Str)) ['-'] = [] := rfl
    unfold suffixCmp
    simp only [s1, s2, suffixKindOf_nil, hk]
    rfl

/-- The rule for the table `["rc"]` at `1.0.0-RC`, `1.0.0-Rc` and `1.0.0-rc`. -/
theorem C13_suffix_case_is_ignored_witness :
    CompareWithOptions asciiTables (core [1, 0, 0] ++ '-' :: "RC".toList) (core [1, 0, 0])
      ⟨some ["RC".toList.map Char.toLower], none⟩ = some (-1) ∧
    CompareWithOptions asciiTables (core [1, 0, 0] ++ '-' :: "Rc".toList) (core [1, 0, 0])
      ⟨some ["Rc".toList.map Char.toLower], none⟩ = some (-1) ∧
    "RC".toList.map Char.toLower = "rc".toList ∧ "Rc".toList.map Char.toLower = "rc".toList :=
  ⟨C13_suffix_case_is_ignored asciiTables [1, 0, 0] "RC".toList (by decide) (by decide)
      (by decide) (by decide) (by decide),
   C13_suffix_case_is_ignored asciiTables [1, 0, 0] "Rc".toList (by decide) (by decide)
      (by decide) (by decide) (by decide), by decide, by decide⟩

/-- C14 (`CanonicalSemver` returns invalid SemVer as-is), refuted as stated:
at the input `abc`, which with the `v` in front is not valid SemVer, what
comes back is `vabc`, the input with the `v` in front, not the input. -/
theorem C14_invalid_input_comes_back_with_marker :
    modSemver.IsValid "vabc".toList = false ∧
    CanonicalSemver modSemver "abc".toList = "vabc".toList ∧
    CanonicalSemver modSemver "abc".toList ≠ "abc".toList ∧
    CanonicalSemver modSemver [] = "v0.0.0".toList := by
  decide

/-- C14, amended: for every non-empty input `s` such that `s` with a leading
`v` ensured is not a valid SemVer string, `CanonicalSemver(s)` is `s` with the
leading `v` ensured, whatever the SemVer package answers elsewhere; it is `s`
itself exactly when `s` begins with `v`; and `CanonicalSemver("")` is
`v0.0.0`. -/
theorem C14_invalid_input_keeps_the_marker (S : SemverPackage) (s : Str) (hne : s ≠ [])
    (hinv : S.IsValid (if s.head? = some 'v' then s else 'v' :: s) = false) :
    CanonicalSemver S s = (if s.head? = some 'v' then s else 'v' :: s) ∧
    (CanonicalSemver S s = s ↔ s.head? = some 'v') ∧
    CanonicalSemver S [] = "v0.0.0".toList := by
  cases s with
  | nil => exact absurd rfl hne
  | cons c r =>
    have key : CanonicalSemver S (c :: r)
        = (if (c :: r).head? = some 'v' then c :: r else 'v' :: c :: r) := by
      by_cases hc : c = 'v'
      · subst hc
        simp only [List.head?_cons, if_true] at hinv ⊢
        simp [CanonicalSemver, hinv]
      · have hh : ¬ ((c :: r).head? = some 'v') := by simpa using hc
        rw [if_neg hh] at hinv ⊢
        exact CanonicalSemver_invalid S c r hc hinv
    refine ⟨key, ?_, rfl⟩
    rw [key]
    by_cases hh : (c :: r).head? = some 'v'
    · rw [if_pos hh]; exact ⟨fun _ => hh, fun _ => rfl⟩
    · rw [if_neg hh]
      constructor
      · intro h
        have := congrArg List.length h
        simp at this
      · intro h; exact absurd h hh

/-- The amended C14 at the input `abc`, and at the input `vabc`, which comes
back as it is. -/
theorem C14_invalid_input_keeps_the_marker_witness :
    CanonicalSemver modSemver "abc".toList = "vabc".toList ∧
    CanonicalSemver modSemver "vabc".toList = "vabc".toList :=
  ⟨(C14_invalid_input_keeps_the_marker modSemver "abc".toList (by decide) (by decide)).1,
   by decide⟩

/-- C15 (`CompareSemver` is transitive, fall-back included), refuted as stated:
`10.0.0 < 1x` and `1x < 2.0.0` by the byte-wise comparison, `1x` not being
valid SemVer, and `10.0.0 > 2.0.0` by SemVer precedence. -/
theorem C15_not_transitive_across_the_fallback :
    CompareSemver modSemver "10.0.0".toList "1x".toList = -1 ∧
    CompareSemver modSemver "1x".toList "2.0.0".toList = -1 ∧
    CompareSemver modSemver "10.0.0".toList "2.0.0".toList = 1 := by
  decide

/-- C15, amended: for all strings `a`, `b`, `c` that are compared by one rule,
that is, all three valid SemVer after `CanonicalSemver`, or at most one of
them: if `CompareSemver(a, b) < 0` and `CompareSemver(b, c) < 0` then
`CompareSemver(a, c) < 0`. In the first case `semver.Compare`, which is
outside the repository, is taken transitive on the three canonical forms. -/
theorem C15_transitive_under_one_rule (S : SemverPackage) (a b c : Str)
    (hrule :
      (S.IsValid (CanonicalSemver S a) = true ∧ S.IsValid (CanonicalSemver S b) = true ∧
        S.IsValid (CanonicalSemver S c) = true) ∨
      (S.IsValid (CanonicalSemver S a) = false ∧ S.IsValid (CanonicalSemver S b) = false) ∨
      (S.IsValid (CanonicalSemver S a) = false ∧ S.IsValid (CanonicalSemver S c) = false) ∨
      (S.IsValid (CanonicalSemver S b) = false ∧ S.IsValid (CanonicalSemver S c) = false))
    (hlib : S.IsValid (CanonicalSemver S a) = true → S.IsValid (CanonicalSemver S b) = true →
      S.IsValid (CanonicalSemver S c) = true →
      S.Compare (CanonicalSemver S a) (CanonicalSemver S b) < 0 →
      S.Compare (CanonicalSemver S b) (CanonicalSemver S c) < 0 →
      S.Compare (CanonicalSemver S a) (CanonicalSemver S c) < 0)
    (hab : CompareSemver S a b < 0) (hbc : CompareSemver S b c < 0) :
    CompareSemver S a c < 0 := by
  rcases hrule with ⟨va, vb, vc⟩ | ⟨va, vb⟩ | ⟨va, vc⟩ | ⟨vb, vc⟩
  · rw [CompareSemver_valid S _ _ va vb] at hab
    rw [CompareSemver_valid S _ _ vb vc] at hbc
    rw [CompareSemver_valid S _ _ va vc]
    exact hlib va vb vc hab hbc
  · rw [CompareSemver_fallback S a b (Or.inl va)] at hab
    rw [CompareSemver_fallback S b c (Or.inl vb)] at hbc
    rw [CompareSemver_fallback S a c (Or.inl va)]
    exact stringLt_trans hab hbc
  · rw [CompareSemver_fallback S a b (Or.inl va)] at hab
    rw [CompareSemver_fallback S b c (Or.inr vc)] at hbc
    rw [CompareSemver_fallback S a c (Or.inl va)]
    exact stringLt_trans hab hbc
  · rw [CompareSemver_fallback S a b (Or.inr vb)] at hab
    rw [CompareSemver_fallback S b c (Or.inl vb)] at hbc
    rw [CompareSemver_fallback S a c (Or.inr vc)]
    exact stringLt_trans hab hbc

/-- The amended transitivity at `1x`, `2.0.0`, `2y` (one valid version) and at
`1.0.0`, `1.1.0`, `2.0.0` (three valid versions). -/
theorem C15_transitive_under_one_rule_witness :
    CompareSemver modSemver "1x".toList "2y".toList < 0 ∧
    CompareSemver modSemver "1.0.0".toList "2.0.0".toList < 0 :=
  ⟨C15_transitive_under_one_rule modSemver "1x".toList "2.0.0".toList "2y".toList
      (Or.inr (Or.inr (Or.inl ⟨by decide, by decide⟩)))
      (fun h => absurd h (by decide)) (by decide) (by decide),
   C15_transitive_under_one_rule modSemver "1.0.0".toList "1.1.0".toList "2.0.0".toList
      (Or.inl ⟨by decide, by decide, by decide⟩)
      (fun _ _ _ _ _ => by decide) (by decide) (by decide)⟩

/-- C16 (numbers after a suffix word): for every numeric core `x`, every
non-empty word `w` of ASCII letters and all natural numbers `n < m` within the
`int` range, written without redundant leading zeros,
`Compare(x-w.n, x-w.m) = -1` and `Compare(x-w, x-w.n) = -1`. -/
theorem C16_numbers_after_word (U : UnicodeTables) (xs : List Nat) (w : Str) (n m : Nat)
    (hxs : xs ≠ []) (hbx : ∀ x ∈ xs, (x : Int) ≤ maxInt)
    (hne : w ≠ []) (hw : ∀ c ∈ w, c.isAlpha = true)
    (hnm : n < m) (hm : (m : Int) ≤ maxInt) :
    Compare U (core xs ++ ('-' :: (w ++ '.' :: numeral n)))
      (core xs ++ ('-' :: (w ++ '.' :: numeral m))) = some (-1) ∧
    Compare U (core xs ++ ('-' :: w)) (core xs ++ ('-' :: (w ++ '.' :: numeral n)))
      = some (-1) := by
  cases w with
  | nil => exact absurd rfl hne
  | cons c cs =>
    have hc : c.isAlpha = true := hw c (by simp)
    have hcs : ∀ e ∈ cs, e.isAlpha = true := fun e he => hw e (List.mem_cons_of_mem _ he)
    have hsep : ∀ e ∈ c :: cs, e ≠ '.' ∧ e ≠ '-' := fun e he => letter_not_sep (hw e he)
    have t0 : IsSuffixText ('-' :: c :: cs) :=
      Or.inr ⟨c, cs, hc, fun e he => Or.inr (Or.inl (hcs e he)), rfl⟩
    have t1 : ∀ k : Nat, IsSuffixText ('-' :: (c :: cs ++ '.' :: numeral k)) := by
      intro k
      refine Or.inr ⟨c, cs ++ '.' :: numeral k, hc, ?_, rfl⟩
      intro e he
      rcases List.mem_append.1 he with h | h
      · exact Or.inr (Or.inl (hcs e h))
      · rcases List.mem_cons.1 h with h | h
        · exact Or.inr (Or.inr (Or.inl h))
        · exact Or.inl ((numeral_spec k).2.1 e h)
    have sp0 : (splitByDotOrDash ('-' :: c :: cs)).tail = [c :: cs] := by
      rw [split_cons_sep '-' _ (Or.inr rfl), List.tail_cons, split_noSep _ hsep]
    have sp1 : ∀ k : Nat, (splitByDotOrDash ('-' :: (c :: cs ++ '.' :: numeral k))).tail
        = [c :: cs, numeral k] := by
      intro k
      rw [split_cons_sep '-' _ (Or.inr rfl), List.tail_cons,
        split_append_sep (c :: cs) '.' _ hsep (Or.inl rfl),
        split_noSep _ (fun e he => digit_not_sep ((numeral_spec k).2.1 e he))]
    have hnum : numeral n ≠ numeral m := fun e => by
      have := numeral_injective e; omega
    have key := suffixCmp_word_number U c cs n m hc hcs hnm hm
    constructor
    · rw [Compare_eq, compared_same_core_text U _ xs _ _ hxs hbx (t1 n) (t1 m)
        (fun e => hnum (List.cons.inj (List.append_cancel_left (List.cons.inj e).2)).2),
        sp1, sp1, key.1]
    · rw [Compare_eq, compared_same_core_text U _ xs _ _ hxs hbx t0 (t1 n)
        (fun e => by
          have := congrArg List.length e
          simp at this),
        sp0, sp1, key.2]

/-- The rule at `1.0.0-rc.9`, `1.0.0-rc.10` and `1.0.0-rc`. -/
theorem C16_numbers_after_word_witness :
    Compare asciiTables (core [1, 0, 0] ++ ('-' :: ("rc".toList ++ '.' :: numeral 9)))
      (core [1, 0, 0] ++ ('-' :: ("rc".toList ++ '.' :: numeral 10))) = some (-1) ∧
    Compare asciiTables (core [1, 0, 0] ++ ('-' :: "rc".toList))
      (core [1, 0, 0] ++ ('-' :: ("rc".toList ++ '.' :: numeral 9))) = some (-1) ∧
    core [1, 0, 0] ++ ('-' :: ("rc".toList ++ '.' :: numeral 10)) = "1.0.0-rc.10".toList :=
  ⟨(C16_numbers_after_word asciiTables [1, 0, 0] "rc".toList 9 10 (by decide) (by decide)
      (by decide) (by decide) (by decide) (by decide)).1,
   (C16_numbers_after_word asciiTables [1, 0, 0] "rc".toList 9 10 (by decide) (by decide)
      (by decide) (by decide) (by decide) (by decide)).2, by decide⟩

/-- C17 (a number inside a suffix token is text): for every numeric core `x`
and all non-empty strings `n`, `m` of ASCII digits,
`Compare(x + "-hotfix" + n, x + "-hotfix" + m)` is the sign of the byte-wise
lexicographic comparison of `n` with `m`, which `strings.Compare` computes; so
`hotfix2 > hotfix1` and `hotfix10 < hotfix9`. -/
theorem C17_number_inside_token_is_text (U : UnicodeTables) (xs : List Nat) (n m : Str)
    (hxs : xs ≠ []) (hbx : ∀ x ∈ xs, (x : Int) ≤ maxInt)
    (hn : ∀ c ∈ n, c.isDigit = true) (hm : ∀ c ∈ m, c.isDigit = true) :
    Compare U (core xs ++ ("-hotfix".toList ++ n)) (core xs ++ ("-hotfix".toList ++ m))
      = some (stringsCompare n m) ∧
    Compare U (core xs ++ "-hotfix2".toList) (core xs ++ "-hotfix1".toList) = some 1 ∧
    Compare U (core xs ++ "-hotfix10".toList) (core xs ++ "-hotfix9".toList) = some (-1) := by
  have key : ∀ a b : Str, (∀ c ∈ a, c.isDigit = true) → (∀ c ∈ b, c.isDigit = true) →
      Compare U (core xs ++ ("-hotfix".toList ++ a)) (core xs ++ ("-hotfix".toList ++ b))
        = some (stringsCompare a b) := by
    intro a b ha hb
    by_cases hab : a = b
    · subst hab
      rw [stringsCompare_self]
      exact compare_of_normalized_eq U _ _ _ rfl
    · have tag : ∀ k : Str, (∀ c ∈ k, c.isDigit = true) →
          IsTagSuffix ("-hotfix".toList ++ k) := by
        intro k hk
        exact Or.inr ⟨'h', "otfix".toList ++ k, by decide, hotfix_digits_alphanum k hk, rfl⟩
      have sp : ∀ k : Str, (∀ c ∈ k, c.isDigit = true) →
          (splitByDotOrDash ("-hotfix".toList ++ k)).tail = ['h' :: ("otfix".toList ++ k)] := by
        intro k hk
        exact split_tag 'h' ("otfix".toList ++ k) (by decide) (hotfix_digits_alphanum k hk)
      rw [Compare_eq, compared_same_core U _ xs _ _ hxs hbx (tag a ha) (tag b hb)
        (fun e => hab (List.append_cancel_left e)), sp a ha, sp b hb,
        suffixCmp_hotfix_digits U a b ha hb hab]
  exact ⟨key n m hn hm, key "2".toList "1".toList (by decide) (by decide),
    key "10".toList "9".toList (by decide) (by decide)⟩

/-- The rule at `1.0.0-hotfix10` and `1.0.0-hotfix9`. -/
theorem C17_number_inside_token_is_text_witness :
    Compare asciiTables (core [1, 0, 0] ++ ("-hotfix".toList ++ "10".toList))
      (core [1, 0, 0] ++ ("-hotfix".toList ++ "9".toList))
      = some (stringsCompare "10".toList "9".toList) ∧
    stringsCompare "10".toList "9".toList = -1 :=
  ⟨(C17_number_inside_token_is_text asciiTables [1, 0, 0] "10".toList "9".toList
      (by decide) (by decide) (by decide) (by decide)).1, by decide⟩

/-- C20 (a valid sort comparator without redundant leading zeros): with the
default options, for strings `a`, `b` whose normalized tokens, when made only
of ASCII digits, are `0` or do not begin with `0`,
`Compare(a, b) = -Compare(b, a)`; and for all strings `a`, `b`, `c`,
`Compare(a, b) <= 0` together with `Compare(b, c) <= 0` implies
`Compare(a, c) <= 0`. The lower-case mapping of the tables is taken
idempotent, as the one of Unicode is. -/
theorem C20_sort_comparator (U : UnicodeTables)
    (hU : ∀ c, U.ToLower (U.ToLower c) = U.ToLower c) (a b c : Str)
    (ha : noLeadingZeros U a = true) (hb : noLeadingZeros U b = true) :
    (∃ r : Int, Compare U a b = some r ∧ Compare U b a = some (-r)) ∧
    (∀ r1 r2 : Int, Compare U a b = some r1 → Compare U b c = some r2 → r1 ≤ 0 → r2 ≤ 0 →
      ∃ r3 : Int, Compare U a c = some r3 ∧ r3 ≤ 0) := by
  constructor
  · exact ⟨_, Compare_eq U a b, by rw [Compare_eq, compared_antisymm U _ a b ha hb]⟩
  · intro r1 r2 h1 h2 l1 l2
    rw [Compare_eq] at h1 h2
    have e1 := Option.some.inj h1
    have e2 := Option.some.inj h2
    rw [compared_eq_tokensCmp] at e1 e2
    refine ⟨_, Compare_eq U a c, ?_⟩
    rw [compared_eq_tokensCmp]
    exact tokensCmp_le_trans U _ hU (by decide) _ _ _ (by rw [e1]; exact l1)
      (by rw [e2]; exact l2)

/-- The comparator at `1.0.0-alpha`, `1.0.0` and `1.0.0-hotfix`. -/
theorem C20_sort_comparator_witness :
    (∃ r : Int, Compare asciiTables "1.0.0-alpha".toList "1.0.0".toList = some r ∧
      Compare asciiTables "1.0.0".toList "1.0.0-alpha".toList = some (-r)) ∧
    Compare asciiTables "1.0.0-alpha".toList "1.0.0".toList = some (-1) ∧
    Compare asciiTables "1.0.0".toList "1.0.0-hotfix".toList = some (-1) ∧
    (∃ r3 : Int, Compare asciiTables "1.0.0-alpha".toList "1.0.0-hotfix".toList = some r3 ∧
      r3 ≤ 0) :=
  ⟨(C20_sort_comparator asciiTables toLower_idem "1.0.0-alpha".toList "1.0.0".toList
      "1.0.0-hotfix".toList (by decide) (by decide)).1,
   by decide, by decide,
   (C20_sort_comparator asciiTables toLower_idem "1.0.0-alpha".toList "1.0.0".toList
      "1.0.0-hotfix".toList (by decide) (by decide)).2 (-1) (-1) (by decide) (by decide)
      (by decide) (by decide)⟩

end gversions
